import Mathlib

/-!
Verification of the pipeline execution core of the deli repository
(backend/app/operators: engine.py, base.py, registry.py, tool/loader.py).

The Python code is shallowly embedded: Python dicts over string keys become
partial maps (functions to Option), Python sets become lists used only via
membership, raised exceptions become Except results, and the asynchronous
level execution (asyncio.gather) is modelled by the sequential two-phase
structure the source itself has: a first loop that decides skip/launch per
operator of a level and a second loop that folds the gathered results into
the mutable state.  Database-backed collaborators (the operator registry and
the SourceLog event queries) are abstracted as an environment of functions,
matching the interface boundary drawn in the specification.
-/

namespace Deli

/-- A Python dict with string keys, modelled as a partial map. -/
def Dict (α : Type) : Type := String → Option α

namespace Dict

/-- The empty dict. -/
def empty {α : Type} : Dict α := fun _ => none

/-- Python assignment d[k] = v. -/
def set {α : Type} (d : Dict α) (k : String) (v : α) : Dict α :=
  fun q => if q = k then some v else d q

/-- Python merge of two dicts as in the literal with a double splat of a, then
a double splat of b: keys of b win. -/
def merge {α : Type} (a b : Dict α) : Dict α :=
  fun q =>
    match b q with
    | some v => some v
    | none => a q

end Dict

/-- PortType (base.py): the closed set of port data types. -/
inductive PortType : Type where
  | text
  | json
  | images
  | pdf_bytes
  | cards
deriving DecidableEq

/-- Port (base.py): a typed input or output slot on an operator. -/
structure Port : Type where
  key : String
  type : PortType
  description : String := ""
  required : Bool := true
deriving DecidableEq

/-- OpRef (engine.py): an Operator instance within a Step. -/
structure OpRef (α : Type) : Type where
  id : String
  operator_key : String
  config_overrides : Dict α

/-- Step (engine.py): business-meaningful task composed of ordered operators.
The position field (float-valued UI layout data, unused by the engine) is
omitted. -/
structure Step (α : Type) : Type where
  key : String
  label : String := ""
  operators : List (OpRef α) := []

/-- Edge (engine.py): data flow between operators. -/
structure Edge : Type where
  id : String
  source_op : String
  source_port : String
  target_op : String
  target_port : String
deriving DecidableEq

/-- Pipeline (engine.py). -/
structure Pipeline (α : Type) : Type where
  id : String := ""
  name : String := ""
  description : String := ""
  steps : List (Step α) := []
  edges : List Edge := []

/-- validate_inputs (base.py, OperatorBase.validate_inputs): walks the declared
input ports in order and raises on the first required port whose key is absent
from the inputs; the error message names the operator key and the missing
port key. -/
def validate_inputs {α : Type} (self_key : String) :
    List Port → Dict α → Except String Unit
  | [], _ => .ok ()
  | port :: rest, inputs =>
    if port.required && (inputs port.key).isNone then
      .error ("Operator " ++ self_key ++ ": missing required input port " ++ port.key)
    else validate_inputs self_key rest inputs

/-! ## Topological levels (engine.py, PipelineEngine._topological_levels) -/

/-- All op ids of the pipeline, in step order, duplicates kept
(the all_op_ids list of the source). -/
def allOpIds {α : Type} (p : Pipeline α) : List String :=
  (p.steps.map (fun s => s.operators.map (fun o => o.id))).flatten

/-- Worker for firstDedup: keep the elements not seen before. -/
def firstDedupGo {β : Type} [DecidableEq β] (seen : List β) : List β → List β
  | [] => []
  | a :: l => if a ∈ seen then firstDedupGo seen l else a :: firstDedupGo (seen ++ [a]) l

/-- Key order of a Python dict comprehension over a list: first occurrences. -/
def firstDedup {β : Type} [DecidableEq β] (l : List β) : List β :=
  firstDedupGo [] l

/-- Lookup in an association list (first occurrence). -/
def alook {β : Type} : List (String × β) → String → Option β
  | [], _ => none
  | (k, v) :: rest, q => if q = k then some v else alook rest q

/-- In-place decrement of the value at a key of an association list (first
occurrence), returning the updated list and the new value when present.
Models the statement decrementing in_degree at dep in the source. -/
def decKey : List (String × Int) → String → List (String × Int) × Option Int
  | [], _ => ([], none)
  | (k, v) :: rest, q =>
    if q = k then ((k, v - 1) :: rest, some (v - 1))
    else
      let r := decKey rest q
      ((k, v) :: r.1, r.2)

/-- In-place increment of the value at a key; none models the KeyError the
source raises when the key is absent. -/
def incKey : List (String × Int) → String → Option (List (String × Int))
  | [], _ => none
  | (k, v) :: rest, q =>
    if q = k then some ((k, v + 1) :: rest)
    else (incKey rest q).map (fun r => (k, v) :: r)

/-- Add a target to the dependents entry of a source key (set add: no effect
when already present); none models the KeyError on an absent key. -/
def addDep : List (String × List String) → String → String →
    Option (List (String × List String))
  | [], _, _ => none
  | (k, ts) :: rest, q, t =>
    if q = k then some ((k, if t ∈ ts then ts else ts ++ [t]) :: rest)
    else (addDep rest q t).map (fun r => (k, ts) :: r)

/-- The adjacency-building state of _topological_levels: in-degree counts,
dependents sets (modelled as duplicate-free lists) and the seen
(source_op, target_op) pairs. -/
structure TopoBuild : Type where
  in_degree : List (String × Int)
  dependents : List (String × List String)
  pair_seen : List (String × String)

/-- One edge of the adjacency-building loop of _topological_levels: edges with
the sentinel source are ignored; a (source_op, target_op) pair already seen is
ignored; otherwise the in-degree of the target is incremented and the target
is added to the dependents of the source. -/
def buildEdge (st : TopoBuild) (e : Edge) : Except String TopoBuild :=
  if e.source_op = "__input__" then .ok st
  else
    let pair := (e.source_op, e.target_op)
    if pair ∈ st.pair_seen then .ok st
    else
      match incKey st.in_degree e.target_op with
      | none => .error ("KeyError: " ++ e.target_op)
      | some indeg2 =>
        match addDep st.dependents e.source_op e.target_op with
        | none => .error ("KeyError: " ++ e.source_op)
        | some deps2 =>
          .ok { in_degree := indeg2, dependents := deps2,
                pair_seen := st.pair_seen ++ [pair] }

/-- The adjacency + in-degree build phase of _topological_levels. -/
def buildGraph (keys : List String) (edges : List Edge) : Except String TopoBuild :=
  edges.foldlM buildEdge
    { in_degree := keys.map (fun k => (k, 0)),
      dependents := keys.map (fun k => (k, [])),
      pair_seen := [] }

/-- Sum of the nonnegative parts of the in-degree values; used only to bound
the number of iterations of the Kahn while loop. -/
def sumNonneg (indeg : List (String × Int)) : Nat :=
  (indeg.map (fun kv => kv.2.toNat)).sum

/-- The inner double loop of one Kahn round: decrement the in-degree of every
dependent of every queue member, collecting the dependents whose in-degree
reaches exactly zero into the next queue. -/
def runDecs : List String → List (String × Int) → List String →
    List (String × Int) × List String
  | [], indeg, nq => (indeg, nq)
  | d :: rest, indeg, nq =>
    let r := decKey indeg d
    runDecs rest r.1 (if r.2 = some 0 then nq ++ [d] else nq)

/-- The Kahn while loop of _topological_levels, with explicit fuel.  The fuel
passed by kahnLevels strictly dominates the loop measure (sum of positive
in-degrees plus queue length, which strictly decreases each round), so the
zero-fuel branch is unreachable from kahnLevels: see the fuel lemmas below. -/
def kahnGo (dependents : List (String × List String)) :
    Nat → List String → List (String × Int) → List (List String)
  | 0, _, _ => []
  | _ + 1, [], _ => []
  | fuel + 1, q :: qs, indeg =>
    let queue := q :: qs
    let decs := (queue.map (fun oid => (alook dependents oid).getD [])).flatten
    let r := runDecs decs indeg []
    queue :: kahnGo dependents fuel r.2 r.1

/-- Kahn level computation of _topological_levels, without the final cycle
check: build the graph, seed the queue with the zero in-degree nodes in key
order, and run the while loop. -/
def kahnLevels {α : Type} (p : Pipeline α) : Except String (List (List String)) := do
  let keys := firstDedup (allOpIds p)
  let st ← buildGraph keys p.edges
  let queue0 := (st.in_degree.filter (fun kv => kv.2 = 0)).map (fun kv => kv.1)
  .ok (kahnGo st.dependents (sumNonneg st.in_degree + queue0.length + 1) queue0 st.in_degree)

/-- PipelineEngine._topological_levels: Kahn levels plus the cycle check that
the number of placed nodes equals the total node count. -/
def topological_levels {α : Type} (p : Pipeline α) :
    Except String (List (List String)) := do
  let levels ← kahnLevels p
  let executed := (levels.map (fun lv => lv.length)).sum
  let total := (allOpIds p).length
  if executed ≠ total then
    .error ("Pipeline has a cycle — only " ++ toString executed ++ "/" ++
      toString total ++ " operators reachable")
  else
    .ok levels

/-! ## Engine state and environment (engine.py, PipelineEngine.run) -/

/-- The external collaborators of the engine, abstracted at the interface
boundary the specification draws: the registry lookup, the execute contract
of the operator obtained for an operator_key, and the two SourceLog
completion queries used for smart-skip. -/
structure EngineEnv (α : Type) : Type where
  /-- registry membership: get_operator raises KeyError on an unknown key. -/
  known_key : String → Bool
  /-- operator.execute for the operator registered under a key, applied to the
  merged inputs: ok outputs, or error for a raised exception. -/
  exec_op : String → Dict α → Except String (Dict α)
  /-- _is_operator_completed: a completed SourceLog entry exists for the op id. -/
  op_completed_log : String → Bool
  /-- _is_step_completed: a step_completed SourceLog entry exists for the step key. -/
  step_completed_log : String → Bool

/-- The mutable run-local state of PipelineEngine.run.  Python sets are
modelled as duplicate-free lists used through membership.  The invoked field
is the ghost trace of op ids whose operator execute was actually called. -/
structure EngineState (α : Type) : Type where
  op_outputs : Dict (Dict α)
  failed_ops : List String
  step_started : List String
  step_completed : List String
  step_failed : List String
  invoked : List String

/-- Python set add: no effect when the element is already present. -/
def addSet (s : List String) (x : String) : List String :=
  if x ∈ s then s else s ++ [x]

/-- PipelineEngine._build_op_map: op_id to OpRef and op_id to step key
(later occurrences overwrite, as Python dict assignment does). -/
def build_op_map {α : Type} (p : Pipeline α) : Dict (OpRef α) × Dict String :=
  p.steps.foldl
    (fun maps s =>
      s.operators.foldl (fun m o => (m.1.set o.id o, m.2.set o.id s.key)) maps)
    (Dict.empty, Dict.empty)

/-- The step_map lookup table of run: step key to Step. -/
def stepMap {α : Type} (p : Pipeline α) : Dict (Step α) :=
  p.steps.foldl (fun m s => m.set s.key s) Dict.empty

/-- PipelineEngine._get_upstream_ops: the source ops of the non-sentinel edges
into an op.  The source builds a set; the list here is used only through
membership. -/
def get_upstream_ops (op_id : String) (edges : List Edge) : List String :=
  (edges.filter (fun e => e.target_op = op_id && e.source_op ≠ "__input__")).map
    (fun e => e.source_op)

/-- PipelineEngine._gather_inputs: walk the edges in order; for every edge into
the op whose source output is recorded and contains the source port, bind the
target port (later edges overwrite).  The dict-get with default makes this
total. -/
def gather_inputs {α : Type} (op_id : String) (edges : List Edge)
    (op_outputs : Dict (Dict α)) : Dict α :=
  edges.foldl
    (fun inputs e =>
      if e.target_op ≠ op_id then inputs
      else
        let source_data := (op_outputs e.source_op).getD Dict.empty
        match source_data e.source_port with
        | some v => inputs.set e.target_port v
        | none => inputs)
    Dict.empty

/-- The input merge of _run_op: static config_overrides first, overridden by
edge-supplied values. -/
def merged_inputs {α : Type} (r : OpRef α) (inputs : Dict α) : Dict α :=
  Dict.merge r.config_overrides inputs

/-- PipelineEngine._run_op: look up the operator (KeyError on unknown key),
merge config_overrides under the gathered inputs, smart-skip with empty
outputs when the op already has a completed log entry, otherwise call
execute.  The Bool records whether execute was called. -/
def run_op {α : Type} (env : EngineEnv α) (r : OpRef α) (inputs : Dict α) :
    Except String (Dict α) × Bool :=
  if env.known_key r.operator_key = false then
    (.error ("Unknown operator key: " ++ r.operator_key), false)
  else
    let merged := merged_inputs r inputs
    if env.op_completed_log r.id then (.ok Dict.empty, false)
    else (env.exec_op r.operator_key merged, true)

/-- The per-op task outcome a level gathers: the skip sentinel, or the result
of the launched _run_op coroutine. -/
inductive Slot (α : Type) : Type where
  | skipped : Slot α
  | launched : Except String (Dict α) → Slot α

/-- The default OpRef used to make the always-defined op_map lookup total; run
only looks up ids produced by _topological_levels from the same steps. -/
def defaultOpRef {α : Type} : OpRef α :=
  { id := "", operator_key := "", config_overrides := Dict.empty }

/-- The default Step for the always-defined step_map lookup. -/
def defaultStep {α : Type} : Step α := { key := "", label := "", operators := [] }

/-- The first per-level loop of run, for one op of the level: decide between
upstream-failure skip (op marked failed, its step marked failed), whole-step
smart-skip (step marked completed and started, empty outputs recorded for all
its ops), silent skip when the step is already completed in this run, or
launch (step marked started on first contact, inputs gathered, _run_op
evaluated). -/
def level_prepare {α : Type} (env : EngineEnv α) (p : Pipeline α)
    (acc : EngineState α × List (String × Slot α)) (op_id : String) :
    EngineState α × List (String × Slot α) :=
  let st := acc.1
  let slots := acc.2
  let op_ref := ((build_op_map p).1 op_id).getD defaultOpRef
  let step_key := ((build_op_map p).2 op_id).getD ""
  let upstream_ids := get_upstream_ops op_id p.edges
  if upstream_ids.any (fun u => u ∈ st.failed_ops) then
    let st1 := { st with failed_ops := addSet st.failed_ops op_id,
                         step_failed := addSet st.step_failed step_key }
    (st1, slots ++ [(op_id, Slot.skipped)])
  else if step_key ∉ st.step_started ∧ env.step_completed_log step_key then
    let stepv := (stepMap p step_key).getD defaultStep
    let outs2 := stepv.operators.foldl (fun m o => m.set o.id Dict.empty) st.op_outputs
    let st1 := { st with step_completed := addSet st.step_completed step_key,
                         step_started := addSet st.step_started step_key,
                         op_outputs := outs2 }
    (st1, slots ++ [(op_id, Slot.skipped)])
  else if step_key ∈ st.step_completed then
    (st, slots ++ [(op_id, Slot.skipped)])
  else
    let st1 := { st with step_started := addSet st.step_started step_key }
    let inputs := gather_inputs op_id p.edges st1.op_outputs
    let r := run_op env op_ref inputs
    let st2 := if r.2 then { st1 with invoked := st1.invoked ++ [op_id] } else st1
    (st2, slots ++ [(op_id, Slot.launched r.1)])

/-- The second per-level loop of run: fold the gathered results.  A skipped
slot is passed over; an exception marks the op failed and its step failed; a
success stores the outputs and, when the op is the last OpRef of its step
list and the step has not failed, marks the step completed. -/
def level_collect {α : Type} (p : Pipeline α) (st0 : EngineState α)
    (slots : List (String × Slot α)) : EngineState α :=
  slots.foldl
    (fun st slot =>
      match slot.2 with
      | Slot.skipped => st
      | Slot.launched res =>
        let op_id := slot.1
        let step_key := ((build_op_map p).2 op_id).getD ""
        match res with
        | .error _ =>
          { st with failed_ops := addSet st.failed_ops op_id,
                    step_failed := addSet st.step_failed step_key }
        | .ok out =>
          let st1 := { st with op_outputs := st.op_outputs.set op_id out }
          let stepv := (stepMap p step_key).getD defaultStep
          if (stepv.operators.getLast?).map (fun o => o.id) = some op_id ∧
              step_key ∉ st1.step_failed then
            { st1 with step_completed := addSet st1.step_completed step_key }
          else st1)
    st0

/-- One level of run: prepare every op of the level, then collect. -/
def run_level {α : Type} (env : EngineEnv α) (p : Pipeline α)
    (st : EngineState α) (level : List String) : EngineState α :=
  let r := level.foldl (level_prepare env p) (st, [])
  level_collect p r.1 r.2

/-- The initial mutable state of run: op_outputs seeded with the sentinel
bound to the initial inputs, everything else empty. -/
def initial_state {α : Type} (initial_inputs : Dict α) : EngineState α :=
  { op_outputs := Dict.set Dict.empty "__input__" initial_inputs,
    failed_ops := [], step_started := [], step_completed := [],
    step_failed := [], invoked := [] }

/-- The instrumented semantics of PipelineEngine.run: compute the levels
(raising on a cycle), execute them in order, and return the complete final
mutable state. -/
def run_state {α : Type} (env : EngineEnv α) (p : Pipeline α)
    (initial_inputs : Dict α) : Except String (EngineState α) := do
  let levels ← topological_levels p
  .ok (levels.foldl (run_level env p) (initial_state initial_inputs))

/-- PipelineEngine.run: the value the method actually returns — the final
op_outputs map alone (the final statement of the source is: return
op_outputs). -/
def PipelineEngine.run {α : Type} (env : EngineEnv α) (p : Pipeline α)
    (initial_inputs : Dict α) : Except String (Dict (Dict α)) :=
  (run_state env p initial_inputs).map (fun st => st.op_outputs)

/-- The failed op set of a finished run (internal state, not returned by run);
the empty list for a run that raised. -/
def failedOf {α : Type} (r : Except String (EngineState α)) : List String :=
  match r with
  | .ok st => st.failed_ops
  | .error _ => []

/-- The invocation trace of a finished run; empty for a run that raised. -/
def invokedOf {α : Type} (r : Except String (EngineState α)) : List String :=
  match r with
  | .ok st => st.invoked
  | .error _ => []

/-- The step_failed set of a finished run; empty for a run that raised. -/
def stepFailedOf {α : Type} (r : Except String (EngineState α)) : List String :=
  match r with
  | .ok st => st.step_failed
  | .error _ => []

/-! ## Specification-side notions -/

/-- One non-sentinel dependency edge from u to v. -/
def edgeStep (edges : List Edge) (u v : String) : Prop :=
  ∃ e ∈ edges, e.source_op = u ∧ e.target_op = v ∧ u ≠ "__input__"

/-- Transitive reachability along non-sentinel edges. -/
def Reaches (edges : List Edge) (u v : String) : Prop :=
  Relation.TransGen (edgeStep edges) u v

/-- Every non-sentinel edge connects two declared op ids. -/
def EdgesValid {α : Type} (p : Pipeline α) : Prop :=
  ∀ e ∈ p.edges, e.source_op ≠ "__input__" →
    e.source_op ∈ allOpIds p ∧ e.target_op ∈ allOpIds p

/-- Acyclicity witnessed by a rank function that strictly increases along
every non-sentinel edge. -/
def AcyclicRank {α : Type} (p : Pipeline α) : Prop :=
  ∃ rank : String → Nat, ∀ e ∈ p.edges,
    e.source_op ≠ "__input__" → rank e.source_op < rank e.target_op

/-- The ordered (source_op, target_op) pairs of the non-sentinel edges,
duplicates kept. -/
def nonSentinelPairs (edges : List Edge) : List (String × String) :=
  edges.filterMap
    (fun e => if e.source_op = "__input__" then none else some (e.source_op, e.target_op))

/-- The de-duplicated dependency pairs, in first-occurrence order: the final
pair_seen set of the adjacency build. -/
def pairList (edges : List Edge) : List (String × String) :=
  firstDedup (nonSentinelPairs edges)

/-- Number of dependency pairs into n whose source is not yet placed. -/
def remDeg (pairs : List (String × String)) (placed : List String) (n : String) : Nat :=
  pairs.countP (fun pr => decide (pr.2 = n ∧ pr.1 ∉ placed))

/-- The dependents list of u built by the adjacency phase: the targets of the
de-duplicated pairs whose source is u, in order. -/
def depTargets (pairs : List (String × String)) (u : String) : List String :=
  (pairs.filter (fun pr => pr.1 = u)).map Prod.snd

/-- The loop invariant of the Kahn while loop, between rounds: the in-degree
table carries the number of not-yet-placed de-duplicated predecessors of each
node, the queue is exactly the set of unplaced nodes with no unplaced
predecessor, and placed nodes never have unplaced predecessors. -/
structure KInv (keys : List String) (pairs : List (String × String))
    (placed queue : List String) (indeg : List (String × Int)) : Prop where
  indeg_keys : indeg.map Prod.fst = keys
  indeg_val : ∀ n d, alook indeg n = some d → d = (remDeg pairs placed n : Int)
  nd : (placed ++ queue).Nodup
  sub : ∀ x ∈ placed ++ queue, x ∈ keys
  queue_char : ∀ n ∈ keys, (n ∈ queue ↔ n ∉ placed ∧ remDeg pairs placed n = 0)
  placed_zero : ∀ n ∈ placed, remDeg pairs placed n = 0

/-- The invariant of the adjacency build: key tables cover exactly the node
keys, pair_seen is a duplicate-free record of the processed dependency pairs
with endpoints among the keys, the in-degree of n counts the seen pairs into
n, and the dependents of u list the seen targets of u in order. -/
def BI (keys : List String) (st : TopoBuild) : Prop :=
  st.in_degree.map Prod.fst = keys ∧
  st.dependents.map Prod.fst = keys ∧
  st.pair_seen.Nodup ∧
  (∀ pr ∈ st.pair_seen, pr.1 ∈ keys ∧ pr.2 ∈ keys) ∧
  (∀ n d, alook st.in_degree n = some d →
    d = ((st.pair_seen.countP (fun pr => decide (pr.2 = n)) : Int))) ∧
  (∀ u ts, alook st.dependents u = some ts → ts = depTargets st.pair_seen u)

/-- The (OpRef, step key) occurrences of a pipeline in traversal order. -/
def opTrips {α : Type} (p : Pipeline α) : List (OpRef α × String) :=
  (p.steps.map (fun s => s.operators.map (fun o => (o, s.key)))).flatten

/-- The index of the level containing an op id, if any. -/
def levelIdx : List (List String) → String → Option Nat
  | [], _ => none
  | lv :: rest, x => if x ∈ lv then some 0 else (levelIdx rest x).map (fun i => i + 1)

/-! ## Concrete pipelines and environments used to instantiate the claims -/

/-- A pipeline with a single operator whose execute raises. -/
def exPipelineSingleFail : Pipeline Nat :=
  { steps := [{ key := "s1", operators :=
      [{ id := "a", operator_key := "ka", config_overrides := Dict.empty }] }],
    edges := [] }

/-- The empty pipeline. -/
def exPipelineEmpty : Pipeline Nat := { steps := [], edges := [] }

/-- An environment in which every operator raises and no log entries exist. -/
def exEnvFailAll : EngineEnv Nat :=
  { known_key := fun _ => true,
    exec_op := fun _ _ => .error "boom",
    op_completed_log := fun _ => false,
    step_completed_log := fun _ => false }

/-- A pipeline whose second step lists its operators against the dependency
order: step s2 lists A before B, yet B feeds A, so B (the last OpRef of s2)
runs one level before A. -/
def cexStepLast : Pipeline Nat :=
  { steps :=
      [{ key := "s1", operators :=
          [{ id := "F", operator_key := "kF", config_overrides := Dict.empty }] },
       { key := "s2", operators :=
          [{ id := "A", operator_key := "kA", config_overrides := Dict.empty },
           { id := "B", operator_key := "kB", config_overrides := Dict.empty }] }],
    edges := [{ id := "e1", source_op := "B", source_port := "x",
                target_op := "A", target_port := "x" }] }

/-- An environment in which only the operator registered under kF raises. -/
def cexEnv : EngineEnv Nat :=
  { known_key := fun _ => true,
    exec_op := fun k _ => if k = "kF" then .error "boom" else .ok Dict.empty,
    op_completed_log := fun _ => false,
    step_completed_log := fun _ => false }

/-- Single-operator steps: A feeds B, C is independent of both. -/
def witPipelineC2 : Pipeline Nat :=
  { steps :=
      [{ key := "sA", operators :=
          [{ id := "A", operator_key := "kA", config_overrides := Dict.empty }] },
       { key := "sB", operators :=
          [{ id := "B", operator_key := "kB", config_overrides := Dict.empty }] },
       { key := "sC", operators :=
          [{ id := "C", operator_key := "kC", config_overrides := Dict.empty }] }],
    edges := [{ id := "e1", source_op := "A", source_port := "x",
                target_op := "B", target_port := "x" }] }

/-- An environment in which only the operator registered under kA raises. -/
def witEnvC2 : EngineEnv Nat :=
  { known_key := fun _ => true,
    exec_op := fun k _ => if k = "kA" then .error "boom" else .ok Dict.empty,
    op_completed_log := fun _ => false,
    step_completed_log := fun _ => false }

/-- The fetch to summary/notes fan-out of the specification scenario. -/
def witPipelineC3 : Pipeline Nat :=
  { steps :=
      [{ key := "sf", operators :=
          [{ id := "fetch", operator_key := "kf", config_overrides := Dict.empty }] },
       { key := "ss", operators :=
          [{ id := "summary", operator_key := "ks", config_overrides := Dict.empty }] },
       { key := "sn", operators :=
          [{ id := "notes", operator_key := "kn", config_overrides := Dict.empty }] }],
    edges := [{ id := "e1", source_op := "fetch", source_port := "text",
                target_op := "summary", target_port := "text" },
              { id := "e2", source_op := "fetch", source_port := "text",
                target_op := "notes", target_port := "text" }] }

/-- A two-operator cycle A to B to A. -/
def witPipelineC4 : Pipeline Nat :=
  { steps :=
      [{ key := "s", operators :=
          [{ id := "A", operator_key := "kA", config_overrides := Dict.empty },
           { id := "B", operator_key := "kB", config_overrides := Dict.empty }] }],
    edges := [{ id := "e1", source_op := "A", source_port := "x",
                target_op := "B", target_port := "x" },
              { id := "e2", source_op := "B", source_port := "x",
                target_op := "A", target_port := "x" }] }

/-- An environment whose event log reports every step as completed. -/
def witEnvC5 : EngineEnv Nat :=
  { known_key := fun _ => true,
    exec_op := fun _ _ => .ok Dict.empty,
    op_completed_log := fun _ => false,
    step_completed_log := fun _ => true }

/-- Duplicate dependency pair A to B over two ports, plus a sentinel edge
into C. -/
def witPipelineC6 : Pipeline Nat :=
  { steps :=
      [{ key := "s", operators :=
          [{ id := "A", operator_key := "kA", config_overrides := Dict.empty },
           { id := "B", operator_key := "kB", config_overrides := Dict.empty },
           { id := "C", operator_key := "kC", config_overrides := Dict.empty }] }],
    edges := [{ id := "e1", source_op := "A", source_port := "x",
                target_op := "B", target_port := "x" },
              { id := "e2", source_op := "A", source_port := "y",
                target_op := "B", target_port := "y" },
              { id := "e3", source_op := "__input__", source_port := "url",
                target_op := "C", target_port := "url" }] }

/-! ## Basic lemmas: Dict, addSet, alook, firstDedup -/

theorem Dict.set_self {α : Type} (d : Dict α) (k : String) (v : α) :
    (d.set k v) k = some v := by
  simp [Dict.set]

theorem Dict.set_other {α : Type} (d : Dict α) (k q : String) (v : α) (h : q ≠ k) :
    (d.set k v) q = d q := by
  simp [Dict.set, h]

theorem addSet_mem (s : List String) (x y : String) :
    y ∈ addSet s x ↔ y ∈ s ∨ y = x := by
  unfold addSet
  by_cases hx : x ∈ s
  · simp only [if_pos hx]
    constructor
    · exact Or.inl
    · rintro (h | rfl)
      · exact h
      · exact hx
  · simp [if_neg hx]

theorem addSet_subset (s : List String) (x : String) : ∀ y ∈ s, y ∈ addSet s x := by
  intro y hy
  exact (addSet_mem s x y).mpr (Or.inl hy)

theorem mem_addSet_self (s : List String) (x : String) : x ∈ addSet s x :=
  (addSet_mem s x x).mpr (Or.inr rfl)

theorem alook_eq_none {β : Type} (l : List (String × β)) (q : String) :
    alook l q = none ↔ q ∉ l.map Prod.fst := by
  induction l with
  | nil => simp [alook]
  | cons kv rest ih =>
    obtain ⟨k, v⟩ := kv
    by_cases h : q = k
    · subst h
      simp [alook]
    · simp [alook, h, ih]

theorem alook_isSome_iff {β : Type} (l : List (String × β)) (q : String) :
    (alook l q).isSome ↔ q ∈ l.map Prod.fst := by
  have h := alook_eq_none l q
  cases hl : alook l q with
  | none =>
    simp only [hl, Option.isSome_none, Bool.false_eq_true, false_iff]
    exact h.mp hl
  | some v =>
    simp only [hl, Option.isSome_some, true_iff]
    by_contra hq
    rw [h.mpr hq] at hl
    exact Option.noConfusion hl

theorem alook_mem {β : Type} (l : List (String × β)) (q : String) (v : β)
    (h : alook l q = some v) : (q, v) ∈ l := by
  induction l with
  | nil => simp [alook] at h
  | cons kv rest ih =>
    obtain ⟨k, w⟩ := kv
    by_cases hq : q = k
    · subst hq
      simp only [alook, if_true, eq_self_iff_true] at h
      simp only [Option.some.injEq] at h
      subst h
      exact List.mem_cons_self _ _
    · simp only [alook, if_neg hq] at h
      exact List.mem_cons_of_mem _ (ih h)

theorem alook_map_const {β : Type} (keys : List String) (c : β) (q : String) :
    alook (keys.map (fun k => (k, c))) q = if q ∈ keys then some c else none := by
  induction keys with
  | nil => simp [alook]
  | cons k rest ih =>
    by_cases h : q = k
    · subst h
      simp [alook]
    · simp only [List.map_cons, alook, if_neg h, List.mem_cons, ih]
      rcases Decidable.em (q ∈ rest) with hm | hm
      · simp [hm, h]
      · simp [hm, h]

theorem firstDedupGo_mem {β : Type} [DecidableEq β] (seen l : List β) (x : β) :
    x ∈ firstDedupGo seen l ↔ x ∈ l ∧ x ∉ seen := by
  induction l generalizing seen with
  | nil => simp [firstDedupGo]
  | cons a rest ih =>
    by_cases ha : a ∈ seen
    · rw [firstDedupGo, if_pos ha, ih]
      constructor
      · rintro ⟨h1, h2⟩
        exact ⟨List.mem_cons_of_mem _ h1, h2⟩
      · rintro ⟨h1, h2⟩
        rcases List.mem_cons.mp h1 with rfl | h1
        · exact absurd ha h2
        · exact ⟨h1, h2⟩
    · rw [firstDedupGo, if_neg ha]
      simp only [List.mem_cons, ih, List.mem_append, List.mem_singleton]
      constructor
      · rintro (rfl | ⟨h1, h2⟩)
        · exact ⟨Or.inl rfl, ha⟩
        · refine ⟨Or.inr h1, fun hc => h2 (Or.inl hc)⟩
      · rintro ⟨rfl | h1, h2⟩
        · exact Or.inl rfl
        · rcases Decidable.em (x = a) with rfl | hxa
          · exact Or.inl rfl
          · exact Or.inr ⟨h1, by simp [hxa, h2]⟩

theorem firstDedup_mem {β : Type} [DecidableEq β] (l : List β) (x : β) :
    x ∈ firstDedup l ↔ x ∈ l := by
  simp [firstDedup, firstDedupGo_mem]

theorem firstDedupGo_nodup {β : Type} [DecidableEq β] (seen l : List β) :
    (firstDedupGo seen l).Nodup := by
  induction l generalizing seen with
  | nil => simp [firstDedupGo]
  | cons a rest ih =>
    by_cases ha : a ∈ seen
    · rw [firstDedupGo, if_pos ha]
      exact ih seen
    · rw [firstDedupGo, if_neg ha]
      refine List.nodup_cons.mpr ⟨?_, ih _⟩
      rw [firstDedupGo_mem]
      rintro ⟨-, h2⟩
      exact h2 (by simp)

theorem firstDedup_nodup {β : Type} [DecidableEq β] (l : List β) :
    (firstDedup l).Nodup := firstDedupGo_nodup [] l

theorem firstDedupGo_of_nodup {β : Type} [DecidableEq β] (seen l : List β)
    (h : l.Nodup) (hd : ∀ x ∈ l, x ∉ seen) : firstDedupGo seen l = l := by
  induction l generalizing seen with
  | nil => simp [firstDedupGo]
  | cons a rest ih =>
    rw [firstDedupGo, if_neg (hd a (List.mem_cons_self _ _))]
    congr 1
    refine ih _ (List.nodup_cons.mp h).2 ?_
    intro x hx
    simp only [List.mem_append, List.mem_singleton]
    rintro (hc | rfl)
    · exact hd x (List.mem_cons_of_mem _ hx) hc
    · exact (List.nodup_cons.mp h).1 hx

theorem firstDedup_of_nodup {β : Type} [DecidableEq β] (l : List β) (h : l.Nodup) :
    firstDedup l = l :=
  firstDedupGo_of_nodup [] l h (by simp)

theorem firstDedupGo_length_le {β : Type} [DecidableEq β] (l : List β) :
    ∀ seen : List β, (firstDedupGo seen l).length ≤ l.length := by
  induction l with
  | nil => intro seen; simp [firstDedupGo]
  | cons a rest ih =>
    intro seen
    by_cases ha : a ∈ seen
    · rw [firstDedupGo, if_pos ha]
      exact Nat.le_succ_of_le (ih seen)
    · rw [firstDedupGo, if_neg ha]
      simpa using Nat.succ_le_succ (ih (seen ++ [a]))

theorem firstDedup_length_le {β : Type} [DecidableEq β] (l : List β) :
    (firstDedup l).length ≤ l.length :=
  firstDedupGo_length_le l []

/-! ## Lemmas about the association-list updates of the graph build -/

theorem incKey_none {l : List (String × Int)} {q : String} :
    incKey l q = none ↔ q ∉ l.map Prod.fst := by
  induction l with
  | nil => simp [incKey]
  | cons kv rest ih =>
    obtain ⟨k, v⟩ := kv
    by_cases h : q = k
    · subst h
      simp [incKey]
    · rw [show incKey ((k, v) :: rest) q = (incKey rest q).map (fun r => (k, v) :: r) by
        simp [incKey, h]]
      simp only [List.map_cons, List.mem_cons, h, false_or]
      cases hr : incKey rest q
      · simp only [Option.map_none', true_iff]
        exact ih.mp hr
      · simp only [Option.map_some']
        constructor
        · intro hc; exact Option.noConfusion hc
        · intro hc
          rw [ih.mpr hc] at hr
          exact Option.noConfusion hr

theorem incKey_some_spec {l : List (String × Int)} {q : String} {l2 : List (String × Int)}
    (h : incKey l q = some l2) :
    l2.map Prod.fst = l.map Prod.fst ∧
    alook l2 q = (alook l q).map (fun v => v + 1) ∧
    ∀ n, n ≠ q → alook l2 n = alook l n := by
  induction l generalizing l2 with
  | nil => simp [incKey] at h
  | cons kv rest ih =>
    obtain ⟨k, v⟩ := kv
    by_cases hq : q = k
    · subst hq
      rw [show incKey ((q, v) :: rest) q = some ((q, v + 1) :: rest) by simp [incKey]] at h
      obtain rfl : (q, v + 1) :: rest = l2 := Option.some.inj h
      refine ⟨by simp, by simp [alook], ?_⟩
      intro n hn
      simp [alook, hn]
    · rw [show incKey ((k, v) :: rest) q = (incKey rest q).map (fun r => (k, v) :: r) by
        simp [incKey, hq]] at h
      cases hr : incKey rest q with
      | none => rw [hr] at h; exact Option.noConfusion h
      | some r2 =>
        rw [hr] at h
        simp only [Option.map_some', Option.some.injEq] at h
        subst h
        obtain ⟨h1, h2, h3⟩ := ih hr
        refine ⟨by simp [h1], ?_, ?_⟩
        · simp only [alook, if_neg hq, h2]
        · intro n hn
          by_cases hnk : n = k
          · subst hnk; simp [alook]
          · simp only [alook, if_neg hnk, h3 n hn]

theorem addDep_none {l : List (String × List String)} {q t : String} :
    addDep l q t = none ↔ q ∉ l.map Prod.fst := by
  induction l with
  | nil => simp [addDep]
  | cons kv rest ih =>
    obtain ⟨k, v⟩ := kv
    by_cases h : q = k
    · subst h
      simp [addDep]
    · rw [show addDep ((k, v) :: rest) q t = (addDep rest q t).map (fun r => (k, v) :: r) by
        simp [addDep, h]]
      simp only [List.map_cons, List.mem_cons, h, false_or]
      cases hr : addDep rest q t
      · simp only [Option.map_none', true_iff]
        exact ih.mp hr
      · simp only [Option.map_some']
        constructor
        · intro hc; exact Option.noConfusion hc
        · intro hc
          rw [ih.mpr hc] at hr
          exact Option.noConfusion hr

theorem addDep_some_spec {l : List (String × List String)} {q t : String}
    {l2 : List (String × List String)} (h : addDep l q t = some l2) :
    l2.map Prod.fst = l.map Prod.fst ∧
    alook l2 q = (alook l q).map (fun ts => if t ∈ ts then ts else ts ++ [t]) ∧
    ∀ n, n ≠ q → alook l2 n = alook l n := by
  induction l generalizing l2 with
  | nil => simp [addDep] at h
  | cons kv rest ih =>
    obtain ⟨k, v⟩ := kv
    by_cases hq : q = k
    · subst hq
      rw [show addDep ((q, v) :: rest) q t =
          some ((q, if t ∈ v then v else v ++ [t]) :: rest) by simp [addDep]] at h
      obtain rfl : (q, if t ∈ v then v else v ++ [t]) :: rest = l2 := Option.some.inj h
      refine ⟨by simp, by simp [alook], ?_⟩
      intro n hn
      simp [alook, hn]
    · rw [show addDep ((k, v) :: rest) q t = (addDep rest q t).map (fun r => (k, v) :: r) by
        simp [addDep, hq]] at h
      cases hr : addDep rest q t with
      | none => rw [hr] at h; exact Option.noConfusion h
      | some r2 =>
        rw [hr] at h
        simp only [Option.map_some', Option.some.injEq] at h
        subst h
        obtain ⟨h1, h2, h3⟩ := ih hr
        refine ⟨by simp [h1], ?_, ?_⟩
        · simp only [alook, if_neg hq, h2]
        · intro n hn
          by_cases hnk : n = k
          · subst hnk; simp [alook]
          · simp only [alook, if_neg hnk, h3 n hn]

theorem decKey_map_fst (l : List (String × Int)) (q : String) :
    (decKey l q).1.map Prod.fst = l.map Prod.fst := by
  induction l with
  | nil => simp [decKey]
  | cons kv rest ih =>
    obtain ⟨k, v⟩ := kv
    by_cases h : q = k
    · subst h; simp [decKey]
    · simp [decKey, if_neg h, ih]

theorem decKey_snd (l : List (String × Int)) (q : String) :
    (decKey l q).2 = (alook l q).map (fun v => v - 1) := by
  induction l with
  | nil => simp [decKey, alook]
  | cons kv rest ih =>
    obtain ⟨k, v⟩ := kv
    by_cases h : q = k
    · subst h; simp [decKey, alook]
    · simp [decKey, alook, if_neg h, ih]

theorem decKey_alook_self (l : List (String × Int)) (q : String) :
    alook (decKey l q).1 q = (alook l q).map (fun v => v - 1) := by
  induction l with
  | nil => simp [decKey, alook]
  | cons kv rest ih =>
    obtain ⟨k, v⟩ := kv
    by_cases h : q = k
    · subst h; simp [decKey, alook]
    · simp [decKey, alook, if_neg h, ih]

theorem decKey_alook_other (l : List (String × Int)) (q n : String) (h : n ≠ q) :
    alook (decKey l q).1 n = alook l n := by
  induction l with
  | nil => simp [decKey]
  | cons kv rest ih =>
    obtain ⟨k, v⟩ := kv
    by_cases hq : q = k
    · subst hq
      simp [decKey, alook, if_neg h]
    · by_cases hn : n = k
      · subst hn; simp [decKey, alook, if_neg hq]
      · simp [decKey, alook, if_neg hq, if_neg hn, ih]

theorem sumNonneg_cons (k : String) (v : Int) (rest : List (String × Int)) :
    sumNonneg ((k, v) :: rest) = v.toNat + sumNonneg rest := by
  simp [sumNonneg]

theorem sumNonneg_decKey_le (l : List (String × Int)) (q : String) :
    sumNonneg (decKey l q).1 ≤ sumNonneg l := by
  induction l with
  | nil => simp [decKey]
  | cons kv rest ih =>
    obtain ⟨k, v⟩ := kv
    by_cases h : q = k
    · subst h
      rw [show (decKey ((q, v) :: rest) q).1 = (q, v - 1) :: rest by simp [decKey]]
      rw [sumNonneg_cons, sumNonneg_cons]
      have : (v - 1).toNat ≤ v.toNat := Int.toNat_le_toNat (by omega)
      omega
    · rw [show (decKey ((k, v) :: rest) q).1 = (k, v) :: (decKey rest q).1 by simp [decKey, h]]
      rw [sumNonneg_cons, sumNonneg_cons]
      omega

theorem sumNonneg_decKey_zero (l : List (String × Int)) (q : String)
    (h : (decKey l q).2 = some 0) : sumNonneg (decKey l q).1 + 1 = sumNonneg l := by
  induction l with
  | nil => simp [decKey] at h
  | cons kv rest ih =>
    obtain ⟨k, v⟩ := kv
    by_cases hq : q = k
    · subst hq
      rw [show (decKey ((q, v) :: rest) q).2 = some (v - 1) by simp [decKey]] at h
      have hv : v = 1 := by
        have := Option.some.inj h
        omega
      subst hv
      rw [show (decKey ((q, (1 : Int)) :: rest) q).1 = (q, (0 : Int)) :: rest by
        simp [decKey]]
      rw [sumNonneg_cons, sumNonneg_cons]
      omega
    · rw [show (decKey ((k, v) :: rest) q).2 = (decKey rest q).2 by simp [decKey, hq]] at h
      rw [show (decKey ((k, v) :: rest) q).1 = (k, v) :: (decKey rest q).1 by
        simp [decKey, hq]]
      rw [sumNonneg_cons, sumNonneg_cons]
      have := ih h
      omega

/-! ## Characterization of one Kahn decrement round -/

theorem runDecs_spec (decs : List String) :
    ∀ (indeg : List (String × Int)) (nq : List String),
    (runDecs decs indeg nq).1.map Prod.fst = indeg.map Prod.fst ∧
    (∀ n, alook (runDecs decs indeg nq).1 n =
      (alook indeg n).map (fun v => v - (decs.count n : Int))) ∧
    ∃ extra, (runDecs decs indeg nq).2 = nq ++ extra ∧ extra.Nodup ∧
      (∀ n, n ∈ extra ↔ ∃ d0, alook indeg n = some d0 ∧ 1 ≤ d0 ∧
        d0 ≤ (decs.count n : Int)) ∧
      sumNonneg (runDecs decs indeg nq).1 + extra.length ≤ sumNonneg indeg := by
  induction decs with
  | nil =>
    intro indeg nq
    refine ⟨rfl, ?_, [], by simp [runDecs], List.nodup_nil, ?_, by simp [runDecs]⟩
    · intro n
      show alook indeg n = (alook indeg n).map (fun v => v - ((List.count n []: Nat) : Int))
      cases alook indeg n <;> simp
    · intro n
      simp only [List.not_mem_nil, false_iff, not_exists]
      intro d0
      rintro ⟨-, h1, h2⟩
      simp only [List.count_nil, Nat.cast_zero] at h2
      omega
  | cons d rest ih =>
    intro indeg nq
    have hstep : runDecs (d :: rest) indeg nq =
        runDecs rest (decKey indeg d).1
          (if (decKey indeg d).2 = some 0 then nq ++ [d] else nq) := rfl
    set id1 := (decKey indeg d).1 with hid1
    set nq1 := (if (decKey indeg d).2 = some 0 then nq ++ [d] else nq) with hnq1
    obtain ⟨ih1, ih2, extra1, ihq, ihnd, ihmem, ihsum⟩ := ih id1 nq1
    have hcount_ne : ∀ n, n ≠ d → (d :: rest).count n = rest.count n := by
      intro n hn
      simp [List.count_cons, hn]
    have hcount_eq : (d :: rest).count d = rest.count d + 1 := by
      simp [List.count_cons]
    have halook1 : ∀ n, alook id1 n =
        if n = d then (alook indeg d).map (fun v => v - 1) else alook indeg n := by
      intro n
      by_cases hn : n = d
      · subst hn
        simp [hid1, decKey_alook_self]
      · simp [hid1, decKey_alook_other _ _ _ hn, hn]
    refine ⟨?_, ?_, ?_⟩
    · rw [hstep, ih1, hid1, decKey_map_fst]
    · intro n
      rw [hstep, ih2 n, halook1 n]
      by_cases hn : n = d
      · subst hn
        rw [if_pos rfl, hcount_eq]
        cases alook indeg n
        · simp
        · simp only [Option.map_some', Option.some.injEq]
          push_cast
          ring
      · rw [if_neg hn, hcount_ne n hn]
    · by_cases hz : (decKey indeg d).2 = some 0
      · -- the decremented value reached zero: d is appended to the next queue
        have hv1 : alook indeg d = some 1 := by
          have := decKey_snd indeg d
          rw [hz] at this
          cases ha : alook indeg d with
          | none => rw [ha] at this; exact absurd this.symm (by simp)
          | some v0 =>
            rw [ha] at this
            simp only [Option.map_some'] at this
            have : v0 - 1 = 0 := (Option.some.inj this.symm)
            have hv0 : v0 = 1 := by omega
            exact congrArg some hv0
        have hnq1eq : nq1 = nq ++ [d] := by rw [hnq1, if_pos hz]
        have hd_not_extra1 : d ∉ extra1 := by
          rw [ihmem d]
          rintro ⟨d0, hd0, h1, h2⟩
          rw [halook1 d, if_pos rfl, hv1] at hd0
          simp only [Option.map_some'] at hd0
          have : (1 : Int) - 1 = d0 := Option.some.inj hd0
          omega
        refine ⟨d :: extra1, ?_, ?_, ?_, ?_⟩
        · rw [hstep, ihq, hnq1eq]
          simp
        · exact List.nodup_cons.mpr ⟨hd_not_extra1, ihnd⟩
        · intro n
          by_cases hn : n = d
          · subst hn
            simp only [List.mem_cons, true_or, true_iff]
            refine ⟨1, hv1, le_refl 1, ?_⟩
            rw [hcount_eq]
            push_cast
            omega
          · simp only [List.mem_cons, hn, false_or]
            rw [ihmem n, halook1 n, if_neg hn, hcount_ne n hn]
        · rw [hstep]
          have h1 : sumNonneg id1 + 1 = sumNonneg indeg := by
            rw [hid1]
            exact sumNonneg_decKey_zero indeg d hz
          simp only [List.length_cons]
          omega
      · -- no zero crossing at d: next queue unchanged
        have hnq1eq : nq1 = nq := by rw [hnq1, if_neg hz]
        refine ⟨extra1, ?_, ihnd, ?_, ?_⟩
        · rw [hstep, ihq, hnq1eq]
        · intro n
          by_cases hn : n = d
          · subst hn
            rw [ihmem n, halook1 n, if_pos rfl]
            cases ha : alook indeg n with
            | none => simp
            | some v0 =>
              have hv0ne : v0 ≠ 1 := by
                intro hc
                apply hz
                rw [decKey_snd, ha, hc]
                simp
              simp only [Option.map_some', Option.some.injEq]
              constructor
              · rintro ⟨d0, hd0, h1, h2⟩
                refine ⟨v0, rfl, by omega, ?_⟩
                rw [hcount_eq]
                push_cast
                omega
              · rintro ⟨d0, rfl, h1, h2⟩
                rw [hcount_eq] at h2
                push_cast at h2
                refine ⟨v0 - 1, rfl, by omega, by omega⟩
          · rw [ihmem n, halook1 n, if_neg hn, hcount_ne n hn]
        · rw [hstep]
          have h1 : sumNonneg id1 ≤ sumNonneg indeg := by
            rw [hid1]
            exact sumNonneg_decKey_le indeg d
          omega

/-! ## Counting helpers for the Kahn invariant -/

theorem countP_congr_local {β : Type} (l : List β) (p q : β → Bool)
    (h : ∀ x ∈ l, p x = q x) : l.countP p = l.countP q := by
  induction l with
  | nil => simp
  | cons a rest ih =>
    simp only [List.countP_cons]
    rw [h a (List.mem_cons_self _ _), ih (fun x hx => h x (List.mem_cons_of_mem _ hx))]

theorem countP_le_of_imp {β : Type} (l : List β) (p q : β → Bool)
    (h : ∀ x ∈ l, p x = true → q x = true) : l.countP p ≤ l.countP q := by
  induction l with
  | nil => simp
  | cons a rest ih =>
    simp only [List.countP_cons]
    have hr := ih (fun x hx => h x (List.mem_cons_of_mem _ hx))
    by_cases hp : p a = true
    · rw [hp, h a (List.mem_cons_self _ _) hp]
      omega
    · have : p a = false := by simp [hp]
      rw [this]
      simp only [Bool.false_eq_true, if_false]
      rcases hq : q a <;> simp <;> omega

theorem countP_add_decomp {β : Type} (l : List β) (p q r : β → Bool)
    (h : ∀ x ∈ l, (if p x then (1 : Nat) else 0) =
      (if q x then 1 else 0) + (if r x then 1 else 0)) :
    l.countP p = l.countP q + l.countP r := by
  induction l with
  | nil => simp
  | cons a rest ih =>
    have hh := h a (List.mem_cons_self _ _)
    have ihr := ih (fun x hx => h x (List.mem_cons_of_mem _ hx))
    rw [List.countP_cons, List.countP_cons, List.countP_cons, ihr]
    omega

theorem remDeg_split (pairs : List (String × String)) (placed queue : List String)
    (n : String) :
    remDeg pairs placed n = remDeg pairs (placed ++ queue) n +
      pairs.countP (fun pr => decide (pr.2 = n ∧ pr.1 ∈ queue ∧ pr.1 ∉ placed)) := by
  refine countP_add_decomp pairs _ _ _ ?_
  intro pr hpr
  by_cases h1 : pr.2 = n <;> by_cases h2 : pr.1 ∈ placed <;> by_cases h3 : pr.1 ∈ queue <;>
    simp [h1, h2, h3, List.mem_append]

theorem remDeg_mono_zero (pairs : List (String × String)) (placed placed2 : List String)
    (hsub : ∀ x ∈ placed, x ∈ placed2) (n : String) (h : remDeg pairs placed n = 0) :
    remDeg pairs placed2 n = 0 := by
  have hle : remDeg pairs placed2 n ≤ remDeg pairs placed n := by
    refine countP_le_of_imp _ _ _ ?_
    intro pr hpr hp
    simp only [decide_eq_true_eq] at hp ⊢
    exact ⟨hp.1, fun hc => hp.2 (hsub _ hc)⟩
  omega

theorem remDeg_zero_iff (pairs : List (String × String)) (placed : List String)
    (n : String) :
    remDeg pairs placed n = 0 ↔ ∀ pr ∈ pairs, pr.2 = n → pr.1 ∈ placed := by
  rw [remDeg, List.countP_eq_zero]
  constructor
  · intro h pr hpr h2
    have := h pr hpr
    simp only [decide_eq_true_eq, not_and, not_not] at this
    exact this h2
  · intro h pr hpr
    simp only [decide_eq_true_eq, not_and, not_not]
    exact h pr hpr

theorem count_depTargets (pairs : List (String × String)) (hnd : pairs.Nodup)
    (u n : String) :
    (depTargets pairs u).count n = if (u, n) ∈ pairs then 1 else 0 := by
  induction pairs with
  | nil => simp [depTargets]
  | cons pr rest ih =>
    obtain ⟨hhd, htl⟩ := List.nodup_cons.mp hnd
    obtain ⟨a, b⟩ := pr
    by_cases ha : a = u
    · subst ha
      rw [show depTargets ((a, b) :: rest) a = b :: depTargets rest a by
        simp [depTargets]]
      rw [List.count_cons, ih htl]
      by_cases hb : b = n
      · subst hb
        have hnotin : (a, b) ∉ rest := hhd
        have hmem : (a, b) ∈ (a, b) :: rest := List.mem_cons_self _ _
        simp [hnotin, hmem]
      · have hbn : (b == n) = false := by
          simp only [beq_eq_false_iff_ne, ne_eq]
          exact hb
        have hiff : (a, n) ∈ (a, b) :: rest ↔ (a, n) ∈ rest := by
          simp only [List.mem_cons]
          constructor
          · rintro (hc | hc)
            · exact absurd (congrArg Prod.snd hc) (fun hx => hb hx.symm)
            · exact hc
          · exact Or.inr
        simp only [hiff, hbn]
        simp
    · rw [show depTargets ((a, b) :: rest) u = depTargets rest u by
        simp [depTargets, ha]]
      rw [ih htl]
      have hiff : (u, n) ∈ (a, b) :: rest ↔ (u, n) ∈ rest := by
        simp only [List.mem_cons]
        constructor
        · rintro (hc | hc)
          · exact absurd (congrArg Prod.fst hc).symm ha
          · exact hc
        · exact Or.inr
      simp only [hiff]

theorem count_flatten_deps (pairs : List (String × String)) (queue : List String)
    (f : String → List String) (n : String)
    (hf : ∀ u ∈ queue, (f u).count n = if (u, n) ∈ pairs then 1 else 0) :
    ((queue.map f).flatten).count n = queue.countP (fun u => decide ((u, n) ∈ pairs)) := by
  induction queue with
  | nil => simp
  | cons u rest ih =>
    simp only [List.map_cons, List.flatten_cons, List.count_append, List.countP_cons]
    rw [hf u (List.mem_cons_self _ _),
      ih (fun x hx => hf x (List.mem_cons_of_mem _ hx))]
    by_cases hm : (u, n) ∈ pairs
    · rw [if_pos hm]
      have hd : decide ((u, n) ∈ pairs) = true := by simp [hm]
      rw [hd, if_pos rfl]
      omega
    · rw [if_neg hm]
      have hd : decide ((u, n) ∈ pairs) = false := by simp [hm]
      rw [hd, if_neg (by simp : ¬ (false = true))]
      omega

theorem countP_single_pair (pairs : List (String × String)) (hnd : pairs.Nodup)
    (u n : String) :
    pairs.countP (fun pr => decide (pr.2 = n ∧ pr.1 = u)) =
      if (u, n) ∈ pairs then 1 else 0 := by
  induction pairs with
  | nil => simp
  | cons pr rest ih =>
    obtain ⟨hhd, htl⟩ := List.nodup_cons.mp hnd
    rw [List.countP_cons, ih htl]
    by_cases hp : pr = (u, n)
    · subst hp
      have hnotin : (u, n) ∉ rest := by
        intro hc
        exact hhd hc
      have hmem : (u, n) ∈ (u, n) :: rest := List.mem_cons_self _ _
      rw [if_neg hnotin, if_pos hmem]
      simp
    · have h1 : (decide (pr.2 = n ∧ pr.1 = u)) = false := by
        simp only [decide_eq_false_iff_not, not_and]
        intro h2 h1
        exact hp (Prod.ext h1 h2)
      rw [h1]
      have hiff : (u, n) ∈ pr :: rest ↔ (u, n) ∈ rest := by
        simp only [List.mem_cons]
        constructor
        · rintro (hc | hc)
          · exact absurd hc.symm hp
          · exact hc
        · exact Or.inr
      simp only [hiff]
      simp

theorem countP_mem_pairs (pairs : List (String × String)) (hnd : pairs.Nodup)
    (queue : List String) (hq : queue.Nodup) (n : String) :
    queue.countP (fun u => decide ((u, n) ∈ pairs)) =
      pairs.countP (fun pr => decide (pr.2 = n ∧ pr.1 ∈ queue)) := by
  induction queue with
  | nil =>
    rw [show pairs.countP (fun pr => decide (pr.2 = n ∧ pr.1 ∈ ([] : List String))) = 0
      from List.countP_eq_zero.mpr (by intro pr hpr; simp)]
    simp
  | cons u rest ihq =>
    obtain ⟨hhd, htl⟩ := List.nodup_cons.mp hq
    rw [List.countP_cons, ihq htl]
    have hsplit : pairs.countP (fun pr => decide (pr.2 = n ∧ pr.1 ∈ u :: rest)) =
        pairs.countP (fun pr => decide (pr.2 = n ∧ pr.1 = u)) +
        pairs.countP (fun pr => decide (pr.2 = n ∧ pr.1 ∈ rest)) := by
      refine countP_add_decomp pairs _ _ _ ?_
      intro pr hpr
      by_cases h1 : pr.2 = n <;> by_cases h2 : pr.1 = u <;> by_cases h3 : pr.1 ∈ rest <;>
        first
        | (exfalso; rw [h2] at h3; exact hhd h3)
        | simp [h1, h2, h3, hhd, List.mem_cons]
    rw [hsplit, countP_single_pair pairs hnd u n]
    by_cases hm : (u, n) ∈ pairs
    · simp [hm]
      omega
    · simp [hm]

/-! ## The Kahn loop invariant -/

theorem kahn_round (keys : List String) (pairs : List (String × String))
    (dependents : List (String × List String))
    (hpairs : pairs.Nodup)
    (hdeps : ∀ u ∈ keys, alook dependents u = some (depTargets pairs u))
    (placed : List String) (q : String) (qs : List String) (indeg : List (String × Int))
    (hinv : KInv keys pairs placed (q :: qs) indeg) :
    KInv keys pairs (placed ++ (q :: qs))
      (runDecs (((q :: qs).map (fun oid => (alook dependents oid).getD [])).flatten)
        indeg []).2
      (runDecs (((q :: qs).map (fun oid => (alook dependents oid).getD [])).flatten)
        indeg []).1 ∧
    sumNonneg (runDecs (((q :: qs).map (fun oid => (alook dependents oid).getD [])).flatten)
        indeg []).1 +
      (runDecs (((q :: qs).map (fun oid => (alook dependents oid).getD [])).flatten)
        indeg []).2.length ≤ sumNonneg indeg := by
  set Q := q :: qs with hQ
  set decs := (Q.map (fun oid => (alook dependents oid).getD [])).flatten with hdecs
  obtain ⟨r1fst, r1look, extra, hr2, hexnd, hexmem, hsum⟩ := runDecs_spec decs indeg []
  rw [List.nil_append] at hr2
  have hQsub : ∀ u ∈ Q, u ∈ keys := fun u hu => hinv.sub u (List.mem_append_right _ hu)
  have hQnd : Q.Nodup := (List.nodup_append.mp hinv.nd).2.1
  have hdisj : ∀ x, x ∈ placed → x ∈ Q → False := by
    intro x h1 h2
    exact (List.disjoint_of_nodup_append hinv.nd) h1 h2
  have hmemkeys : ∀ n d, alook indeg n = some d → n ∈ keys := by
    intro n d h
    rw [← hinv.indeg_keys]
    rw [← alook_isSome_iff, h]
    rfl
  have hval : ∀ n ∈ keys, alook indeg n = some ((remDeg pairs placed n : Int)) := by
    intro n hn
    have hs : (alook indeg n).isSome := by
      rw [alook_isSome_iff, hinv.indeg_keys]
      exact hn
    obtain ⟨d, hd⟩ := Option.isSome_iff_exists.mp hs
    rw [hd, hinv.indeg_val n d hd]
  have hcount : ∀ n, decs.count n =
      pairs.countP (fun pr => decide (pr.2 = n ∧ pr.1 ∈ Q)) := by
    intro n
    rw [hdecs]
    rw [count_flatten_deps pairs Q _ n ?_]
    · exact countP_mem_pairs pairs hpairs Q hQnd n
    · intro u hu
      rw [hdeps u (hQsub u hu)]
      simp only [Option.getD_some]
      exact count_depTargets pairs hpairs u n
  have hkeyid : ∀ n, remDeg pairs placed n = remDeg pairs (placed ++ Q) n + decs.count n := by
    intro n
    rw [hcount n]
    have hcongr : pairs.countP (fun pr => decide (pr.2 = n ∧ pr.1 ∈ Q ∧ pr.1 ∉ placed)) =
        pairs.countP (fun pr => decide (pr.2 = n ∧ pr.1 ∈ Q)) := by
      refine countP_congr_local pairs _ _ ?_
      intro pr hpr
      by_cases h1 : pr.2 = n
      · by_cases h2 : pr.1 ∈ Q
        · have h3 : pr.1 ∉ placed := fun hc => hdisj pr.1 hc h2
          simp [h1, h2, h3]
        · simp [h1, h2]
      · simp [h1]
    rw [← hcongr]
    exact remDeg_split pairs placed Q n
  have hextra_notin : ∀ x ∈ extra, x ∈ keys ∧ x ∉ placed ∧ x ∉ Q := by
    intro x hx
    obtain ⟨d0, hd0, h1, h2⟩ := (hexmem x).mp hx
    have hxk : x ∈ keys := hmemkeys x d0 hd0
    have hd0v : d0 = ((remDeg pairs placed x : Int)) := hinv.indeg_val x d0 hd0
    have hpos : 1 ≤ remDeg pairs placed x := by
      rw [hd0v] at h1
      exact_mod_cast h1
    refine ⟨hxk, ?_, ?_⟩
    · intro hc
      have := hinv.placed_zero x hc
      omega
    · intro hc
      have := ((hinv.queue_char x hxk).mp hc).2
      omega
  constructor
  · refine ⟨?_, ?_, ?_, ?_, ?_, ?_⟩
    · rw [r1fst]
      exact hinv.indeg_keys
    · intro n d h
      rw [r1look n] at h
      cases ha : alook indeg n with
      | none => rw [ha] at h; exact absurd h (by simp)
      | some d0 =>
        rw [ha] at h
        simp only [Option.map_some', Option.some.injEq] at h
        have hd0v : d0 = ((remDeg pairs placed n : Int)) := hinv.indeg_val n d0 ha
        have hid := hkeyid n
        rw [← h, hd0v]
        omega
    · rw [hr2]
      refine List.Nodup.append hinv.nd hexnd ?_
      intro x hx hxe
      obtain ⟨-, hp, hq2⟩ := hextra_notin x hxe
      rcases List.mem_append.mp hx with h | h
      · exact hp h
      · exact hq2 h
    · intro x hx
      rw [hr2] at hx
      rcases List.mem_append.mp hx with h | h
      · exact hinv.sub x h
      · exact (hextra_notin x h).1
    · intro n hn
      rw [hr2]
      have hvn := hval n hn
      have hid := hkeyid n
      constructor
      · intro hx
        obtain ⟨d0, hd0, h1, h2⟩ := (hexmem n).mp hx
        rw [hvn] at hd0
        have hd0v : d0 = ((remDeg pairs placed n : Int)) := (Option.some.inj hd0).symm
        obtain ⟨-, hp, hq2⟩ := hextra_notin n hx
        refine ⟨?_, ?_⟩
        · intro hc
          rcases List.mem_append.mp hc with h | h
          · exact hp h
          · exact hq2 h
        · rw [hd0v] at h1 h2
          have h2n : remDeg pairs placed n ≤ decs.count n := by exact_mod_cast h2
          omega
      · rintro ⟨hnp, hrem⟩
        have hnp1 : n ∉ placed := fun hc => hnp (List.mem_append_left _ hc)
        have hnq : n ∉ Q := fun hc => hnp (List.mem_append_right _ hc)
        have hpos : 1 ≤ remDeg pairs placed n := by
          by_contra hc
          have h0 : remDeg pairs placed n = 0 := by omega
          exact hnq ((hinv.queue_char n hn).mpr ⟨hnp1, h0⟩)
        refine (hexmem n).mpr ⟨(remDeg pairs placed n : Int), hvn, by exact_mod_cast hpos, ?_⟩
        have : remDeg pairs placed n = decs.count n := by omega
        exact_mod_cast le_of_eq this
    · intro n hn
      rcases List.mem_append.mp hn with h | h
      · exact remDeg_mono_zero pairs placed _ (fun x hx => List.mem_append_left _ hx) n
          (hinv.placed_zero n h)
      · have hnk : n ∈ keys := hQsub n h
        have h0 := ((hinv.queue_char n hnk).mp h).2
        exact remDeg_mono_zero pairs placed _ (fun x hx => List.mem_append_left _ hx) n h0
  · rw [hr2]
    exact hsum

/-- The full Kahn loop specification: from a valid loop state, the produced
levels are disjoint known nodes, every node left unplaced keeps an unplaced
predecessor, and every predecessor of a node of level j is placed before
level j. -/
theorem kahnGo_spec (keys : List String) (pairs : List (String × String))
    (dependents : List (String × List String))
    (hpairs : pairs.Nodup)
    (hdeps : ∀ u ∈ keys, alook dependents u = some (depTargets pairs u)) :
    ∀ (fuel : Nat) (placed queue : List String) (indeg : List (String × Int)),
    KInv keys pairs placed queue indeg →
    sumNonneg indeg + queue.length < fuel →
    ((placed ++ (kahnGo dependents fuel queue indeg).flatten).Nodup ∧
     (∀ x ∈ (kahnGo dependents fuel queue indeg).flatten, x ∈ keys) ∧
     (∀ n ∈ keys, n ∉ placed → n ∉ (kahnGo dependents fuel queue indeg).flatten →
        remDeg pairs (placed ++ (kahnGo dependents fuel queue indeg).flatten) n ≠ 0) ∧
     (∀ j v, v ∈ (kahnGo dependents fuel queue indeg).getD j [] →
        ∀ u, (u, v) ∈ pairs →
          u ∈ placed ∨ ∃ i < j, u ∈ (kahnGo dependents fuel queue indeg).getD i [])) := by
  intro fuel
  induction fuel with
  | zero =>
    intro placed queue indeg hinv hfuel
    omega
  | succ fuel ih =>
    intro placed queue indeg hinv hfuel
    cases queue with
    | nil =>
      rw [show kahnGo dependents (fuel + 1) [] indeg = [] from rfl]
      refine ⟨by simpa using hinv.nd, by simp, ?_, ?_⟩
      · intro n hn hnp hnf
        simp only [List.flatten_nil, List.append_nil]
        intro h0
        exact List.not_mem_nil n ((hinv.queue_char n hn).mpr ⟨hnp, h0⟩)
      · intro j v hv
        simp at hv
    | cons q qs =>
      have hgo : kahnGo dependents (fuel + 1) (q :: qs) indeg =
          (q :: qs) :: kahnGo dependents fuel
            (runDecs (((q :: qs).map (fun oid => (alook dependents oid).getD [])).flatten)
              indeg []).2
            (runDecs (((q :: qs).map (fun oid => (alook dependents oid).getD [])).flatten)
              indeg []).1 := rfl
      obtain ⟨hinv2, hsum⟩ := kahn_round keys pairs dependents hpairs hdeps
        placed q qs indeg hinv
      set r2 := (runDecs (((q :: qs).map (fun oid => (alook dependents oid).getD [])).flatten)
          indeg []).2 with hr2d
      set r1 := (runDecs (((q :: qs).map (fun oid => (alook dependents oid).getD [])).flatten)
          indeg []).1 with hr1d
      have hfuel2 : sumNonneg r1 + r2.length < fuel := by
        simp only [List.length_cons] at hfuel
        omega
      obtain ⟨ih1, ih2, ih3, ih4⟩ := ih (placed ++ (q :: qs)) r2 r1 hinv2 hfuel2
      set rest := kahnGo dependents fuel r2 r1 with hrest
      rw [hgo]
      have hflat : ((q :: qs) :: rest).flatten = (q :: qs) ++ rest.flatten := rfl
      refine ⟨?_, ?_, ?_, ?_⟩
      · rw [hflat, ← List.append_assoc]
        exact ih1
      · intro x hx
        rw [hflat] at hx
        rcases List.mem_append.mp hx with h | h
        · exact hinv.sub x (List.mem_append_right _ h)
        · exact ih2 x h
      · intro n hn hnp hnf h0
        rw [hflat] at hnf
        rw [hflat, ← List.append_assoc] at h0
        refine ih3 n hn ?_ ?_ h0
        · intro hc
          rcases List.mem_append.mp hc with h | h
          · exact hnp h
          · exact hnf (List.mem_append_left _ h)
        · intro hc
          exact hnf (List.mem_append_right _ hc)
      · intro j v hv u hu
        cases j with
        | zero =>
          simp only [List.getD_cons_zero] at hv
          have hvk : v ∈ keys := hinv.sub v (List.mem_append_right _ hv)
          have h0 := ((hinv.queue_char v hvk).mp hv).2
          have := (remDeg_zero_iff pairs placed v).mp h0 (u, v) hu rfl
          exact Or.inl this
        | succ j =>
          simp only [List.getD_cons_succ] at hv
          rcases ih4 j v hv u hu with h | ⟨i, hi, hmem⟩
          · rcases List.mem_append.mp h with h | h
            · exact Or.inl h
            · exact Or.inr ⟨0, Nat.succ_pos _, by simpa using h⟩
          · exact Or.inr ⟨i + 1, Nat.succ_lt_succ hi, by simpa using hmem⟩

/-! ## The adjacency build phase -/

theorem nonSentinelPairs_mem (edges : List Edge) (pr : String × String) :
    pr ∈ nonSentinelPairs edges ↔
      ∃ e ∈ edges, e.source_op ≠ "__input__" ∧ pr = (e.source_op, e.target_op) := by
  rw [nonSentinelPairs, List.mem_filterMap]
  constructor
  · rintro ⟨e, he, hf⟩
    by_cases hs : e.source_op = "__input__"
    · rw [if_pos hs] at hf
      exact Option.noConfusion hf
    · rw [if_neg hs] at hf
      exact ⟨e, he, hs, (Option.some.inj hf).symm⟩
  · rintro ⟨e, he, hs, rfl⟩
    exact ⟨e, he, by rw [if_neg hs]⟩

theorem pairList_mem (edges : List Edge) (u v : String) :
    (u, v) ∈ pairList edges ↔ edgeStep edges u v := by
  rw [pairList, firstDedup_mem, nonSentinelPairs_mem]
  constructor
  · rintro ⟨e, he, hs, hpr⟩
    have h1 : e.source_op = u := (congrArg Prod.fst hpr).symm
    have h2 : e.target_op = v := (congrArg Prod.snd hpr).symm
    exact ⟨e, he, h1, h2, h1 ▸ hs⟩
  · rintro ⟨e, he, h1, h2, hs⟩
    exact ⟨e, he, h1 ▸ hs, by rw [h1, h2]⟩

theorem depTargets_mem (pairs : List (String × String)) (u t : String) :
    t ∈ depTargets pairs u ↔ (u, t) ∈ pairs := by
  rw [depTargets, List.mem_map]
  constructor
  · rintro ⟨pr, hpr, rfl⟩
    obtain ⟨hmem, hfil⟩ := List.mem_filter.mp hpr
    have h1 : pr.1 = u := by simpa using hfil
    rw [← h1]
    simpa using hmem
  · intro h
    exact ⟨(u, t), List.mem_filter.mpr ⟨h, by simp⟩, rfl⟩

theorem depTargets_append (l1 l2 : List (String × String)) (u : String) :
    depTargets (l1 ++ l2) u = depTargets l1 u ++ depTargets l2 u := by
  simp [depTargets, List.filter_append]

theorem buildEdge_spec (keys : List String) (st : TopoBuild) (e : Edge)
    (hbi : BI keys st)
    (hval : e.source_op ≠ "__input__" → e.source_op ∈ keys ∧ e.target_op ∈ keys) :
    ∃ st2, buildEdge st e = .ok st2 ∧ BI keys st2 ∧
      (∀ pr, pr ∈ st2.pair_seen ↔ pr ∈ st.pair_seen ∨
        (e.source_op ≠ "__input__" ∧ pr = (e.source_op, e.target_op))) := by
  obtain ⟨hk1, hk2, hnd, hdom, hindeg, hdeps⟩ := hbi
  by_cases hs : e.source_op = "__input__"
  · refine ⟨st, by rw [buildEdge, if_pos hs], ⟨hk1, hk2, hnd, hdom, hindeg, hdeps⟩, ?_⟩
    intro pr
    simp [hs]
  · obtain ⟨hsk, htk⟩ := hval hs
    by_cases hseen : (e.source_op, e.target_op) ∈ st.pair_seen
    · refine ⟨st, ?_, ⟨hk1, hk2, hnd, hdom, hindeg, hdeps⟩, ?_⟩
      · rw [buildEdge, if_neg hs, if_pos hseen]
      · intro pr
        constructor
        · exact Or.inl
        · rintro (h | ⟨-, rfl⟩)
          · exact h
          · exact hseen
    · have hinc : ∃ indeg2, incKey st.in_degree e.target_op = some indeg2 := by
        cases hin : incKey st.in_degree e.target_op with
        | none =>
          exfalso
          rw [incKey_none, hk1] at hin
          exact hin htk
        | some v => exact ⟨v, rfl⟩
      obtain ⟨indeg2, hindeg2⟩ := hinc
      have hadd : ∃ deps2, addDep st.dependents e.source_op e.target_op = some deps2 := by
        cases hin : addDep st.dependents e.source_op e.target_op with
        | none =>
          exfalso
          rw [addDep_none, hk2] at hin
          exact hin hsk
        | some v => exact ⟨v, rfl⟩
      obtain ⟨deps2, hdeps2⟩ := hadd
      obtain ⟨m1, m2, m3⟩ := incKey_some_spec hindeg2
      obtain ⟨a1, a2, a3⟩ := addDep_some_spec hdeps2
      refine ⟨{ in_degree := indeg2, dependents := deps2,
                pair_seen := st.pair_seen ++ [(e.source_op, e.target_op)] }, ?_, ?_, ?_⟩
      · simp only [buildEdge, if_neg hs, if_neg hseen, hindeg2, hdeps2]
      · refine ⟨by rw [m1, hk1], by rw [a1, hk2], ?_, ?_, ?_, ?_⟩
        · refine List.Nodup.append hnd (List.nodup_singleton _) ?_
          intro y hy hy2
          rw [List.mem_singleton] at hy2
          subst hy2
          exact hseen hy
        · intro pr hpr
          rcases List.mem_append.mp hpr with h | h
          · exact hdom pr h
          · rw [List.mem_singleton] at h
            subst h
            exact ⟨hsk, htk⟩
        · intro n d h
          by_cases hn : n = e.target_op
          · subst hn
            rw [m2] at h
            have hsome : (alook st.in_degree e.target_op).isSome := by
              rw [alook_isSome_iff, hk1]
              exact htk
            obtain ⟨d0, hd0⟩ := Option.isSome_iff_exists.mp hsome
            rw [hd0] at h
            simp only [Option.map_some', Option.some.injEq] at h
            have hv0 := hindeg e.target_op d0 hd0
            rw [List.countP_append]
            have hone : List.countP (fun pr => decide (pr.2 = e.target_op))
                [(e.source_op, e.target_op)] = 1 := by simp
            rw [hone]
            push_cast
            omega
          · rw [m3 n hn] at h
            have hv0 := hindeg n d h
            rw [List.countP_append]
            have hne : ¬ (e.target_op = n) := fun hc => hn hc.symm
            have hzero : List.countP (fun pr => decide (pr.2 = n))
                [(e.source_op, e.target_op)] = 0 := by
              simp only [List.countP_singleton]
              simp [hne]
            rw [hzero]
            omega
        · intro u ts h
          by_cases hu : u = e.source_op
          · subst hu
            rw [a2] at h
            have hsome : (alook st.dependents e.source_op).isSome := by
              rw [alook_isSome_iff, hk2]
              exact hsk
            obtain ⟨ts0, hts0⟩ := Option.isSome_iff_exists.mp hsome
            rw [hts0] at h
            simp only [Option.map_some', Option.some.injEq] at h
            have hv0 := hdeps e.source_op ts0 hts0
            have hnotin : e.target_op ∉ ts0 := by
              rw [hv0, depTargets_mem]
              exact hseen
            rw [if_neg hnotin] at h
            rw [← h, hv0, depTargets_append]
            congr 1
            simp [depTargets]
          · rw [a3 u hu] at h
            have hv0 := hdeps u ts h
            rw [hv0, depTargets_append]
            have hne : ¬ (e.source_op = u) := fun hc => hu hc.symm
            have hnil : depTargets [(e.source_op, e.target_op)] u = [] := by
              simp [depTargets, hne]
            rw [hnil, List.append_nil]
      · intro pr
        simp only [List.mem_append, List.mem_singleton]
        constructor
        · rintro (h | h)
          · exact Or.inl h
          · exact Or.inr ⟨hs, h⟩
        · rintro (h | ⟨-, h⟩)
          · exact Or.inl h
          · exact Or.inr h

theorem buildFold_spec (keys : List String) :
    ∀ (edges : List Edge) (st : TopoBuild), BI keys st →
    (∀ e ∈ edges, e.source_op ≠ "__input__" → e.source_op ∈ keys ∧ e.target_op ∈ keys) →
    ∃ st2, edges.foldlM buildEdge st = .ok st2 ∧ BI keys st2 ∧
      (∀ pr, pr ∈ st2.pair_seen ↔ pr ∈ st.pair_seen ∨ pr ∈ nonSentinelPairs edges) := by
  intro edges
  induction edges with
  | nil =>
    intro st hbi hval
    refine ⟨st, rfl, hbi, ?_⟩
    intro pr
    simp [nonSentinelPairs]
  | cons e rest ih =>
    intro st hbi hval
    obtain ⟨st1, hbe, hbi1, hmem1⟩ := buildEdge_spec keys st e hbi
      (hval e (List.mem_cons_self _ _))
    obtain ⟨st2, hfold, hbi2, hmem2⟩ := ih st1 hbi1
      (fun x hx => hval x (List.mem_cons_of_mem _ hx))
    refine ⟨st2, ?_, hbi2, ?_⟩
    · rw [List.foldlM_cons, hbe]
      simpa using hfold
    · intro pr
      rw [hmem2 pr, hmem1 pr]
      have hnsp : pr ∈ nonSentinelPairs (e :: rest) ↔
          (e.source_op ≠ "__input__" ∧ pr = (e.source_op, e.target_op)) ∨
          pr ∈ nonSentinelPairs rest := by
        rw [nonSentinelPairs_mem, nonSentinelPairs_mem]
        constructor
        · rintro ⟨e2, he2, hs2, hpr2⟩
          rcases List.mem_cons.mp he2 with rfl | he2
          · exact Or.inl ⟨hs2, hpr2⟩
          · exact Or.inr ⟨e2, he2, hs2, hpr2⟩
        · rintro (⟨hs2, hpr2⟩ | ⟨e2, he2, hs2, hpr2⟩)
          · exact ⟨e, List.mem_cons_self _ _, hs2, hpr2⟩
          · exact ⟨e2, List.mem_cons_of_mem _ he2, hs2, hpr2⟩
      rw [hnsp]
      tauto

theorem map_pair_fst {β : Type} (l : List String) (c : β) :
    (l.map (fun k => (k, c))).map Prod.fst = l := by
  induction l with
  | nil => rfl
  | cons a rest ih => simp [ih]

theorem filter_zero_mem (l : List (String × Int)) (n : String) :
    (l.map Prod.fst).Nodup →
    (n ∈ (l.filter (fun kv => kv.2 = 0)).map (fun kv => kv.1) ↔ alook l n = some 0) := by
  induction l with
  | nil => intro _; simp [alook]
  | cons kv rest ih =>
    intro hnd
    obtain ⟨k, v⟩ := kv
    simp only [List.map_cons, List.nodup_cons] at hnd
    by_cases hn : n = k
    · subst hn
      by_cases hvz : v = 0
      · subst hvz
        constructor
        · intro _
          simp [alook]
        · intro _
          rw [List.filter_cons]
          simp
      · constructor
        · intro hmem2
          exfalso
          rw [List.filter_cons] at hmem2
          have hd : (decide (v = 0)) = false := by simp [hvz]
          rw [hd] at hmem2
          simp only [Bool.false_eq_true, if_false] at hmem2
          obtain ⟨kv2, hkv2, hfst⟩ := List.mem_map.mp hmem2
          exact hnd.1 (List.mem_map.mpr ⟨kv2, (List.mem_filter.mp hkv2).1, hfst⟩)
        · intro hl
          exfalso
          rw [show alook ((n, v) :: rest) n = some v by simp [alook]] at hl
          exact hvz (Option.some.inj hl)
    · rw [show alook ((k, v) :: rest) n = alook rest n by simp [alook, hn]]
      rw [← ih hnd.2]
      rw [List.filter_cons]
      by_cases hvz : v = 0
      · subst hvz
        simp only [decide_True, if_true, List.map_cons, List.mem_cons]
        constructor
        · rintro (hc | hc)
          · exact absurd hc hn
          · exact hc
        · exact Or.inr
      · have hd : (decide (v = 0)) = false := by simp [hvz]
        rw [hd]
        simp

theorem buildGraph_spec {α : Type} (p : Pipeline α) (hv : EdgesValid p) :
    ∃ st, buildGraph (firstDedup (allOpIds p)) p.edges = .ok st ∧
      BI (firstDedup (allOpIds p)) st ∧
      (∀ pr, pr ∈ st.pair_seen ↔ pr ∈ nonSentinelPairs p.edges) := by
  set keys := firstDedup (allOpIds p) with hkeys
  have hbi0 : BI keys
      { in_degree := keys.map (fun k => (k, 0)),
        dependents := keys.map (fun k => (k, [])),
        pair_seen := [] } := by
    refine ⟨map_pair_fst keys 0, map_pair_fst keys [], List.nodup_nil, by simp,
      ?_, ?_⟩
    · intro n d h
      rw [alook_map_const] at h
      by_cases hn : n ∈ keys
      · rw [if_pos hn] at h
        have := Option.some.inj h
        simp [← this]
      · rw [if_neg hn] at h
        exact Option.noConfusion h
    · intro u ts h
      rw [alook_map_const] at h
      by_cases hn : u ∈ keys
      · rw [if_pos hn] at h
        have := Option.some.inj h
        simp [← this, depTargets]
      · rw [if_neg hn] at h
        exact Option.noConfusion h
  have hval2 : ∀ e ∈ p.edges, e.source_op ≠ "__input__" →
      e.source_op ∈ keys ∧ e.target_op ∈ keys := by
    intro e he hs
    obtain ⟨h1, h2⟩ := hv e he hs
    rw [hkeys]
    exact ⟨(firstDedup_mem _ _).mpr h1, (firstDedup_mem _ _).mpr h2⟩
  obtain ⟨st2, hfold, hbi2, hmem2⟩ := buildFold_spec keys p.edges _ hbi0 hval2
  refine ⟨st2, hfold, hbi2, ?_⟩
  intro pr
  rw [hmem2 pr]
  simp

/-- Specification of kahnLevels for a pipeline with valid edges: the level
computation succeeds, the levels are disjoint op ids, every op id left out of
the levels keeps an unplaced non-sentinel predecessor, and every non-sentinel
edge into a node of level j comes from a strictly earlier level. -/
theorem kahnLevels_spec {α : Type} (p : Pipeline α) (hv : EdgesValid p) :
    ∃ lvs, kahnLevels p = .ok lvs ∧
      lvs.flatten.Nodup ∧
      (∀ x ∈ lvs.flatten, x ∈ allOpIds p) ∧
      (∀ n ∈ allOpIds p, n ∉ lvs.flatten →
        ∃ u, edgeStep p.edges u n ∧ u ∉ lvs.flatten) ∧
      (∀ j v, v ∈ lvs.getD j [] → ∀ u, edgeStep p.edges u v →
        ∃ i < j, u ∈ lvs.getD i []) := by
  obtain ⟨st, hbuild, hbi, hmem⟩ := buildGraph_spec p hv
  obtain ⟨hk1, hk2, hnd, hdom, hindeg, hdeps⟩ := hbi
  set keys := firstDedup (allOpIds p) with hkeysd
  set pairs := st.pair_seen with hpairsd
  have hkeysnd : keys.Nodup := firstDedup_nodup _
  have hpair_step : ∀ u v, (u, v) ∈ pairs ↔ edgeStep p.edges u v := by
    intro u v
    rw [hpairsd, hmem, nonSentinelPairs_mem]
    constructor
    · rintro ⟨e, he, hs, hpr⟩
      have h1 : e.source_op = u := (congrArg Prod.fst hpr).symm
      have h2 : e.target_op = v := (congrArg Prod.snd hpr).symm
      exact ⟨e, he, h1, h2, h1 ▸ hs⟩
    · rintro ⟨e, he, h1, h2, hs⟩
      exact ⟨e, he, h1 ▸ hs, by rw [h1, h2]⟩
  have hdeps2 : ∀ u ∈ keys, alook st.dependents u = some (depTargets pairs u) := by
    intro u hu
    have hsome : (alook st.dependents u).isSome := by
      rw [alook_isSome_iff, hk2]
      exact hu
    obtain ⟨ts, hts⟩ := Option.isSome_iff_exists.mp hsome
    rw [hts, hdeps u ts hts]
  -- the initial queue of zero in-degree nodes, in key order
  set queue0 := (st.in_degree.filter (fun kv => kv.2 = 0)).map (fun kv => kv.1) with hq0
  have hq0sub : ∀ x ∈ queue0, x ∈ keys := by
    intro x hx
    rw [hq0] at hx
    obtain ⟨kv, hkv, rfl⟩ := List.mem_map.mp hx
    rw [← hk1]
    exact List.mem_map.mpr ⟨kv, (List.mem_filter.mp hkv).1, rfl⟩
  have hq0nd : queue0.Nodup := by
    have hsub : queue0.Sublist (st.in_degree.map Prod.fst) := by
      rw [hq0]
      exact (List.filter_sublist _).map _
    rw [hk1] at hsub
    exact hkeysnd.sublist hsub
  have halook_val : ∀ n ∈ keys, alook st.in_degree n =
      some ((remDeg pairs [] n : Int)) := by
    intro n hn
    have hsome : (alook st.in_degree n).isSome := by
      rw [alook_isSome_iff, hk1]
      exact hn
    obtain ⟨d, hd⟩ := Option.isSome_iff_exists.mp hsome
    rw [hd, hindeg n d hd]
    congr 1
    congr 1
    refine (countP_congr_local pairs _ _ ?_).symm
    intro pr hpr
    simp [remDeg]
  have hq0mem : ∀ n, n ∈ queue0 ↔ alook st.in_degree n = some 0 := by
    intro n
    have hndfst : (st.in_degree.map Prod.fst).Nodup := by rw [hk1]; exact hkeysnd
    rw [hq0]
    exact filter_zero_mem st.in_degree n hndfst
  have hinv0 : KInv keys pairs [] queue0 st.in_degree := by
    refine ⟨hk1, ?_, by simpa using hq0nd, ?_, ?_, by simp⟩
    · intro n d h
      have hn : n ∈ keys := by
        rw [← hk1, ← alook_isSome_iff, h]
        rfl
      rw [halook_val n hn] at h
      exact (Option.some.inj h).symm
    · intro x hx
      rw [List.nil_append] at hx
      exact hq0sub x hx
    · intro n hn
      rw [hq0mem n, halook_val n hn]
      simp only [List.not_mem_nil, not_false_iff, true_and, Option.some.injEq]
      constructor
      · intro h
        exact_mod_cast h
      · intro h
        exact_mod_cast h
  obtain ⟨g1, g2, g3, g4⟩ := kahnGo_spec keys pairs st.dependents hnd hdeps2
    (sumNonneg st.in_degree + queue0.length + 1) [] queue0 st.in_degree hinv0
    (by omega)
  set lvs := kahnGo st.dependents (sumNonneg st.in_degree + queue0.length + 1)
    queue0 st.in_degree with hlvsd
  have hok : kahnLevels p = .ok lvs := by
    rw [kahnLevels]
    rw [show buildGraph (firstDedup (allOpIds p)) p.edges = .ok st from hbuild]
    rfl
  refine ⟨lvs, hok, by simpa using g1, ?_, ?_, ?_⟩
  · intro x hx
    rw [← firstDedup_mem (allOpIds p) x]
    exact g2 x hx
  · intro n hn hnf
    have hnk : n ∈ keys := (firstDedup_mem _ _).mpr hn
    have h3 := g3 n hnk (List.not_mem_nil n) hnf
    rw [List.nil_append] at h3
    have hne : ¬ ∀ pr ∈ pairs, ¬ (decide (pr.2 = n ∧ pr.1 ∉ lvs.flatten) = true) := by
      intro hc
      exact h3 (List.countP_eq_zero.mpr hc)
    push_neg at hne
    obtain ⟨pr, hpr, hdec⟩ := hne
    rw [decide_eq_true_eq] at hdec
    obtain ⟨hpr2, hpr1⟩ := hdec
    refine ⟨pr.1, ?_, hpr1⟩
    rw [← hpair_step]
    rw [← hpr2]
    exact hpr
  · intro j v hvmem u hstep
    have hu : (u, v) ∈ pairs := (hpair_step u v).mpr hstep
    rcases g4 j v hvmem u hu with h | h
    · exact absurd h (List.not_mem_nil u)
    · exact h

theorem except_bind_ok {ε β γ : Type} (b : β) (f : β → Except ε γ) :
    (Except.ok b >>= f : Except ε γ) = f b := rfl

theorem except_bind_error {ε β γ : Type} (msg : ε) (f : β → Except ε γ) :
    (Except.error msg >>= f : Except ε γ) = Except.error msg := rfl

theorem edgeStep_mem {α : Type} (p : Pipeline α) (hv : EdgesValid p) (u v : String)
    (h : edgeStep p.edges u v) : u ∈ allOpIds p ∧ v ∈ allOpIds p := by
  obtain ⟨e, he, h1, h2, hs⟩ := h
  obtain ⟨ha, hb⟩ := hv e he (by rw [h1]; exact hs)
  rw [h1] at ha
  rw [h2] at hb
  exact ⟨ha, hb⟩

theorem reaches_rank_lt {α : Type} (p : Pipeline α) (rank : String → Nat)
    (hrank : ∀ e ∈ p.edges, e.source_op ≠ "__input__" →
      rank e.source_op < rank e.target_op)
    (u v : String) (h : Reaches p.edges u v) : rank u < rank v := by
  induction h with
  | single hstep =>
    obtain ⟨e, he, h1, h2, hs⟩ := hstep
    have := hrank e he (by rw [h1]; exact hs)
    rw [h1, h2] at this
    exact this
  | tail hab hbc ih =>
    obtain ⟨e, he, h1, h2, hs⟩ := hbc
    have := hrank e he (by rw [h1]; exact hs)
    rw [h1, h2] at this
    omega

theorem acyclic_no_self_reach {α : Type} (p : Pipeline α) (hacyc : AcyclicRank p)
    (x : String) : ¬ Reaches p.edges x x := by
  obtain ⟨rank, hrank⟩ := hacyc
  intro h
  have := reaches_rank_lt p rank hrank x x h
  omega

theorem reaches_first_step {α : Type} (p : Pipeline α) (x y : String)
    (h : Reaches p.edges x y) : ∃ b, edgeStep p.edges x b := by
  induction h with
  | single hstep => exact ⟨_, hstep⟩
  | tail hab hbc ih => exact ih

theorem levels_complete {α : Type} (p : Pipeline α) (hv : EdgesValid p)
    (hacyc : AcyclicRank p) (lvs : List (List String))
    (hf3 : ∀ n ∈ allOpIds p, n ∉ lvs.flatten →
      ∃ u, edgeStep p.edges u n ∧ u ∉ lvs.flatten) :
    ∀ n ∈ allOpIds p, n ∈ lvs.flatten := by
  obtain ⟨rank, hrank⟩ := hacyc
  have main : ∀ k n, n ∈ allOpIds p → rank n < k → n ∈ lvs.flatten := by
    intro k
    induction k with
    | zero => intro n _ h; omega
    | succ k ihk =>
      intro n hn hr
      by_contra hnf
      obtain ⟨u, hstep, hunf⟩ := hf3 n hn hnf
      have hu : u ∈ allOpIds p := (edgeStep_mem p hv u n hstep).1
      have hlt : rank u < rank n := by
        obtain ⟨e, he, h1, h2, hs⟩ := hstep
        have := hrank e he (by rw [h1]; exact hs)
        rw [h1, h2] at this
        exact this
      exact hunf (ihk u hu (by omega))
  intro n hn
  exact main (rank n + 1) n hn (by omega)

theorem mem_flatten_getD (lvs : List (List String)) (x : String)
    (h : x ∈ lvs.flatten) : ∃ j, x ∈ lvs.getD j [] := by
  induction lvs with
  | nil => simp at h
  | cons l rest ih =>
    rw [List.flatten_cons] at h
    rcases List.mem_append.mp h with h | h
    · exact ⟨0, by simpa using h⟩
    · obtain ⟨j, hj⟩ := ih h
      exact ⟨j + 1, by simpa using hj⟩

theorem reaches_earlier {α : Type} (p : Pipeline α) (lvs : List (List String))
    (hpred : ∀ j v, v ∈ lvs.getD j [] → ∀ u, edgeStep p.edges u v →
      ∃ i < j, u ∈ lvs.getD i []) :
    ∀ u v, Reaches p.edges u v → ∀ j, v ∈ lvs.getD j [] →
      ∃ i < j, u ∈ lvs.getD i [] := by
  intro u v hr
  induction hr with
  | single hstep =>
    intro j hj
    exact hpred j _ hj u hstep
  | tail hab hbc ih =>
    intro j hj
    obtain ⟨i, hi, hb⟩ := hpred j _ hj _ hbc
    obtain ⟨i2, hi2, hu⟩ := ih i hb
    exact ⟨i2, by omega, hu⟩

theorem cycle_not_placed {α : Type} (p : Pipeline α) (lvs : List (List String))
    (hpred : ∀ j v, v ∈ lvs.getD j [] → ∀ u, edgeStep p.edges u v →
      ∃ i < j, u ∈ lvs.getD i [])
    (x : String) (hcyc : Reaches p.edges x x) : x ∉ lvs.flatten := by
  have hnone : ∀ j, x ∉ lvs.getD j [] := by
    intro j
    induction j using Nat.strong_induction_on with
    | _ j ih =>
      intro hj
      obtain ⟨i, hi, hx⟩ := reaches_earlier p lvs hpred x x hcyc j hj
      exact ih i hi hx
  intro hf
  obtain ⟨j, hj⟩ := mem_flatten_getD lvs x hf
  exact hnone j hj

/-- For a well-formed acyclic pipeline, _topological_levels succeeds and the
levels partition exactly the op ids, with every non-sentinel edge crossing
strictly forward between levels. -/
theorem topo_levels_spec {α : Type} (p : Pipeline α) (hn : (allOpIds p).Nodup)
    (hv : EdgesValid p) (hacyc : AcyclicRank p) :
    ∃ lvs, topological_levels p = .ok lvs ∧ kahnLevels p = .ok lvs ∧
      lvs.flatten.Nodup ∧ (∀ x, x ∈ lvs.flatten ↔ x ∈ allOpIds p) ∧
      (lvs.map List.length).sum = (allOpIds p).length ∧
      (∀ j v, v ∈ lvs.getD j [] → ∀ u, edgeStep p.edges u v →
        ∃ i < j, u ∈ lvs.getD i []) := by
  obtain ⟨lvs, hok, hndf, hsubf, hf3, hpred⟩ := kahnLevels_spec p hv
  have hcompl := levels_complete p hv hacyc lvs hf3
  have hmemiff : ∀ x, x ∈ lvs.flatten ↔ x ∈ allOpIds p := by
    intro x
    exact ⟨hsubf x, hcompl x⟩
  have hperm : lvs.flatten.Perm (allOpIds p) :=
    (List.perm_ext_iff_of_nodup hndf hn).mpr hmemiff
  have hlen : lvs.flatten.length = (allOpIds p).length := hperm.length_eq
  have hsum : (lvs.map List.length).sum = (allOpIds p).length := by
    rw [← hlen]
    exact (List.length_flatten lvs).symm
  refine ⟨lvs, ?_, hok, hndf, hmemiff, hsum, hpred⟩
  have hsum2 : (List.map (fun lv : List String => lv.length) lvs).sum =
      (allOpIds p).length := hsum
  rw [topological_levels, hok, except_bind_ok]
  rw [if_neg (by omega)]

/-- For a pipeline with valid edges containing a dependency cycle, the Kahn
loop places strictly fewer nodes than the total and _topological_levels
raises. -/
theorem topo_cycle_spec {α : Type} (p : Pipeline α) (hv : EdgesValid p)
    (x : String) (hcyc : Reaches p.edges x x) :
    ∃ lvs, kahnLevels p = .ok lvs ∧
      (lvs.map List.length).sum < (allOpIds p).length ∧
      ∃ msg, topological_levels p = .error msg := by
  obtain ⟨lvs, hok, hndf, hsubf, hf3, hpred⟩ := kahnLevels_spec p hv
  have hxnot : x ∉ lvs.flatten := cycle_not_placed p lvs hpred x hcyc
  obtain ⟨b, hstep⟩ := reaches_first_step p x x hcyc
  have hx : x ∈ allOpIds p := (edgeStep_mem p hv x b hstep).1
  have hlt : lvs.flatten.length < (allOpIds p).length := by
    have h1 : lvs.flatten.length = lvs.flatten.toFinset.card :=
      (List.toFinset_card_of_nodup hndf).symm
    have hsub : lvs.flatten.toFinset ⊆ (allOpIds p).toFinset.erase x := by
      intro y hy
      rw [List.mem_toFinset] at hy
      rw [Finset.mem_erase]
      refine ⟨?_, List.mem_toFinset.mpr (hsubf y hy)⟩
      rintro rfl
      exact hxnot hy
    have h2 : ((allOpIds p).toFinset.erase x).card < (allOpIds p).toFinset.card := by
      refine Finset.card_erase_lt_of_mem ?_
      exact List.mem_toFinset.mpr hx
    have h3 : (allOpIds p).toFinset.card ≤ (allOpIds p).length :=
      List.toFinset_card_le _
    have h4 := Finset.card_le_card hsub
    omega
  have hsum : (lvs.map List.length).sum < (allOpIds p).length := by
    rw [← List.length_flatten lvs]
    exact hlt
  have hsum2 : (List.map (fun lv : List String => lv.length) lvs).sum <
      (allOpIds p).length := hsum
  refine ⟨lvs, hok, hsum, ?_⟩
  rw [topological_levels, hok, except_bind_ok]
  rw [if_pos (by omega)]
  exact ⟨_, rfl⟩

/-! ## Engine support lemmas -/

theorem mem_allOpIds {α : Type} (p : Pipeline α) (x : String) :
    x ∈ allOpIds p ↔ ∃ s ∈ p.steps, ∃ o ∈ s.operators, o.id = x := by
  rw [allOpIds, List.mem_flatten]
  constructor
  · rintro ⟨l, hl, hx⟩
    obtain ⟨s, hs, rfl⟩ := List.mem_map.mp hl
    obtain ⟨o, ho, rfl⟩ := List.mem_map.mp hx
    exact ⟨s, hs, o, ho, rfl⟩
  · rintro ⟨s, hs, o, ho, rfl⟩
    exact ⟨s.operators.map (fun o => o.id), List.mem_map.mpr ⟨s, hs, rfl⟩,
      List.mem_map.mpr ⟨o, ho, rfl⟩⟩

theorem dictfold_mem {β : Type} (l : List β) (keyf : β → String) :
    ∀ (d : Dict β) (k : String) (v : β),
      (l.foldl (fun m x => m.set (keyf x) x) d) k = some v → v ∈ l ∨ d k = some v := by
  induction l with
  | nil => intro d k v h; exact Or.inr h
  | cons x rest ih =>
    intro d k v h
    rcases ih (d.set (keyf x) x) k v h with hv | hv
    · exact Or.inl (List.mem_cons_of_mem _ hv)
    · by_cases hk : k = keyf x
      · subst hk
        rw [Dict.set_self] at hv
        exact Or.inl (by rw [← Option.some.inj hv]; exact List.mem_cons_self _ _)
      · exact Or.inr (by rw [← Dict.set_other d (keyf x) k x hk]; exact hv)

theorem dictfold_stable {β : Type} (l : List β) (keyf : β → String) :
    ∀ (k : String), k ∉ l.map keyf →
    ∀ (d : Dict β), (l.foldl (fun m y => m.set (keyf y) y) d) k = d k := by
  induction l with
  | nil => intro k _ d; rfl
  | cons y rest ih =>
    intro k hk d
    simp only [List.map_cons, List.mem_cons, not_or] at hk
    rw [List.foldl_cons, ih k hk.2, Dict.set_other _ _ _ _ hk.1]

theorem dictfold_lookup {β : Type} (l : List β) (keyf : β → String) :
    (l.map keyf).Nodup →
    ∀ (d : Dict β), ∀ x ∈ l, (l.foldl (fun m y => m.set (keyf y) y) d) (keyf x) = some x := by
  induction l with
  | nil => intro _ d x hx; simp at hx
  | cons y rest ih =>
    intro hnd d x hx
    simp only [List.map_cons, List.nodup_cons] at hnd
    rcases List.mem_cons.mp hx with rfl | hx
    · rw [List.foldl_cons, dictfold_stable rest keyf (keyf x) hnd.1, Dict.set_self]
    · rw [List.foldl_cons]
      exact ih hnd.2 _ x hx

theorem buildEdge_fst (st st2 : TopoBuild) (e : Edge) (h : buildEdge st e = .ok st2) :
    st2.in_degree.map Prod.fst = st.in_degree.map Prod.fst ∧
    st2.dependents.map Prod.fst = st.dependents.map Prod.fst := by
  by_cases hs : e.source_op = "__input__"
  · rw [buildEdge, if_pos hs] at h
    obtain rfl : st = st2 := Except.ok.inj h
    exact ⟨rfl, rfl⟩
  · by_cases hseen : (e.source_op, e.target_op) ∈ st.pair_seen
    · rw [buildEdge, if_neg hs] at h
      simp only [if_pos hseen] at h
      obtain rfl : st = st2 := Except.ok.inj h
      exact ⟨rfl, rfl⟩
    · cases hinc : incKey st.in_degree e.target_op with
      | none =>
        simp only [buildEdge, if_neg hs, if_neg hseen, hinc] at h
        exact Except.noConfusion h
      | some indeg2 =>
        cases hadd : addDep st.dependents e.source_op e.target_op with
        | none =>
          simp only [buildEdge, if_neg hs, if_neg hseen, hinc, hadd] at h
          exact Except.noConfusion h
        | some deps2 =>
          simp only [buildEdge, if_neg hs, if_neg hseen, hinc, hadd] at h
          obtain rfl := Except.ok.inj h
          exact ⟨(incKey_some_spec hinc).1, (addDep_some_spec hadd).1⟩

theorem buildFold_fst : ∀ (edges : List Edge) (st st2 : TopoBuild),
    edges.foldlM buildEdge st = .ok st2 →
    st2.in_degree.map Prod.fst = st.in_degree.map Prod.fst ∧
    st2.dependents.map Prod.fst = st.dependents.map Prod.fst := by
  intro edges
  induction edges with
  | nil =>
    intro st st2 h
    obtain rfl : st = st2 := Except.ok.inj h
    exact ⟨rfl, rfl⟩
  | cons e rest ih =>
    intro st st2 h
    rw [List.foldlM_cons] at h
    cases hbe : buildEdge st e with
    | error msg =>
      rw [hbe, except_bind_error] at h
      exact Except.noConfusion h
    | ok st1 =>
      rw [hbe] at h
      simp only [except_bind_ok] at h
      obtain ⟨h1, h2⟩ := ih st1 st2 h
      obtain ⟨h3, h4⟩ := buildEdge_fst st st1 e hbe
      exact ⟨h1.trans h3, h2.trans h4⟩

theorem kahnGo_subset (dependents : List (String × List String)) (keys : List String) :
    ∀ (fuel : Nat) (queue : List String) (indeg : List (String × Int)),
    indeg.map Prod.fst = keys → (∀ x ∈ queue, x ∈ keys) →
    ∀ x ∈ (kahnGo dependents fuel queue indeg).flatten, x ∈ keys := by
  intro fuel
  induction fuel with
  | zero =>
    intro queue indeg _ _ x hx
    rw [show kahnGo dependents 0 queue indeg = [] from rfl] at hx
    simp at hx
  | succ fuel ih =>
    intro queue indeg hkeys hq x hx
    cases queue with
    | nil =>
      rw [show kahnGo dependents (fuel + 1) [] indeg = [] from rfl] at hx
      simp at hx
    | cons q qs =>
      rw [show kahnGo dependents (fuel + 1) (q :: qs) indeg =
        (q :: qs) :: kahnGo dependents fuel
          (runDecs (((q :: qs).map (fun oid => (alook dependents oid).getD [])).flatten)
            indeg []).2
          (runDecs (((q :: qs).map (fun oid => (alook dependents oid).getD [])).flatten)
            indeg []).1 from rfl] at hx
      rw [List.flatten_cons] at hx
      obtain ⟨r1fst, r1look, extra, hr2, hexnd, hexmem, hsum⟩ :=
        runDecs_spec (((q :: qs).map (fun oid => (alook dependents oid).getD [])).flatten)
          indeg []
      rcases List.mem_append.mp hx with h | h
      · exact hq x h
      · refine ih _ _ (by rw [r1fst, hkeys]) ?_ x h
        intro y hy
        rw [hr2, List.nil_append] at hy
        obtain ⟨d0, hd0, -, -⟩ := (hexmem y).mp hy
        rw [← hkeys, ← alook_isSome_iff, hd0]
        rfl

theorem kahnLevels_ok_subset {α : Type} (p : Pipeline α) (lvs : List (List String))
    (h : kahnLevels p = .ok lvs) : ∀ x ∈ lvs.flatten, x ∈ allOpIds p := by
  rw [kahnLevels] at h
  cases hb : buildGraph (firstDedup (allOpIds p)) p.edges with
  | error msg =>
    rw [hb, except_bind_error] at h
    exact Except.noConfusion h
  | ok st =>
    rw [hb] at h
    simp only [except_bind_ok] at h
    have hfst : st.in_degree.map Prod.fst = firstDedup (allOpIds p) := by
      have := (buildFold_fst p.edges _ st hb).1
      rw [this, map_pair_fst]
    obtain rfl := Except.ok.inj h
    intro x hx
    rw [← firstDedup_mem (allOpIds p) x]
    refine kahnGo_subset st.dependents (firstDedup (allOpIds p)) _ _ _ hfst ?_ x hx
    intro y hy
    obtain ⟨kv, hkv, rfl⟩ := List.mem_map.mp hy
    rw [← hfst]
    exact List.mem_map.mpr ⟨kv, (List.mem_filter.mp hkv).1, rfl⟩

theorem topological_levels_ok_inv {α : Type} (p : Pipeline α) (lvs : List (List String))
    (h : topological_levels p = .ok lvs) : kahnLevels p = .ok lvs := by
  rw [topological_levels] at h
  cases hk : kahnLevels p with
  | error msg =>
    rw [hk, except_bind_error] at h
    exact Except.noConfusion h
  | ok lv2 =>
    rw [hk] at h
    simp only [except_bind_ok] at h
    by_cases hc : (List.map (fun lv => lv.length) lv2).sum ≠ (allOpIds p).length
    · rw [if_pos hc] at h
      exact absurd h (by simp)
    · rw [if_neg hc] at h
      rw [Except.ok.inj h]

theorem opTrips_keys {α : Type} (p : Pipeline α) :
    (opTrips p).map (fun x => x.1.id) = allOpIds p := by
  rw [opTrips, allOpIds]
  induction p.steps with
  | nil => rfl
  | cons s rest ih =>
    simp only [List.map_cons, List.flatten_cons, List.map_append, ih, List.map_map]
    rfl

theorem opTrips_mem {α : Type} (p : Pipeline α) (o : OpRef α) (sk : String) :
    (o, sk) ∈ opTrips p ↔ ∃ s ∈ p.steps, s.key = sk ∧ o ∈ s.operators := by
  rw [opTrips, List.mem_flatten]
  constructor
  · rintro ⟨l, hl, hx⟩
    obtain ⟨s, hs, rfl⟩ := List.mem_map.mp hl
    obtain ⟨o2, ho2, heq⟩ := List.mem_map.mp hx
    have h1 : o2 = o := congrArg Prod.fst heq
    have h2 : s.key = sk := congrArg Prod.snd heq
    exact ⟨s, hs, h2, h1 ▸ ho2⟩
  · rintro ⟨s, hs, rfl, ho⟩
    exact ⟨s.operators.map (fun o => (o, s.key)), List.mem_map.mpr ⟨s, hs, rfl⟩,
      List.mem_map.mpr ⟨o, ho, rfl⟩⟩

theorem build_op_map_trips {α : Type} (p : Pipeline α) :
    build_op_map p = (opTrips p).foldl
      (fun m x => (m.1.set x.1.id x.1, m.2.set x.1.id x.2)) (Dict.empty, Dict.empty) := by
  rw [build_op_map, opTrips]
  generalize (Dict.empty, Dict.empty) = acc
  induction p.steps generalizing acc with
  | nil => rfl
  | cons s rest ih =>
    simp only [List.map_cons, List.flatten_cons, List.foldl_cons, List.foldl_append]
    rw [ih]
    congr 1
    rw [List.foldl_map]

theorem pairfold_stable {β γ δ : Type} (l : List β) (keyf : β → String)
    (f1 : β → γ) (f2 : β → δ) :
    ∀ (k : String), k ∉ l.map keyf → ∀ (acc : Dict γ × Dict δ),
      (l.foldl (fun m x => (m.1.set (keyf x) (f1 x), m.2.set (keyf x) (f2 x))) acc).1 k
        = acc.1 k ∧
      (l.foldl (fun m x => (m.1.set (keyf x) (f1 x), m.2.set (keyf x) (f2 x))) acc).2 k
        = acc.2 k := by
  induction l with
  | nil => intro k _ acc; exact ⟨rfl, rfl⟩
  | cons y rest ih =>
    intro k hk acc
    simp only [List.map_cons, List.mem_cons, not_or] at hk
    rw [List.foldl_cons]
    obtain ⟨h1, h2⟩ := ih k hk.2 _
    rw [h1, h2]
    exact ⟨Dict.set_other _ _ _ _ hk.1, Dict.set_other _ _ _ _ hk.1⟩

theorem pairfold_lookup {β γ δ : Type} (l : List β) (keyf : β → String)
    (f1 : β → γ) (f2 : β → δ) :
    (l.map keyf).Nodup →
    ∀ (acc : Dict γ × Dict δ), ∀ x ∈ l,
      (l.foldl (fun m x => (m.1.set (keyf x) (f1 x), m.2.set (keyf x) (f2 x))) acc).1 (keyf x)
        = some (f1 x) ∧
      (l.foldl (fun m x => (m.1.set (keyf x) (f1 x), m.2.set (keyf x) (f2 x))) acc).2 (keyf x)
        = some (f2 x) := by
  induction l with
  | nil => intro _ acc x hx; simp at hx
  | cons y rest ih =>
    intro hnd acc x hx
    simp only [List.map_cons, List.nodup_cons] at hnd
    rcases List.mem_cons.mp hx with rfl | hx
    · rw [List.foldl_cons]
      obtain ⟨h1, h2⟩ := pairfold_stable rest keyf f1 f2 (keyf x) hnd.1 _
      rw [h1, h2]
      exact ⟨Dict.set_self _ _ _, Dict.set_self _ _ _⟩
    · rw [List.foldl_cons]
      exact ih hnd.2 _ x hx

/-- The op_map and op_to_step lookups of a well-formed pipeline: an OpRef of a
Step is found under its id, together with its step key. -/
theorem op_lookup {α : Type} (p : Pipeline α) (hn : (allOpIds p).Nodup)
    (s : Step α) (hs : s ∈ p.steps) (o : OpRef α) (ho : o ∈ s.operators) :
    (build_op_map p).1 o.id = some o ∧ (build_op_map p).2 o.id = some s.key := by
  have hmem : (o, s.key) ∈ opTrips p := (opTrips_mem p o s.key).mpr ⟨s, hs, rfl, ho⟩
  have hnd : ((opTrips p).map (fun x => x.1.id)).Nodup := by
    rw [opTrips_keys]
    exact hn
  rw [build_op_map_trips]
  have := pairfold_lookup (opTrips p) (fun x => x.1.id) (fun x => x.1) (fun x => x.2)
    hnd (Dict.empty, Dict.empty) (o, s.key) hmem
  exact this

/-- An op id resolved through op_map always names an OpRef of the pipeline. -/
theorem op_lookup_mem {α : Type} (p : Pipeline α) (k : String) (r : OpRef α)
    (h : (build_op_map p).1 k = some r) : ∃ s ∈ p.steps, r ∈ s.operators := by
  rw [build_op_map_trips] at h
  have hfold : ∀ (l : List (OpRef α × String)) (acc : Dict (OpRef α) × Dict String),
      (l.foldl (fun m x => (m.1.set x.1.id x.1, m.2.set x.1.id x.2)) acc).1 k = some r →
      (∃ x ∈ l, x.1 = r) ∨ acc.1 k = some r := by
    intro l
    induction l with
    | nil => intro acc h2; exact Or.inr h2
    | cons y rest ih =>
      intro acc h2
      rw [List.foldl_cons] at h2
      rcases ih _ h2 with hv | hv
      · obtain ⟨x, hx, rfl⟩ := hv
        exact Or.inl ⟨x, List.mem_cons_of_mem _ hx, rfl⟩
      · by_cases hk : k = y.1.id
        · subst hk
          have hv2 : (acc.1.set y.1.id y.1) y.1.id = some r := hv
          rw [Dict.set_self] at hv2
          exact Or.inl ⟨y, List.mem_cons_self _ _, Option.some.inj hv2⟩
        · have hv2 : (acc.1.set y.1.id y.1) k = some r := hv
          rw [Dict.set_other _ _ _ _ hk] at hv2
          exact Or.inr hv2
  rcases hfold (opTrips p) _ h with hv | hv
  · obtain ⟨x, hx, rfl⟩ := hv
    obtain ⟨s, hs, -, ho⟩ := (opTrips_mem p x.1 x.2).mp (by
      rw [show (x.1, x.2) = x from rfl]
      exact hx)
    exact ⟨s, hs, ho⟩
  · have hv2 : (Dict.empty : Dict (OpRef α)) k = some r := hv
    exact Option.noConfusion hv2

theorem stepMap_lookup {α : Type} (p : Pipeline α)
    (hk : (p.steps.map (fun s => s.key)).Nodup) (s : Step α) (hs : s ∈ p.steps) :
    stepMap p s.key = some s := by
  rw [stepMap]
  exact dictfold_lookup p.steps (fun s => s.key) hk Dict.empty s hs

theorem stepMap_mem {α : Type} (p : Pipeline α) (k : String) (s : Step α)
    (h : stepMap p k = some s) : s ∈ p.steps := by
  rw [stepMap] at h
  rcases dictfold_mem p.steps (fun s => s.key) Dict.empty k s h with hv | hv
  · exact hv
  · exact Option.noConfusion hv

theorem setfold_const_lookup {α : Type} {β : Type} (l : List β) (keyf : β → String)
    (c : α) :
    ∀ (d : Dict α) (k : String), (k ∈ l.map keyf ∨ d k = some c) →
      (l.foldl (fun m y => m.set (keyf y) c) d) k = some c := by
  induction l with
  | nil =>
    intro d k h
    rcases h with h | h
    · simp at h
    · exact h
  | cons y rest ih =>
    intro d k h
    rw [List.foldl_cons]
    refine ih _ k ?_
    rcases h with h | h
    · rw [List.map_cons] at h
      rcases List.mem_cons.mp h with hk | hk
      · right
        rw [hk, Dict.set_self]
      · left
        exact hk
    · by_cases hk : k = keyf y
      · right
        rw [hk, Dict.set_self]
      · right
        rw [Dict.set_other _ _ _ _ hk]
        exact h

theorem setfold_const_stable {α : Type} {β : Type} (l : List β) (keyf : β → String)
    (c : α) :
    ∀ (d : Dict α) (k : String), k ∉ l.map keyf →
      (l.foldl (fun m y => m.set (keyf y) c) d) k = d k := by
  induction l with
  | nil => intro d k _; rfl
  | cons y rest ih =>
    intro d k hk
    simp only [List.map_cons, List.mem_cons, not_or] at hk
    rw [List.foldl_cons, ih _ k hk.2, Dict.set_other _ _ _ _ hk.1]

/-! ## Branch equations for the per-level loops -/

theorem level_prepare_case_a {α : Type} (env : EngineEnv α) (p : Pipeline α)
    (st : EngineState α) (slots : List (String × Slot α)) (op_id : String)
    (hc1 : (get_upstream_ops op_id p.edges).any (fun u => u ∈ st.failed_ops) = true) :
    level_prepare env p (st, slots) op_id =
      ({ st with failed_ops := addSet st.failed_ops op_id,
                 step_failed := addSet st.step_failed
                   (((build_op_map p).2 op_id).getD "") },
       slots ++ [(op_id, Slot.skipped)]) := by
  simp only [level_prepare]
  rw [if_pos hc1]

theorem level_prepare_case_b {α : Type} (env : EngineEnv α) (p : Pipeline α)
    (st : EngineState α) (slots : List (String × Slot α)) (op_id : String)
    (hc1 : (get_upstream_ops op_id p.edges).any (fun u => u ∈ st.failed_ops) = false)
    (hc2 : ((build_op_map p).2 op_id).getD "" ∉ st.step_started ∧
      env.step_completed_log (((build_op_map p).2 op_id).getD "") = true) :
    level_prepare env p (st, slots) op_id =
      ({ st with
           step_completed := addSet st.step_completed (((build_op_map p).2 op_id).getD ""),
           step_started := addSet st.step_started (((build_op_map p).2 op_id).getD ""),
           op_outputs :=
             ((stepMap p (((build_op_map p).2 op_id).getD "")).getD defaultStep).operators.foldl
               (fun m o => m.set o.id Dict.empty) st.op_outputs },
       slots ++ [(op_id, Slot.skipped)]) := by
  simp only [level_prepare]
  rw [if_neg (by rw [hc1]; exact Bool.false_ne_true), if_pos hc2]

theorem level_prepare_case_c {α : Type} (env : EngineEnv α) (p : Pipeline α)
    (st : EngineState α) (slots : List (String × Slot α)) (op_id : String)
    (hc1 : (get_upstream_ops op_id p.edges).any (fun u => u ∈ st.failed_ops) = false)
    (hc2 : ¬ (((build_op_map p).2 op_id).getD "" ∉ st.step_started ∧
      env.step_completed_log (((build_op_map p).2 op_id).getD "") = true))
    (hc3 : ((build_op_map p).2 op_id).getD "" ∈ st.step_completed) :
    level_prepare env p (st, slots) op_id = (st, slots ++ [(op_id, Slot.skipped)]) := by
  simp only [level_prepare]
  rw [if_neg (by rw [hc1]; exact Bool.false_ne_true), if_neg hc2, if_pos hc3]

theorem level_prepare_case_d {α : Type} (env : EngineEnv α) (p : Pipeline α)
    (st : EngineState α) (slots : List (String × Slot α)) (op_id : String)
    (hc1 : (get_upstream_ops op_id p.edges).any (fun u => u ∈ st.failed_ops) = false)
    (hc2 : ¬ (((build_op_map p).2 op_id).getD "" ∉ st.step_started ∧
      env.step_completed_log (((build_op_map p).2 op_id).getD "") = true))
    (hc3 : ((build_op_map p).2 op_id).getD "" ∉ st.step_completed) :
    level_prepare env p (st, slots) op_id =
      (let st1 :=
         { st with step_started := addSet st.step_started (((build_op_map p).2 op_id).getD "") }
       let r := run_op env (((build_op_map p).1 op_id).getD defaultOpRef)
         (gather_inputs op_id p.edges st1.op_outputs)
       ((if r.2 then { st1 with invoked := st1.invoked ++ [op_id] } else st1),
        slots ++ [(op_id, Slot.launched r.1)])) := by
  simp only [level_prepare]
  rw [if_neg (by rw [hc1]; exact Bool.false_ne_true), if_neg hc2, if_neg hc3]

theorem level_collect_cons_skipped {α : Type} (p : Pipeline α) (st : EngineState α)
    (op_id : String) (rest : List (String × Slot α)) :
    level_collect p st ((op_id, Slot.skipped) :: rest) = level_collect p st rest := rfl

theorem level_collect_cons_error {α : Type} (p : Pipeline α) (st : EngineState α)
    (op_id : String) (msg : String) (rest : List (String × Slot α)) :
    level_collect p st ((op_id, Slot.launched (.error msg)) :: rest) =
      level_collect p
        { st with failed_ops := addSet st.failed_ops op_id,
                  step_failed := addSet st.step_failed
                    (((build_op_map p).2 op_id).getD "") } rest := rfl

theorem level_collect_cons_ok {α : Type} (p : Pipeline α) (st : EngineState α)
    (op_id : String) (out : Dict α) (rest : List (String × Slot α)) :
    level_collect p st ((op_id, Slot.launched (.ok out)) :: rest) =
      level_collect p
        (let st1 := { st with op_outputs := st.op_outputs.set op_id out }
         let stepv := (stepMap p (((build_op_map p).2 op_id).getD "")).getD defaultStep
         if (stepv.operators.getLast?).map (fun o => o.id) = some op_id ∧
             (((build_op_map p).2 op_id).getD "") ∉ st1.step_failed then
           { st1 with
             step_completed := addSet st1.step_completed (((build_op_map p).2 op_id).getD "") }
         else st1) rest := rfl

theorem level_collect_nil {α : Type} (p : Pipeline α) (st : EngineState α) :
    level_collect p st [] = st := rfl

theorem level_prepare_slots {α : Type} (env : EngineEnv α) (p : Pipeline α)
    (st : EngineState α) (slots : List (String × Slot α)) (op_id : String) :
    ∃ st2 sl, level_prepare env p (st, slots) op_id = (st2, slots ++ [(op_id, sl)]) := by
  by_cases hc1 : (get_upstream_ops op_id p.edges).any (fun u => u ∈ st.failed_ops) = true
  · exact ⟨_, _, level_prepare_case_a env p st slots op_id hc1⟩
  · have hc1f : (get_upstream_ops op_id p.edges).any (fun u => u ∈ st.failed_ops) = false := by
      cases h : (get_upstream_ops op_id p.edges).any (fun u => u ∈ st.failed_ops)
      · rfl
      · exact absurd h hc1
    by_cases hc2 : ((build_op_map p).2 op_id).getD "" ∉ st.step_started ∧
        env.step_completed_log (((build_op_map p).2 op_id).getD "") = true
    · exact ⟨_, _, level_prepare_case_b env p st slots op_id hc1f hc2⟩
    · by_cases hc3 : ((build_op_map p).2 op_id).getD "" ∈ st.step_completed
      · exact ⟨_, _, level_prepare_case_c env p st slots op_id hc1f hc2 hc3⟩
      · rw [level_prepare_case_d env p st slots op_id hc1f hc2 hc3]
        exact ⟨_, _, rfl⟩

theorem level_prepare_outputs_stable {α : Type} (env : EngineEnv α) (p : Pipeline α)
    (st : EngineState α) (slots : List (String × Slot α)) (op_id : String)
    (k : String) (hk : k ∉ allOpIds p) :
    (level_prepare env p (st, slots) op_id).1.op_outputs k = st.op_outputs k := by
  by_cases hc1 : (get_upstream_ops op_id p.edges).any (fun u => u ∈ st.failed_ops) = true
  · rw [level_prepare_case_a env p st slots op_id hc1]
  · have hc1f : (get_upstream_ops op_id p.edges).any (fun u => u ∈ st.failed_ops) = false := by
      cases h : (get_upstream_ops op_id p.edges).any (fun u => u ∈ st.failed_ops)
      · rfl
      · exact absurd h hc1
    by_cases hc2 : ((build_op_map p).2 op_id).getD "" ∉ st.step_started ∧
        env.step_completed_log (((build_op_map p).2 op_id).getD "") = true
    · rw [level_prepare_case_b env p st slots op_id hc1f hc2]
      show (((stepMap p (((build_op_map p).2 op_id).getD "")).getD
        defaultStep).operators.foldl (fun m o => m.set o.id Dict.empty) st.op_outputs) k =
        st.op_outputs k
      refine setfold_const_stable _ _ _ _ _ ?_
      intro hkmem
      obtain ⟨o, ho, rfl⟩ := List.mem_map.mp hkmem
      cases hsm : stepMap p (((build_op_map p).2 op_id).getD "") with
      | none =>
        rw [hsm] at ho
        simp [defaultStep] at ho
      | some s =>
        rw [hsm] at ho
        simp only [Option.getD_some] at ho
        exact hk ((mem_allOpIds p o.id).mpr ⟨s, stepMap_mem p _ s hsm, o, ho, rfl⟩)
    · by_cases hc3 : ((build_op_map p).2 op_id).getD "" ∈ st.step_completed
      · rw [level_prepare_case_c env p st slots op_id hc1f hc2 hc3]
      · rw [level_prepare_case_d env p st slots op_id hc1f hc2 hc3]
        simp only []
        split
        · rfl
        · rfl

theorem level_collect_outputs_stable {α : Type} (p : Pipeline α) (k : String) :
    ∀ (slots : List (String × Slot α)) (st : EngineState α),
    (∀ pr ∈ slots, pr.1 ≠ k) →
    (level_collect p st slots).op_outputs k = st.op_outputs k := by
  intro slots
  induction slots with
  | nil => intro st _; rfl
  | cons pr rest ih =>
    intro st hpr
    obtain ⟨op_id, sl⟩ := pr
    have hop : op_id ≠ k := hpr (op_id, sl) (List.mem_cons_self _ _)
    have hrest : ∀ pr ∈ rest, pr.1 ≠ k := fun x hx => hpr x (List.mem_cons_of_mem _ hx)
    cases sl with
    | skipped =>
      rw [level_collect_cons_skipped]
      exact ih st hrest
    | launched res =>
      cases res with
      | error msg =>
        rw [level_collect_cons_error]
        rw [ih _ hrest]
      | ok out =>
        rw [level_collect_cons_ok]
        rw [ih _ hrest]
        simp only []
        split
        · show (st.op_outputs.set op_id out) k = st.op_outputs k
          exact Dict.set_other _ _ _ _ (fun hc => hop hc.symm)
        · show (st.op_outputs.set op_id out) k = st.op_outputs k
          exact Dict.set_other _ _ _ _ (fun hc => hop hc.symm)

theorem phase1_spec_basic {α : Type} (env : EngineEnv α) (p : Pipeline α) (k : String)
    (hk : k ∉ allOpIds p) :
    ∀ (level : List String) (st : EngineState α) (slots0 : List (String × Slot α)),
      ((level.foldl (level_prepare env p) (st, slots0)).1.op_outputs k =
        st.op_outputs k) ∧
      (∀ pr ∈ (level.foldl (level_prepare env p) (st, slots0)).2,
        pr.1 ∈ level ∨ pr ∈ slots0) := by
  intro level
  induction level with
  | nil =>
    intro st slots0
    exact ⟨rfl, fun pr hpr => Or.inr hpr⟩
  | cons op rest ih =>
    intro st slots0
    obtain ⟨st2, sl, heq⟩ := level_prepare_slots env p st slots0 op
    rw [List.foldl_cons, heq]
    obtain ⟨ih1, ih2⟩ := ih st2 (slots0 ++ [(op, sl)])
    constructor
    · rw [ih1]
      have := level_prepare_outputs_stable env p st slots0 op k hk
      rw [heq] at this
      exact this
    · intro pr hpr
      rcases ih2 pr hpr with h | h
      · exact Or.inl (List.mem_cons_of_mem _ h)
      · rcases List.mem_append.mp h with h | h
        · exact Or.inr h
        · rw [List.mem_singleton] at h
          subst h
          exact Or.inl (List.mem_cons_self _ _)

theorem run_level_outputs_stable {α : Type} (env : EngineEnv α) (p : Pipeline α)
    (st : EngineState α) (level : List String) (k : String) (hk : k ∉ allOpIds p)
    (hlv : ∀ x ∈ level, x ∈ allOpIds p) :
    (run_level env p st level).op_outputs k = st.op_outputs k := by
  rw [run_level]
  obtain ⟨h1, h2⟩ := phase1_spec_basic env p k hk level st []
  rw [level_collect_outputs_stable p k _ _ ?_, h1]
  intro pr hpr
  rcases h2 pr hpr with h | h
  · intro hc
    exact hk (hc ▸ hlv pr.1 h)
  · simp at h

/-- C9 support: run_state preserves the sentinel binding through every level,
for every environment and every pipeline whose op ids avoid the sentinel. -/
theorem run_state_initial_inputs {α : Type} (env : EngineEnv α) (p : Pipeline α)
    (ii : Dict α) (hs : "__input__" ∉ allOpIds p) (st : EngineState α)
    (h : run_state env p ii = .ok st) : st.op_outputs "__input__" = some ii := by
  rw [run_state] at h
  cases hlv : topological_levels p with
  | error msg =>
    rw [hlv, except_bind_error] at h
    exact Except.noConfusion h
  | ok lvs =>
    rw [hlv, except_bind_ok] at h
    obtain rfl := Except.ok.inj h
    have hsubset := kahnLevels_ok_subset p lvs (topological_levels_ok_inv p lvs hlv)
    have hfold : ∀ (ls : List (List String)) (st0 : EngineState α),
        (∀ x ∈ ls.flatten, x ∈ allOpIds p) →
        (ls.foldl (run_level env p) st0).op_outputs "__input__" =
          st0.op_outputs "__input__" := by
      intro ls
      induction ls with
      | nil => intro st0 _; rfl
      | cons lv rest ihl =>
        intro st0 hsub
        rw [List.foldl_cons]
        rw [ihl _ ?_]
        · exact run_level_outputs_stable env p st0 lv _ hs
            (fun x hx => hsub x (by rw [List.flatten_cons]; exact List.mem_append_left _ hx))
        · intro x hx
          exact hsub x (by rw [List.flatten_cons]; exact List.mem_append_right _ hx)
    rw [hfold lvs _ hsubset]
    show (Dict.set Dict.empty "__input__" ii) "__input__" = some ii
    exact Dict.set_self _ _ _

/-! ## Level index lemmas -/

theorem getD_mem_flatten (lvs : List (List String)) :
    ∀ (j : Nat) (x : String), x ∈ lvs.getD j [] → x ∈ lvs.flatten := by
  induction lvs with
  | nil => intro j x hx; simp at hx
  | cons lv rest ih =>
    intro j x hx
    rw [List.flatten_cons]
    cases j with
    | zero =>
      simp only [List.getD_cons_zero] at hx
      exact List.mem_append_left _ hx
    | succ j =>
      simp only [List.getD_cons_succ] at hx
      exact List.mem_append_right _ (ih j x hx)

theorem levelIdx_of_mem (lvs : List (List String)) (hnd : lvs.flatten.Nodup) :
    ∀ (j : Nat) (x : String), x ∈ lvs.getD j [] → levelIdx lvs x = some j := by
  induction lvs with
  | nil => intro j x hx; simp at hx
  | cons lv rest ih =>
    intro j x hx
    rw [List.flatten_cons] at hnd
    cases j with
    | zero =>
      simp only [List.getD_cons_zero] at hx
      simp only [levelIdx]
      rw [if_pos hx]
    | succ j =>
      simp only [List.getD_cons_succ] at hx
      have hxf : x ∈ rest.flatten := getD_mem_flatten rest j x hx
      have hnl : x ∉ lv := fun hc => (List.disjoint_of_nodup_append hnd) hc hxf
      simp only [levelIdx]
      rw [if_neg hnl, ih ((List.nodup_append.mp hnd).2.1) j x hx]
      rfl

/-! ## Claim theorems -/

/-- C3: for every pipeline with unique OpRef ids, valid edges and an acyclic
dependency graph, _topological_levels succeeds with levels whose sizes sum
exactly to the total operator count, and every non-sentinel edge goes from a
node of a strictly earlier level to a node of a later level. -/
theorem c3_topological_levels_correct {α : Type} (p : Pipeline α)
    (hn : (allOpIds p).Nodup) (hv : EdgesValid p) (hacyc : AcyclicRank p) :
    ∃ lvs, topological_levels p = .ok lvs ∧
      (lvs.map List.length).sum = (allOpIds p).length ∧
      ∀ e ∈ p.edges, e.source_op ≠ "__input__" →
        ∃ i j, levelIdx lvs e.source_op = some i ∧
          levelIdx lvs e.target_op = some j ∧ i < j := by
  obtain ⟨lvs, hok, hklv, hndf, hmem, hsum, hpred⟩ := topo_levels_spec p hn hv hacyc
  refine ⟨lvs, hok, hsum, ?_⟩
  intro e he hs
  have hstep : edgeStep p.edges e.source_op e.target_op := ⟨e, he, rfl, rfl, hs⟩
  have htv : e.target_op ∈ lvs.flatten := (hmem _).mpr (hv e he hs).2
  obtain ⟨j, hj⟩ := mem_flatten_getD lvs _ htv
  obtain ⟨i, hij, hi⟩ := hpred j _ hj _ hstep
  exact ⟨i, j, levelIdx_of_mem lvs hndf i _ hi, levelIdx_of_mem lvs hndf j _ hj, hij⟩

/-- Witness for c3_topological_levels_correct at the fetch to summary/notes
pipeline of the specification scenario. -/
theorem c3_topological_levels_correct_witness :
    ∃ lvs, topological_levels witPipelineC3 = .ok lvs ∧
      (lvs.map List.length).sum = (allOpIds witPipelineC3).length ∧
      ∀ e ∈ witPipelineC3.edges, e.source_op ≠ "__input__" →
        ∃ i j, levelIdx lvs e.source_op = some i ∧
          levelIdx lvs e.target_op = some j ∧ i < j :=
  c3_topological_levels_correct witPipelineC3 (by decide)
    (by unfold EdgesValid; decide)
    ⟨fun s => if s = "fetch" then 0 else 1, by decide⟩

/-- C4: for every pipeline with valid edges whose non-sentinel dependency
graph has a cycle, the Kahn loop places strictly fewer nodes into levels than
the total node count, _topological_levels raises, and run propagates that
error before any operator work is done. -/
theorem c4_cycle_detected {α : Type} (p : Pipeline α) (hv : EdgesValid p)
    (x : String) (hcyc : Reaches p.edges x x) :
    ∃ lvs msg, kahnLevels p = .ok lvs ∧
      (lvs.map List.length).sum < (allOpIds p).length ∧
      topological_levels p = .error msg ∧
      ∀ (env : EngineEnv α) (ii : Dict α),
        run_state env p ii = .error msg ∧
        PipelineEngine.run env p ii = .error msg := by
  obtain ⟨lvs, hok, hsum, msg, herr⟩ := topo_cycle_spec p hv x hcyc
  refine ⟨lvs, msg, hok, hsum, herr, ?_⟩
  intro env ii
  have h1 : run_state env p ii = .error msg := by
    rw [run_state, herr, except_bind_error]
  refine ⟨h1, ?_⟩
  rw [PipelineEngine.run, h1]
  rfl

/-- Witness for c4_cycle_detected at the two-operator cycle A to B to A. -/
theorem c4_cycle_detected_witness :
    ∃ lvs msg, kahnLevels witPipelineC4 = .ok lvs ∧
      (lvs.map List.length).sum < (allOpIds witPipelineC4).length ∧
      topological_levels witPipelineC4 = .error msg ∧
      ∀ (env : EngineEnv Nat) (ii : Dict Nat),
        run_state env witPipelineC4 ii = .error msg ∧
        PipelineEngine.run env witPipelineC4 ii = .error msg := by
  refine c4_cycle_detected witPipelineC4 (by unfold EdgesValid; decide) "A" ?_
  have h1 : edgeStep witPipelineC4.edges "A" "B" :=
    ⟨{ id := "e1", source_op := "A", source_port := "x",
       target_op := "B", target_port := "x" }, by decide, rfl, rfl, by decide⟩
  have h2 : edgeStep witPipelineC4.edges "B" "A" :=
    ⟨{ id := "e2", source_op := "B", source_port := "x",
       target_op := "A", target_port := "x" }, by decide, rfl, rfl, by decide⟩
  exact Relation.TransGen.tail (Relation.TransGen.single h1) h2

/-- C6: in the in-degree build, equal (source_op, target_op) pairs count once
and sentinel-source edges count nothing: the in-degree of every node t equals
the number of distinct sources of non-sentinel edges into t. -/
theorem c6_indegree_dedup_sentinel {α : Type} (p : Pipeline α) (hv : EdgesValid p) :
    ∃ st, buildGraph (firstDedup (allOpIds p)) p.edges = .ok st ∧
      ∀ t ∈ firstDedup (allOpIds p),
        alook st.in_degree t = some
          (((((p.edges.filter (fun e => decide (e.source_op ≠ "__input__" ∧
              e.target_op = t))).map (fun e => e.source_op)).dedup).length : Int)) := by
  obtain ⟨st, hok, ⟨hk1, hk2, hnd, hdom, hindeg, hdeps⟩, hmem⟩ := buildGraph_spec p hv
  refine ⟨st, hok, ?_⟩
  intro t ht
  have hsome : (alook st.in_degree t).isSome := by
    rw [alook_isSome_iff, hk1]
    exact ht
  obtain ⟨d, hd⟩ := Option.isSome_iff_exists.mp hsome
  rw [hd, hindeg t d hd]
  have hcnt : st.pair_seen.countP (fun pr => decide (pr.2 = t)) =
      (((p.edges.filter (fun e => decide (e.source_op ≠ "__input__" ∧
        e.target_op = t))).map (fun e => e.source_op)).dedup).length := by
    rw [List.countP_eq_length_filter]
    set A := st.pair_seen.filter (fun pr => decide (pr.2 = t)) with hA
    set B0 := (p.edges.filter (fun e => decide (e.source_op ≠ "__input__" ∧
      e.target_op = t))).map (fun e => e.source_op) with hB0
    have hAnd : A.Nodup := hnd.filter _
    have hmapnd : (A.map Prod.fst).Nodup := by
      refine List.Nodup.map_on ?_ hAnd
      intro x hx y hy hxy
      have hx2 := (List.mem_filter.mp hx).2
      have hy2 := (List.mem_filter.mp hy).2
      simp only [decide_eq_true_eq] at hx2 hy2
      exact Prod.ext hxy (hx2.trans hy2.symm)
    have hAmem : ∀ u, u ∈ A.map Prod.fst ↔ (u, t) ∈ st.pair_seen := by
      intro u
      constructor
      · intro hu
        obtain ⟨pr, hpr, rfl⟩ := List.mem_map.mp hu
        have h2 := (List.mem_filter.mp hpr).2
        simp only [decide_eq_true_eq] at h2
        have h1 := (List.mem_filter.mp hpr).1
        rw [← h2]
        simpa using h1
      · intro hu
        exact List.mem_map.mpr ⟨(u, t), List.mem_filter.mpr ⟨hu, by simp⟩, rfl⟩
    have hBmem : ∀ u, u ∈ B0.dedup ↔ (u, t) ∈ st.pair_seen := by
      intro u
      rw [List.mem_dedup, hB0]
      rw [hmem (u, t), nonSentinelPairs_mem]
      constructor
      · intro hu
        obtain ⟨e, he, rfl⟩ := List.mem_map.mp hu
        obtain ⟨he1, he2⟩ := List.mem_filter.mp he
        simp only [decide_eq_true_eq] at he2
        exact ⟨e, he1, he2.1, Prod.ext rfl he2.2.symm⟩
      · rintro ⟨e, he, hs, hpr⟩
        have h1 : e.source_op = u := (congrArg Prod.fst hpr).symm
        have h2 : e.target_op = t := (congrArg Prod.snd hpr).symm
        exact List.mem_map.mpr ⟨e, List.mem_filter.mpr ⟨he, by simp [hs, h2]⟩, h1⟩
    have hperm : (A.map Prod.fst).Perm B0.dedup :=
      (List.perm_ext_iff_of_nodup hmapnd (List.nodup_dedup _)).mpr
        (fun u => (hAmem u).trans (hBmem u).symm)
    rw [← List.length_map A Prod.fst]
    exact hperm.length_eq
  rw [hcnt]

/-- Witness for c6_indegree_dedup_sentinel at a pipeline with a duplicated
A to B pair and a sentinel edge into C. -/
theorem c6_indegree_dedup_sentinel_witness :
    ∃ st, buildGraph (firstDedup (allOpIds witPipelineC6)) witPipelineC6.edges = .ok st ∧
      ∀ t ∈ firstDedup (allOpIds witPipelineC6),
        alook st.in_degree t = some
          (((((witPipelineC6.edges.filter (fun e => decide (e.source_op ≠ "__input__" ∧
              e.target_op = t))).map (fun e => e.source_op)).dedup).length : Int)) :=
  c6_indegree_dedup_sentinel witPipelineC6 (by unfold EdgesValid; decide)

/-- C7: the inputs handed to an operator are the merge of the config
overrides of its OpRef with the edge-gathered inputs, edge values winning on
keys present in both, and _run_op calls execute on exactly that merge. -/
theorem c7_config_overrides_lowest_precedence {α : Type} (r : OpRef α)
    (inputs : Dict α) :
    (∀ k, merged_inputs r inputs k =
      match inputs k with
      | some v => some v
      | none => r.config_overrides k) ∧
    (∀ (env : EngineEnv α), env.known_key r.operator_key = true →
      env.op_completed_log r.id = false →
      run_op env r inputs = (env.exec_op r.operator_key (merged_inputs r inputs), true)) := by
  constructor
  · intro k
    rfl
  · intro env h1 h2
    rw [run_op, h1]
    simp only [Bool.true_eq_false, if_false]
    rw [h2]
    simp only [Bool.false_eq_true, if_false]

/-- Witness for c7_config_overrides_lowest_precedence at a concrete OpRef
with an override shadowed by an edge value, and a concrete environment in
which the operator key is known and the op is not logged completed. -/
theorem c7_config_overrides_lowest_precedence_witness :
    merged_inputs ({ id := "a", operator_key := "ka", config_overrides := Dict.set Dict.empty "x" 1 } : OpRef Nat) (Dict.set Dict.empty "x" 2) "x" = some 2 ∧
    run_op ({ known_key := fun _ => true, exec_op := fun _ _ => Except.ok Dict.empty, op_completed_log := fun _ => false, step_completed_log := fun _ => false } : EngineEnv Nat)
      ({ id := "a", operator_key := "ka", config_overrides := Dict.set Dict.empty "x" 1 } : OpRef Nat)
      (Dict.set Dict.empty "x" 2) = (Except.ok Dict.empty, true) := by
  have h := c7_config_overrides_lowest_precedence
    ({ id := "a", operator_key := "ka", config_overrides := Dict.set Dict.empty "x" 1 } : OpRef Nat)
    (Dict.set Dict.empty "x" 2)
  refine ⟨?_, ?_⟩
  · have h1 := h.1 "x"
    simpa using h1
  · have h2 := h.2 ({ known_key := fun _ => true, exec_op := fun _ _ => Except.ok Dict.empty, op_completed_log := fun _ => false, step_completed_log := fun _ => false } : EngineEnv Nat) rfl rfl
    exact h2

/-- C8: validate_inputs succeeds exactly when every required input port key is
present, and any raised error names the operator and a missing required
port. -/
theorem c8_validate_inputs_iff {α : Type} (self_key : String) (ports : List Port)
    (inputs : Dict α) :
    (validate_inputs self_key ports inputs = .ok () ↔
      ∀ port ∈ ports, port.required = true → (inputs port.key).isSome) ∧
    (∀ msg, validate_inputs self_key ports inputs = .error msg →
      ∃ port ∈ ports, port.required = true ∧ inputs port.key = none ∧
        msg = "Operator " ++ self_key ++ ": missing required input port " ++ port.key) := by
  induction ports with
  | nil =>
    refine ⟨?_, ?_⟩
    · simp only [validate_inputs]
      constructor
      · intro _ port hport
        simp at hport
      · intro _
        trivial
    · intro msg hmsg
      exact absurd hmsg (by simp [validate_inputs])
  | cons port rest ih =>
    by_cases hc : port.required && (inputs port.key).isNone
    · have heq : validate_inputs self_key (port :: rest) inputs =
          .error ("Operator " ++ self_key ++ ": missing required input port " ++
            port.key) := by
        rw [validate_inputs, if_pos hc]
      simp only [Bool.and_eq_true] at hc
      refine ⟨?_, ?_⟩
      · rw [heq]
        constructor
        · intro h
          exact Except.noConfusion h
        · intro h
          exfalso
          have := h port (List.mem_cons_self _ _) hc.1
          rw [Option.isNone_iff_eq_none] at hc
          rw [hc.2, Option.isSome_none] at this
          exact Bool.noConfusion this
      · intro msg hmsg
        rw [heq] at hmsg
        refine ⟨port, List.mem_cons_self _ _, hc.1,
          Option.isNone_iff_eq_none.mp hc.2, (Except.error.inj hmsg).symm⟩
    · have heq : validate_inputs self_key (port :: rest) inputs =
          validate_inputs self_key rest inputs := by
        rw [validate_inputs, if_neg hc]
      have hpresent : port.required = true → (inputs port.key).isSome := by
        intro hreq
        by_contra hnone
        apply hc
        rw [Bool.and_eq_true]
        refine ⟨hreq, ?_⟩
        cases h : inputs port.key
        · rfl
        · rw [h] at hnone
          exact absurd rfl hnone
      refine ⟨?_, ?_⟩
      · rw [heq, ih.1]
        constructor
        · intro h port2 hport2 hreq2
          rcases List.mem_cons.mp hport2 with rfl | hport2
          · exact hpresent hreq2
          · exact h port2 hport2 hreq2
        · intro h port2 hport2 hreq2
          exact h port2 (List.mem_cons_of_mem _ hport2) hreq2
      · intro msg hmsg
        rw [heq] at hmsg
        obtain ⟨port2, hport2, h1, h2, h3⟩ := ih.2 msg hmsg
        exact ⟨port2, List.mem_cons_of_mem _ hport2, h1, h2, h3⟩

/-- Witness for c8_validate_inputs_iff: one required present port and one
required missing port. -/
theorem c8_validate_inputs_iff_witness :
    (validate_inputs "op" [({ key := "x", type := PortType.text, description := "", required := true } : Port)] (Dict.set Dict.empty "x" (1 : Nat)) = .ok () ↔
      ∀ port ∈ [({ key := "x", type := PortType.text, description := "", required := true } : Port)], port.required = true →
          ((Dict.set Dict.empty "x" (1 : Nat)) port.key).isSome) ∧
    (∀ msg, validate_inputs "op" [({ key := "x", type := PortType.text, description := "", required := true } : Port)]
        (Dict.set Dict.empty "x" (1 : Nat)) = .error msg →
      ∃ port ∈ [({ key := "x", type := PortType.text, description := "", required := true } : Port)], port.required = true ∧
        (Dict.set Dict.empty "x" (1 : Nat)) port.key = none ∧
        msg = "Operator " ++ "op" ++ ": missing required input port " ++ port.key) :=
  c8_validate_inputs_iff "op"
    [{ key := "x", type := PortType.text, description := "", required := true }]
    (Dict.set Dict.empty "x" (1 : Nat))

/-- C10: _gather_inputs is total and binds each target port to the value of
the last edge in list order whose source op has a recorded output containing
the source port; edges with missing sources or ports are silently skipped. -/
theorem c10_gather_inputs_characterization {α : Type} (op_id : String)
    (edges : List Edge) (op_outputs : Dict (Dict α)) (t : String) :
    gather_inputs op_id edges op_outputs t =
      ((edges.filter (fun e => decide (e.target_op = op_id) &&
          decide (e.target_port = t) &&
          (((op_outputs e.source_op).getD Dict.empty) e.source_port).isSome)).getLast?).bind
        (fun e => ((op_outputs e.source_op).getD Dict.empty) e.source_port) := by
  have haux : ∀ (es : List Edge) (acc : Dict α),
      (es.foldl (fun inputs e =>
        if e.target_op ≠ op_id then inputs
        else
          match ((op_outputs e.source_op).getD Dict.empty) e.source_port with
          | some v => inputs.set e.target_port v
          | none => inputs) acc) t =
      match (es.filter (fun e => decide (e.target_op = op_id) &&
          decide (e.target_port = t) &&
          (((op_outputs e.source_op).getD Dict.empty) e.source_port).isSome)).getLast? with
      | some e => ((op_outputs e.source_op).getD Dict.empty) e.source_port
      | none => acc t := by
    intro es
    induction es with
    | nil => intro acc; rfl
    | cons e rest ihe =>
      intro acc
      rw [List.foldl_cons, List.filter_cons]
      by_cases h1 : e.target_op = op_id
      · by_cases h2 : (((op_outputs e.source_op).getD Dict.empty) e.source_port).isSome
        · obtain ⟨v, hv⟩ := Option.isSome_iff_exists.mp h2
          by_cases h3 : e.target_port = t
          · have hpe : (decide (e.target_op = op_id) && decide (e.target_port = t) &&
                (((op_outputs e.source_op).getD Dict.empty) e.source_port).isSome) = true := by
              simp [h1, h2, h3]
            rw [if_pos hpe]
            have hstep : (if e.target_op ≠ op_id then acc
                else match ((op_outputs e.source_op).getD Dict.empty) e.source_port with
                  | some v => acc.set e.target_port v
                  | none => acc) = acc.set e.target_port v := by
              rw [if_neg (by simp [h1]), hv]
            rw [hstep, ihe]
            cases hL : rest.filter (fun e => decide (e.target_op = op_id) &&
                decide (e.target_port = t) &&
                (((op_outputs e.source_op).getD Dict.empty) e.source_port).isSome) with
            | nil =>
              simp only [List.getLast?_nil, List.getLast?_singleton]
              rw [← h3, Dict.set_self, hv]
            | cons e2 L2 =>
              rw [List.getLast?_cons_cons,
                List.getLast?_eq_getLast (e2 :: L2) (by simp)]
          · have hpe : (decide (e.target_op = op_id) && decide (e.target_port = t) &&
                (((op_outputs e.source_op).getD Dict.empty) e.source_port).isSome) = false := by
              simp [h3]
            have hnpe : ¬((decide (e.target_op = op_id) && decide (e.target_port = t) &&
                (((op_outputs e.source_op).getD Dict.empty) e.source_port).isSome) = true) := by
              rw [hpe]
              exact Bool.false_ne_true
            rw [if_neg hnpe]
            have hstep : (if e.target_op ≠ op_id then acc
                else match ((op_outputs e.source_op).getD Dict.empty) e.source_port with
                  | some v => acc.set e.target_port v
                  | none => acc) = acc.set e.target_port v := by
              rw [if_neg (by simp [h1]), hv]
            rw [hstep, ihe]
            cases (rest.filter (fun e => decide (e.target_op = op_id) &&
                decide (e.target_port = t) &&
                (((op_outputs e.source_op).getD Dict.empty) e.source_port).isSome)).getLast? with
            | some e2 => rfl
            | none => exact Dict.set_other _ _ _ _ (fun hc => h3 hc.symm)
        · have hpe : (decide (e.target_op = op_id) && decide (e.target_port = t) &&
              (((op_outputs e.source_op).getD Dict.empty) e.source_port).isSome) = false := by
            simp only [Bool.and_eq_false_iff]
            right
            cases h : (((op_outputs e.source_op).getD Dict.empty) e.source_port).isSome
            · rfl
            · exact absurd h h2
          have hnpe : ¬((decide (e.target_op = op_id) && decide (e.target_port = t) &&
              (((op_outputs e.source_op).getD Dict.empty) e.source_port).isSome) = true) := by
            rw [hpe]
            exact Bool.false_ne_true
          rw [if_neg hnpe]
          have hno : ((op_outputs e.source_op).getD Dict.empty) e.source_port = none := by
            cases h : ((op_outputs e.source_op).getD Dict.empty) e.source_port
            · rfl
            · rw [h] at h2
              exact absurd rfl h2
          have hstep : (if e.target_op ≠ op_id then acc
              else match ((op_outputs e.source_op).getD Dict.empty) e.source_port with
                | some v => acc.set e.target_port v
                | none => acc) = acc := by
            rw [if_neg (by simp [h1]), hno]
          rw [hstep, ihe]
      · have hpe : (decide (e.target_op = op_id) && decide (e.target_port = t) &&
            (((op_outputs e.source_op).getD Dict.empty) e.source_port).isSome) = false := by
          simp [h1]
        have hnpe : ¬((decide (e.target_op = op_id) && decide (e.target_port = t) &&
            (((op_outputs e.source_op).getD Dict.empty) e.source_port).isSome) = true) := by
          rw [hpe]
          exact Bool.false_ne_true
        rw [if_neg hnpe]
        have hstep : (if e.target_op ≠ op_id then acc
            else match ((op_outputs e.source_op).getD Dict.empty) e.source_port with
              | some v => acc.set e.target_port v
              | none => acc) = acc := by
          rw [if_pos h1]
        rw [hstep, ihe]
  rw [show gather_inputs op_id edges op_outputs = edges.foldl (fun inputs e =>
      if e.target_op ≠ op_id then inputs
      else
        match ((op_outputs e.source_op).getD Dict.empty) e.source_port with
        | some v => inputs.set e.target_port v
        | none => inputs) Dict.empty from rfl]
  rw [haux edges Dict.empty]
  cases (edges.filter (fun e => decide (e.target_op = op_id) &&
      decide (e.target_port = t) &&
      (((op_outputs e.source_op).getD Dict.empty) e.source_port).isSome)).getLast? with
  | some e2 => rfl
  | none => rfl

/-- C9: whenever PipelineEngine.run returns ok, the returned map binds the
sentinel key "__input__" to exactly the caller-supplied initial inputs map,
whatever the operators did, provided no declared op id shadows the
sentinel. -/
theorem c9_run_preserves_initial_inputs {α : Type} (env : EngineEnv α)
    (p : Pipeline α) (ii : Dict α) (hs : "__input__" ∉ allOpIds p)
    (outs : Dict (Dict α)) (h : PipelineEngine.run env p ii = .ok outs) :
    outs "__input__" = some ii := by
  rw [PipelineEngine.run] at h
  cases hr : run_state env p ii with
  | error msg =>
    rw [hr] at h
    exact Except.noConfusion h
  | ok st =>
    rw [hr] at h
    simp only [Except.map] at h
    obtain rfl := Except.ok.inj h
    exact run_state_initial_inputs env p ii hs st hr

/-- Witness for c9_run_preserves_initial_inputs on a concrete three-operator
pipeline whose first operator fails: the returned map still binds the
sentinel to the initial inputs. -/
theorem c9_run_preserves_initial_inputs_witness :
    "__input__" ∉ allOpIds witPipelineC2 ∧
    (PipelineEngine.run witEnvC2 witPipelineC2 Dict.empty).map
      (fun outs => outs "__input__") = .ok (some Dict.empty) := by
  refine ⟨by decide, ?_⟩
  cases hr : PipelineEngine.run witEnvC2 witPipelineC2 Dict.empty with
  | error msg =>
    have hok : (PipelineEngine.run witEnvC2 witPipelineC2 Dict.empty).toBool = true := rfl
    rw [hr] at hok
    exact Bool.noConfusion hok
  | ok outs =>
    have h := c9_run_preserves_initial_inputs witEnvC2 witPipelineC2 Dict.empty
      (by decide) outs hr
    simp only [Except.map]
    rw [h]

theorem collect_skipped_all {α : Type} (p : Pipeline α) :
    ∀ (slots : List (String × Slot α)) (st : EngineState α),
      (∀ sl ∈ slots, sl.2 = Slot.skipped) → level_collect p st slots = st := by
  intro slots
  induction slots with
  | nil => intro st _; rfl
  | cons sl rest ih =>
    intro st h
    obtain ⟨a, b⟩ := sl
    have hb : b = Slot.skipped := h (a, b) (List.mem_cons_self _ _)
    subst hb
    rw [level_collect_cons_skipped]
    exact ih st (fun s hs => h s (List.mem_cons_of_mem _ hs))

theorem smart_skip_prepare_step {α : Type} (env : EngineEnv α) (p : Pipeline α)
    (hn : (allOpIds p).Nodup)
    (hlog : ∀ s ∈ p.steps, env.step_completed_log s.key = true)
    (st : EngineState α) (slots : List (String × Slot α)) (x : String)
    (hx : x ∈ allOpIds p)
    (hinv : st.invoked = [] ∧ st.failed_ops = [] ∧
      st.step_started = st.step_completed ∧
      (∀ k ∈ st.step_completed, ∀ o ∈ ((stepMap p k).getD defaultStep).operators,
        st.op_outputs o.id = some Dict.empty)) :
    ∃ st2, level_prepare env p (st, slots) x = (st2, slots ++ [(x, Slot.skipped)]) ∧
      (st2.invoked = [] ∧ st2.failed_ops = [] ∧
        st2.step_started = st2.step_completed ∧
        (∀ k ∈ st2.step_completed, ∀ o ∈ ((stepMap p k).getD defaultStep).operators,
          st2.op_outputs o.id = some Dict.empty)) ∧
      (∀ k ∈ st.step_completed, k ∈ st2.step_completed) ∧
      ((build_op_map p).2 x).getD "" ∈ st2.step_completed := by
  obtain ⟨hinvk, hfail, hss, hout⟩ := hinv
  obtain ⟨s, hs, o, ho, hoid⟩ := (mem_allOpIds p x).mp hx
  have hbm : (build_op_map p).2 x = some s.key := by
    have h2 := (op_lookup p hn s hs o ho).2
    rw [hoid] at h2
    exact h2
  have hkey : ((build_op_map p).2 x).getD "" = s.key := by rw [hbm]; rfl
  have hc1 : (get_upstream_ops x p.edges).any (fun u => u ∈ st.failed_ops) = false := by
    simp [hfail]
  by_cases hcin : ((build_op_map p).2 x).getD "" ∈ st.step_completed
  · have hc2 : ¬ (((build_op_map p).2 x).getD "" ∉ st.step_started ∧
        env.step_completed_log (((build_op_map p).2 x).getD "") = true) := by
      intro hcon
      exact hcon.1 (by rw [hss]; exact hcin)
    exact ⟨st, level_prepare_case_c env p st slots x hc1 hc2 hcin,
      ⟨hinvk, hfail, hss, hout⟩, fun k hk => hk, hcin⟩
  · have hc2 : ((build_op_map p).2 x).getD "" ∉ st.step_started ∧
        env.step_completed_log (((build_op_map p).2 x).getD "") = true := by
      refine ⟨by rw [hss]; exact hcin, ?_⟩
      rw [hkey]
      exact hlog s hs
    refine ⟨_, level_prepare_case_b env p st slots x hc1 hc2, ⟨hinvk, hfail, ?_, ?_⟩,
      ?_, ?_⟩
    · show addSet st.step_started (((build_op_map p).2 x).getD "") =
        addSet st.step_completed (((build_op_map p).2 x).getD "")
      rw [hss]
    · intro k hk o2 ho2
      show (((stepMap p (((build_op_map p).2 x).getD "")).getD defaultStep).operators.foldl
          (fun m o => m.set o.id Dict.empty) st.op_outputs) o2.id = some Dict.empty
      rcases (addSet_mem _ _ _).mp hk with hkold | hknew
      · exact setfold_const_lookup
          ((stepMap p (((build_op_map p).2 x).getD "")).getD defaultStep).operators
          (fun o => o.id) Dict.empty st.op_outputs o2.id
          (Or.inr (hout k hkold o2 ho2))
      · subst hknew
        exact setfold_const_lookup
          ((stepMap p (((build_op_map p).2 x).getD "")).getD defaultStep).operators
          (fun o => o.id) Dict.empty st.op_outputs o2.id
          (Or.inl (List.mem_map.mpr ⟨o2, ho2, rfl⟩))
    · exact fun k hk => addSet_subset _ _ k hk
    · exact mem_addSet_self _ _

theorem smart_skip_prepare_fold {α : Type} (env : EngineEnv α) (p : Pipeline α)
    (hn : (allOpIds p).Nodup)
    (hlog : ∀ s ∈ p.steps, env.step_completed_log s.key = true) :
    ∀ (ops : List String) (st : EngineState α) (slots : List (String × Slot α)),
      (∀ x ∈ ops, x ∈ allOpIds p) →
      (st.invoked = [] ∧ st.failed_ops = [] ∧
        st.step_started = st.step_completed ∧
        (∀ k ∈ st.step_completed, ∀ o ∈ ((stepMap p k).getD defaultStep).operators,
          st.op_outputs o.id = some Dict.empty)) →
      ∃ st2 sl2, ops.foldl (level_prepare env p) (st, slots) = (st2, slots ++ sl2) ∧
        (∀ sl ∈ sl2, sl.2 = Slot.skipped) ∧
        (st2.invoked = [] ∧ st2.failed_ops = [] ∧
          st2.step_started = st2.step_completed ∧
          (∀ k ∈ st2.step_completed, ∀ o ∈ ((stepMap p k).getD defaultStep).operators,
            st2.op_outputs o.id = some Dict.empty)) ∧
        (∀ k ∈ st.step_completed, k ∈ st2.step_completed) ∧
        (∀ x ∈ ops, ((build_op_map p).2 x).getD "" ∈ st2.step_completed) := by
  intro ops
  induction ops with
  | nil =>
    intro st slots _ hinv
    refine ⟨st, [], by rw [List.foldl_nil, List.append_nil], ?_, hinv, fun k hk => hk, ?_⟩
    · intro sl hsl
      exact absurd hsl (List.not_mem_nil sl)
    · intro x hx
      exact absurd hx (List.not_mem_nil x)
  | cons x rest ih =>
    intro st slots hsub hinv
    rw [List.foldl_cons]
    obtain ⟨st1, heq1, hinv1, hsubc1, hkey1⟩ :=
      smart_skip_prepare_step env p hn hlog st slots x
        (hsub x (List.mem_cons_self _ _)) hinv
    rw [heq1]
    obtain ⟨st2, sl2, heq2, hsk2, hinv2, hsubc2, hkey2⟩ :=
      ih st1 (slots ++ [(x, Slot.skipped)])
        (fun y hy => hsub y (List.mem_cons_of_mem _ hy)) hinv1
    refine ⟨st2, (x, Slot.skipped) :: sl2, ?_, ?_, hinv2,
      fun k hk => hsubc2 k (hsubc1 k hk), ?_⟩
    · rw [heq2, List.append_assoc]
      rfl
    · intro sl hsl
      rcases List.mem_cons.mp hsl with rfl | hsl
      · rfl
      · exact hsk2 sl hsl
    · intro y hy
      rcases List.mem_cons.mp hy with rfl | hy
      · exact hsubc2 _ hkey1
      · exact hkey2 y hy

theorem smart_skip_run_level {α : Type} (env : EngineEnv α) (p : Pipeline α)
    (hn : (allOpIds p).Nodup)
    (hlog : ∀ s ∈ p.steps, env.step_completed_log s.key = true)
    (lv : List String) (st : EngineState α)
    (hsub : ∀ x ∈ lv, x ∈ allOpIds p)
    (hinv : st.invoked = [] ∧ st.failed_ops = [] ∧
      st.step_started = st.step_completed ∧
      (∀ k ∈ st.step_completed, ∀ o ∈ ((stepMap p k).getD defaultStep).operators,
        st.op_outputs o.id = some Dict.empty)) :
    ((run_level env p st lv).invoked = [] ∧ (run_level env p st lv).failed_ops = [] ∧
      (run_level env p st lv).step_started = (run_level env p st lv).step_completed ∧
      (∀ k ∈ (run_level env p st lv).step_completed,
        ∀ o ∈ ((stepMap p k).getD defaultStep).operators,
          (run_level env p st lv).op_outputs o.id = some Dict.empty)) ∧
    (∀ k ∈ st.step_completed, k ∈ (run_level env p st lv).step_completed) ∧
    (∀ x ∈ lv, ((build_op_map p).2 x).getD "" ∈ (run_level env p st lv).step_completed) := by
  obtain ⟨st2, sl2, heq, hsk, hinv2, hsubc, hkeys⟩ :=
    smart_skip_prepare_fold env p hn hlog lv st [] hsub hinv
  have hrl : run_level env p st lv = st2 := by
    show level_collect p (lv.foldl (level_prepare env p) (st, [])).1
      (lv.foldl (level_prepare env p) (st, [])).2 = st2
    rw [heq]
    show level_collect p st2 ([] ++ sl2) = st2
    rw [List.nil_append]
    exact collect_skipped_all p sl2 st2 hsk
  rw [hrl]
  exact ⟨hinv2, hsubc, hkeys⟩

theorem smart_skip_levels_fold {α : Type} (env : EngineEnv α) (p : Pipeline α)
    (hn : (allOpIds p).Nodup)
    (hlog : ∀ s ∈ p.steps, env.step_completed_log s.key = true) :
    ∀ (ls : List (List String)) (st : EngineState α),
      (∀ x ∈ ls.flatten, x ∈ allOpIds p) →
      (st.invoked = [] ∧ st.failed_ops = [] ∧
        st.step_started = st.step_completed ∧
        (∀ k ∈ st.step_completed, ∀ o ∈ ((stepMap p k).getD defaultStep).operators,
          st.op_outputs o.id = some Dict.empty)) →
      ((ls.foldl (run_level env p) st).invoked = [] ∧
        (ls.foldl (run_level env p) st).failed_ops = [] ∧
        (ls.foldl (run_level env p) st).step_started =
          (ls.foldl (run_level env p) st).step_completed ∧
        (∀ k ∈ (ls.foldl (run_level env p) st).step_completed,
          ∀ o ∈ ((stepMap p k).getD defaultStep).operators,
            (ls.foldl (run_level env p) st).op_outputs o.id = some Dict.empty)) ∧
      (∀ k ∈ st.step_completed, k ∈ (ls.foldl (run_level env p) st).step_completed) ∧
      (∀ x ∈ ls.flatten, ((build_op_map p).2 x).getD "" ∈
        (ls.foldl (run_level env p) st).step_completed) := by
  intro ls
  induction ls with
  | nil =>
    intro st _ hinv
    exact ⟨hinv, fun k hk => hk, fun x hx => absurd hx (List.not_mem_nil x)⟩
  | cons lv rest ih =>
    intro st hsub hinv
    rw [List.foldl_cons]
    have hsublv : ∀ x ∈ lv, x ∈ allOpIds p := fun x hx =>
      hsub x (by rw [List.flatten_cons]; exact List.mem_append_left _ hx)
    have hsubrest : ∀ x ∈ rest.flatten, x ∈ allOpIds p := fun x hx =>
      hsub x (by rw [List.flatten_cons]; exact List.mem_append_right _ hx)
    obtain ⟨hinv1, hsubc1, hkeys1⟩ :=
      smart_skip_run_level env p hn hlog lv st hsublv hinv
    obtain ⟨hinv2, hsubc2, hkeys2⟩ := ih (run_level env p st lv) hsubrest hinv1
    refine ⟨hinv2, fun k hk => hsubc2 k (hsubc1 k hk), ?_⟩
    intro x hx
    rw [List.flatten_cons] at hx
    rcases List.mem_append.mp hx with hx | hx
    · exact hsubc2 _ (hkeys1 x hx)
    · exact hkeys2 x hx

/-- C5: re-running a pipeline whose every Step is reported completed by the
event log invokes no operator execute call at all, fails nothing, and records
the empty output map for every operator of the pipeline in the returned
outputs (wellformedness: unique op ids, unique step keys, valid edges). -/
theorem c5_completed_log_skips_all {α : Type} (env : EngineEnv α) (p : Pipeline α)
    (ii : Dict α) (hn : (allOpIds p).Nodup)
    (hk : (p.steps.map (fun s => s.key)).Nodup)
    (hv : EdgesValid p)
    (hlog : ∀ s ∈ p.steps, env.step_completed_log s.key = true)
    (st : EngineState α) (h : run_state env p ii = .ok st) :
    st.invoked = [] ∧ st.failed_ops = [] ∧
    ∀ op ∈ allOpIds p, st.op_outputs op = some Dict.empty := by
  rw [run_state] at h
  cases hlv : topological_levels p with
  | error msg =>
    rw [hlv, except_bind_error] at h
    exact Except.noConfusion h
  | ok lvs =>
    rw [hlv, except_bind_ok] at h
    obtain rfl := Except.ok.inj h
    have hkl := topological_levels_ok_inv p lvs hlv
    obtain ⟨lvs2, hok2, hnd2, hsub2, _, _⟩ := kahnLevels_spec p hv
    rw [hkl] at hok2
    obtain rfl := Except.ok.inj hok2
    have hsum : ((lvs.map (fun lv => lv.length)).sum) = (allOpIds p).length := by
      rw [topological_levels, hkl, except_bind_ok] at hlv
      by_cases hc : (lvs.map (fun lv => lv.length)).sum ≠ (allOpIds p).length
      · rw [if_pos hc] at hlv
        exact absurd hlv (by simp)
      · exact not_not.mp hc
    have hflen : lvs.flatten.length = (allOpIds p).length := by
      rw [List.length_flatten]
      exact hsum
    have hsubp : List.Subperm lvs.flatten (allOpIds p) :=
      hnd2.subperm (fun a ha => hsub2 a ha)
    have hperm : lvs.flatten.Perm (allOpIds p) :=
      hsubp.perm_of_length_le (le_of_eq hflen.symm)
    have hcompl : ∀ x ∈ allOpIds p, x ∈ lvs.flatten := fun x hx =>
      hperm.mem_iff.mpr hx
    obtain ⟨⟨hinvk, hfail, _, hout⟩, _, hkeys⟩ :=
      smart_skip_levels_fold env p hn hlog lvs (initial_state ii)
        (fun x hx => hsub2 x hx)
        ⟨rfl, rfl, rfl, fun k hkk => absurd hkk (List.not_mem_nil k)⟩
    refine ⟨hinvk, hfail, ?_⟩
    intro op hop
    obtain ⟨s, hs, o, ho, hoid⟩ := (mem_allOpIds p op).mp hop
    have hbm : (build_op_map p).2 op = some s.key := by
      have h2 := (op_lookup p hn s hs o ho).2
      rw [hoid] at h2
      exact h2
    have hcompk : s.key ∈
        (lvs.foldl (run_level env p) (initial_state ii)).step_completed := by
      have h3 := hkeys op (hcompl op hop)
      rw [hbm] at h3
      exact h3
    have hsm : stepMap p s.key = some s := stepMap_lookup p hk s hs
    have h4 := hout s.key hcompk o (by rw [hsm]; exact ho)
    rw [← hoid]
    exact h4

/-- Witness for c5_completed_log_skips_all on the three-step pipeline with an
environment whose event log reports every step completed: no invocation, no
failure, and the already-placed operator A gets the empty output map. -/
theorem c5_completed_log_skips_all_witness :
    invokedOf (run_state witEnvC5 witPipelineC2 Dict.empty) = [] ∧
    failedOf (run_state witEnvC5 witPipelineC2 Dict.empty) = [] ∧
    (run_state witEnvC5 witPipelineC2 Dict.empty).map
      (fun st => st.op_outputs "A") = .ok (some Dict.empty) := by
  cases hr : run_state witEnvC5 witPipelineC2 Dict.empty with
  | error msg =>
    have hok : (run_state witEnvC5 witPipelineC2 Dict.empty).toBool = true := rfl
    rw [hr] at hok
    exact Bool.noConfusion hok
  | ok st =>
    obtain ⟨h1, h2, h3⟩ := c5_completed_log_skips_all witEnvC5 witPipelineC2 Dict.empty
      (by decide) (by decide) (by unfold EdgesValid; decide)
      (fun s _ => rfl) st hr
    refine ⟨?_, ?_, ?_⟩
    · show st.invoked = []
      exact h1
    · show st.failed_ops = []
      exact h2
    · show Except.ok (st.op_outputs "A") = Except.ok (some Dict.empty)
      rw [h3 "A" (by decide)]

/-- C1: the value PipelineEngine.run returns is the outputs map alone, not
the documented pair: a run whose only operator fails and a run with no
operators at all return equal values, while their failed-op sets (held only
in the discarded internal state) differ, so no caller can derive the run
status from what run returns. -/
theorem c1_run_result_omits_failed_set :
    PipelineEngine.run exEnvFailAll exPipelineSingleFail Dict.empty =
      PipelineEngine.run exEnvFailAll exPipelineEmpty Dict.empty ∧
    failedOf (run_state exEnvFailAll exPipelineSingleFail Dict.empty) = ["a"] ∧
    failedOf (run_state exEnvFailAll exPipelineEmpty Dict.empty) = [] := by
  refine ⟨?_, rfl, rfl⟩
  rfl

/-! ## Failure propagation: supporting lemmas -/

theorem run_op_exec {α : Type} (env : EngineEnv α) (r : OpRef α) (inputs : Dict α)
    (h1 : env.known_key r.operator_key = true)
    (h2 : env.op_completed_log r.id = false) :
    run_op env r inputs = (env.exec_op r.operator_key (merged_inputs r inputs), true) := by
  rw [run_op, h1]
  simp only [Bool.true_eq_false, if_false]
  rw [h2]
  simp only [Bool.false_eq_true, if_false]

theorem get_upstream_mem (op_id : String) (edges : List Edge) (u : String) :
    u ∈ get_upstream_ops op_id edges ↔ edgeStep edges u op_id := by
  rw [get_upstream_ops]
  constructor
  · intro h
    obtain ⟨e, he, rfl⟩ := List.mem_map.mp h
    have hf := List.mem_filter.mp he
    simp only [Bool.and_eq_true, decide_eq_true_eq] at hf
    exact ⟨e, hf.1, rfl, hf.2.1, hf.2.2⟩
  · rintro ⟨e, he, rfl, h2, h3⟩
    exact List.mem_map.mpr ⟨e, List.mem_filter.mpr ⟨he, by simp [h2, h3]⟩, rfl⟩

theorem no_edge_no_reach (edges : List Edge) (u : String)
    (h : ∀ v, ¬ edgeStep edges u v) : ∀ w, ¬ Reaches edges u w := by
  intro w hr
  induction hr with
  | single h1 => exact h _ h1
  | tail _ _ ih => exact ih

theorem getD_append_cons (done : List (List String)) (lv : List String)
    (rest : List (List String)) :
    (done ++ lv :: rest).getD done.length [] = lv := by
  induction done with
  | nil => rfl
  | cons d ds ih =>
    rw [List.cons_append, List.length_cons, List.getD_cons_succ]
    exact ih

theorem getD_append_left_lt (done rest : List (List String)) (i : Nat)
    (h : i < done.length) :
    (done ++ rest).getD i [] = done.getD i [] := by
  induction done generalizing i with
  | nil => exact absurd h (by simp)
  | cons d ds ih =>
    cases i with
    | zero => rfl
    | succ n =>
      rw [List.cons_append, List.getD_cons_succ, List.getD_cons_succ]
      exact ih n (by rw [List.length_cons] at h; omega)

theorem flatten_mem_getD_lt (done : List (List String)) (u : String)
    (h : u ∈ done.flatten) : ∃ i, i < done.length ∧ u ∈ done.getD i [] := by
  induction done with
  | nil => exact absurd h (by simp)
  | cons d ds ih =>
    rw [List.flatten_cons] at h
    rcases List.mem_append.mp h with h | h
    · exact ⟨0, by simp, h⟩
    · obtain ⟨i, hi, hm⟩ := ih h
      refine ⟨i + 1, ?_, ?_⟩
      · rw [List.length_cons]
        omega
      · rw [List.getD_cons_succ]
        exact hm

/-- The collected state of an ok slot, with the lets of level_collect
unfolded, so that the branch shapes are explicit. -/
theorem level_collect_cons_ok_zeta {α : Type} (p : Pipeline α) (st : EngineState α)
    (op_id : String) (out : Dict α) (rest : List (String × Slot α)) :
    level_collect p st ((op_id, Slot.launched (.ok out)) :: rest) =
      level_collect p
        (if ((((stepMap p (((build_op_map p).2 op_id).getD "")).getD
              defaultStep).operators.getLast?).map (fun o => o.id) = some op_id ∧
            (((build_op_map p).2 op_id).getD "") ∉ st.step_failed) then
          { st with op_outputs := st.op_outputs.set op_id out,
                    step_completed := addSet st.step_completed
                      (((build_op_map p).2 op_id).getD "") }
        else { st with op_outputs := st.op_outputs.set op_id out }) rest := rfl

theorem collect_ok_state_failed {α : Type} (c : Prop) (inst : Decidable c)
    (st : EngineState α) (op_id key : String) (out : Dict α) :
    (@ite _ c inst
      { st with op_outputs := st.op_outputs.set op_id out,
                step_completed := addSet st.step_completed key }
      { st with op_outputs := st.op_outputs.set op_id out }).failed_ops
      = st.failed_ops := by
  cases inst with
  | isTrue h => rfl
  | isFalse h => rfl

theorem collect_ok_state_invoked {α : Type} (c : Prop) (inst : Decidable c)
    (st : EngineState α) (op_id key : String) (out : Dict α) :
    (@ite _ c inst
      { st with op_outputs := st.op_outputs.set op_id out,
                step_completed := addSet st.step_completed key }
      { st with op_outputs := st.op_outputs.set op_id out }).invoked
      = st.invoked := by
  cases inst with
  | isTrue h => rfl
  | isFalse h => rfl

theorem collect_ok_state_completed {α : Type} (c : Prop) (inst : Decidable c)
    (st : EngineState α) (op_id key k : String) (out : Dict α)
    (h : k ∈ (@ite _ c inst
      { st with op_outputs := st.op_outputs.set op_id out,
                step_completed := addSet st.step_completed key }
      { st with op_outputs := st.op_outputs.set op_id out }).step_completed) :
    k ∈ st.step_completed ∨ (c ∧ k = key) := by
  cases inst with
  | isTrue hc =>
    rcases (addSet_mem _ _ _).mp h with h2 | h2
    · exact Or.inl h2
    · exact Or.inr ⟨hc, h2⟩
  | isFalse hc => exact Or.inl h

theorem collect_invoked_eq {α : Type} (p : Pipeline α) :
    ∀ (slots : List (String × Slot α)) (st : EngineState α),
      (level_collect p st slots).invoked = st.invoked := by
  intro slots
  induction slots with
  | nil => intro st; rfl
  | cons sl rest ih =>
    intro st
    obtain ⟨a, b⟩ := sl
    cases b with
    | skipped =>
      rw [level_collect_cons_skipped]
      exact ih st
    | launched res =>
      cases res with
      | error m =>
        rw [level_collect_cons_error]
        exact ih _
      | ok out =>
        rw [level_collect_cons_ok_zeta, ih]
        exact collect_ok_state_invoked _ _ _ _ _ _

theorem collect_failed_mem {α : Type} (p : Pipeline α) :
    ∀ (slots : List (String × Slot α)) (st : EngineState α) (u : String),
      u ∈ (level_collect p st slots).failed_ops ↔
        (u ∈ st.failed_ops ∨ ∃ sl ∈ slots, sl.1 = u ∧
          ∃ m, sl.2 = Slot.launched (Except.error m)) := by
  intro slots
  induction slots with
  | nil =>
    intro st u
    rw [level_collect_nil]
    constructor
    · exact Or.inl
    · rintro (h | ⟨sl, hsl, _⟩)
      · exact h
      · exact absurd hsl (List.not_mem_nil sl)
  | cons sl0 rest ih =>
    intro st u
    obtain ⟨a, b⟩ := sl0
    cases b with
    | skipped =>
      rw [level_collect_cons_skipped, ih]
      constructor
      · rintro (h | ⟨sl, hsl, h1, m, h2⟩)
        · exact Or.inl h
        · exact Or.inr ⟨sl, List.mem_cons_of_mem _ hsl, h1, m, h2⟩
      · rintro (h | ⟨sl, hsl, h1, m, h2⟩)
        · exact Or.inl h
        · rcases List.mem_cons.mp hsl with rfl | hsl
          · exact Slot.noConfusion h2
          · exact Or.inr ⟨sl, hsl, h1, m, h2⟩
    | launched res =>
      cases res with
      | error m0 =>
        rw [level_collect_cons_error, ih]
        constructor
        · rintro (h | ⟨sl, hsl, h1, m, h2⟩)
          · rcases (addSet_mem _ _ _).mp h with h | h
            · exact Or.inl h
            · exact Or.inr ⟨(a, Slot.launched (Except.error m0)),
                List.mem_cons_self _ _, h.symm, m0, rfl⟩
          · exact Or.inr ⟨sl, List.mem_cons_of_mem _ hsl, h1, m, h2⟩
        · rintro (h | ⟨sl, hsl, h1, m, h2⟩)
          · exact Or.inl ((addSet_mem _ _ _).mpr (Or.inl h))
          · rcases List.mem_cons.mp hsl with rfl | hsl
            · exact Or.inl ((addSet_mem _ _ _).mpr (Or.inr h1.symm))
            · exact Or.inr ⟨sl, hsl, h1, m, h2⟩
      | ok out =>
        rw [level_collect_cons_ok_zeta, ih, collect_ok_state_failed]
        constructor
        · rintro (h | ⟨sl, hsl, h1, m, h2⟩)
          · exact Or.inl h
          · exact Or.inr ⟨sl, List.mem_cons_of_mem _ hsl, h1, m, h2⟩
        · rintro (h | ⟨sl, hsl, h1, m, h2⟩)
          · exact Or.inl h
          · rcases List.mem_cons.mp hsl with rfl | hsl
            · exact absurd h2 (fun hcon => Except.noConfusion (Slot.launched.inj hcon))
            · exact Or.inr ⟨sl, hsl, h1, m, h2⟩

theorem collect_completed_mem {α : Type} (p : Pipeline α) :
    ∀ (slots : List (String × Slot α)) (st : EngineState α) (k : String),
      k ∈ (level_collect p st slots).step_completed →
      k ∈ st.step_completed ∨ ∃ sl ∈ slots,
        k = ((build_op_map p).2 sl.1).getD "" ∧
        (((stepMap p k).getD defaultStep).operators.getLast?).map
          (fun o => o.id) = some sl.1 := by
  intro slots
  induction slots with
  | nil =>
    intro st k h
    exact Or.inl h
  | cons sl0 rest ih =>
    intro st k h
    obtain ⟨a, b⟩ := sl0
    cases b with
    | skipped =>
      rw [level_collect_cons_skipped] at h
      rcases ih st k h with h | ⟨sl, hsl, h1, h2⟩
      · exact Or.inl h
      · exact Or.inr ⟨sl, List.mem_cons_of_mem _ hsl, h1, h2⟩
    | launched res =>
      cases res with
      | error m =>
        rw [level_collect_cons_error] at h
        rcases ih _ k h with h | ⟨sl, hsl, h1, h2⟩
        · exact Or.inl h
        · exact Or.inr ⟨sl, List.mem_cons_of_mem _ hsl, h1, h2⟩
      | ok out =>
        rw [level_collect_cons_ok_zeta] at h
        rcases ih _ k h with h | ⟨sl, hsl, h1, h2⟩
        · rcases collect_ok_state_completed _ _ _ _ _ _ _ h with h | ⟨hc, hk⟩
          · exact Or.inl h
          · refine Or.inr ⟨(a, Slot.launched (Except.ok out)),
              List.mem_cons_self _ _, hk, ?_⟩
            rw [hk]
            exact hc.1
        · exact Or.inr ⟨sl, List.mem_cons_of_mem _ hsl, h1, h2⟩

theorem collect_ok_state_step_failed {α : Type} (c : Prop) (inst : Decidable c)
    (st : EngineState α) (op_id key : String) (out : Dict α) :
    (@ite _ c inst
      { st with op_outputs := st.op_outputs.set op_id out,
                step_completed := addSet st.step_completed key }
      { st with op_outputs := st.op_outputs.set op_id out }).step_failed
      = st.step_failed := by
  cases inst with
  | isTrue h => rfl
  | isFalse h => rfl

theorem collect_step_failed_mem {α : Type} (p : Pipeline α) :
    ∀ (slots : List (String × Slot α)) (st : EngineState α) (k : String),
      k ∈ (level_collect p st slots).step_failed ↔
        (k ∈ st.step_failed ∨ ∃ sl ∈ slots,
          (∃ m, sl.2 = Slot.launched (Except.error m)) ∧
          k = ((build_op_map p).2 sl.1).getD "") := by
  intro slots
  induction slots with
  | nil =>
    intro st k
    rw [level_collect_nil]
    constructor
    · exact Or.inl
    · rintro (h | ⟨sl, hsl, _⟩)
      · exact h
      · exact absurd hsl (List.not_mem_nil sl)
  | cons sl0 rest ih =>
    intro st k
    obtain ⟨a, b⟩ := sl0
    cases b with
    | skipped =>
      rw [level_collect_cons_skipped, ih]
      constructor
      · rintro (h | ⟨sl, hsl, hm, hk⟩)
        · exact Or.inl h
        · exact Or.inr ⟨sl, List.mem_cons_of_mem _ hsl, hm, hk⟩
      · rintro (h | ⟨sl, hsl, ⟨m, hm⟩, hk⟩)
        · exact Or.inl h
        · rcases List.mem_cons.mp hsl with rfl | hsl
          · exact Slot.noConfusion hm
          · exact Or.inr ⟨sl, hsl, ⟨m, hm⟩, hk⟩
    | launched res =>
      cases res with
      | error m0 =>
        rw [level_collect_cons_error, ih]
        constructor
        · rintro (h | ⟨sl, hsl, hm, hk⟩)
          · rcases (addSet_mem _ _ _).mp h with h | h
            · exact Or.inl h
            · exact Or.inr ⟨(a, Slot.launched (Except.error m0)),
                List.mem_cons_self _ _, ⟨m0, rfl⟩, h⟩
          · exact Or.inr ⟨sl, List.mem_cons_of_mem _ hsl, hm, hk⟩
        · rintro (h | ⟨sl, hsl, hm, hk⟩)
          · exact Or.inl ((addSet_mem _ _ _).mpr (Or.inl h))
          · rcases List.mem_cons.mp hsl with rfl | hsl
            · exact Or.inl ((addSet_mem _ _ _).mpr (Or.inr hk))
            · exact Or.inr ⟨sl, hsl, hm, hk⟩
      | ok out =>
        rw [level_collect_cons_ok_zeta, ih, collect_ok_state_step_failed]
        constructor
        · rintro (h | ⟨sl, hsl, hm, hk⟩)
          · exact Or.inl h
          · exact Or.inr ⟨sl, List.mem_cons_of_mem _ hsl, hm, hk⟩
        · rintro (h | ⟨sl, hsl, ⟨m, hm⟩, hk⟩)
          · exact Or.inl h
          · rcases List.mem_cons.mp hsl with rfl | hsl
            · exact Except.noConfusion (Slot.launched.inj hm)
            · exact Or.inr ⟨sl, hsl, ⟨m, hm⟩, hk⟩

theorem c2_prepare_step {α : Type} (env : EngineEnv α) (p : Pipeline α) (X : String)
    (hn : (allOpIds p).Nodup) (hacyc : AcyclicRank p)
    (hlogF : ∀ k, env.step_completed_log k = false)
    (hoplog : ∀ k, env.op_completed_log k = false)
    (hknown : ∀ k, env.known_key k = true)
    (hexec : ∀ s ∈ p.steps, ∀ r ∈ s.operators, ∀ d,
      (r.id = X → ∃ m, env.exec_op r.operator_key d = Except.error m) ∧
      (r.id ≠ X → ∃ out, env.exec_op r.operator_key d = Except.ok out))
    (P : List String) (st : EngineState α) (slots : List (String × Slot α))
    (op : String) (hop : op ∈ allOpIds p)
    (hpredP : ∀ u, edgeStep p.edges u op → u ∈ P)
    (hf1 : ∀ u ∈ st.failed_ops, u = X ∨ Reaches p.edges X u)
    (hf2 : ∀ u ∈ P, (u = X ∨ Reaches p.edges X u) → u ∈ st.failed_ops)
    (hnc : ((build_op_map p).2 op).getD "" ∉ st.step_completed) :
    ∃ st2 sl, level_prepare env p (st, slots) op = (st2, slots ++ [(op, sl)]) ∧
      st2.step_completed = st.step_completed ∧
      (∀ u, u ∈ st2.failed_ops ↔
        (u ∈ st.failed_ops ∨ (Reaches p.edges X op ∧ op ≠ X ∧ u = op))) ∧
      (∀ u, u ∈ st2.invoked ↔
        (u ∈ st.invoked ∨ (¬ (Reaches p.edges X op ∧ op ≠ X) ∧ u = op))) ∧
      (∀ k, k ∈ st2.step_failed ↔
        (k ∈ st.step_failed ∨ ((Reaches p.edges X op ∧ op ≠ X) ∧
          k = ((build_op_map p).2 op).getD ""))) ∧
      ((Reaches p.edges X op ∧ op ≠ X) → sl = Slot.skipped) ∧
      (op = X → ∃ m, sl = Slot.launched (Except.error m)) ∧
      (¬ (op = X ∨ Reaches p.edges X op) → ∃ out, sl = Slot.launched (Except.ok out)) := by
  by_cases hX : op = X
  · have hc1 : (get_upstream_ops op p.edges).any (fun u => u ∈ st.failed_ops) = false := by
      cases hany : (get_upstream_ops op p.edges).any (fun u => u ∈ st.failed_ops) with
      | false => rfl
      | true =>
        exfalso
        obtain ⟨u, hu, hdec⟩ := List.any_eq_true.mp hany
        have humem : u ∈ st.failed_ops := of_decide_eq_true hdec
        have hstep : edgeStep p.edges u op := (get_upstream_mem op p.edges u).mp hu
        rcases hf1 u humem with rfl | hru
        · exact acyclic_no_self_reach p hacyc _
            (Relation.TransGen.single (hX ▸ hstep))
        · exact acyclic_no_self_reach p hacyc _
            (Relation.TransGen.tail hru (hX ▸ hstep))
    obtain ⟨s, hs, o, ho, hoid⟩ := (mem_allOpIds p op).mp hop
    have hl := op_lookup p hn s hs o ho
    have hor2 : ((build_op_map p).1 op).getD defaultOpRef = o := by
      rw [← hoid, hl.1]
      rfl
    have hc2 : ¬ (((build_op_map p).2 op).getD "" ∉ st.step_started ∧
        env.step_completed_log (((build_op_map p).2 op).getD "") = true) := by
      intro hcon
      rw [hlogF] at hcon
      exact Bool.noConfusion hcon.2
    have heq0 := level_prepare_case_d env p st slots op hc1 hc2 hnc
    rw [hor2] at heq0
    have heq1 : level_prepare env p (st, slots) op =
        (if (run_op env o (gather_inputs op p.edges st.op_outputs)).2 = true then
          { st with
              step_started := addSet st.step_started (((build_op_map p).2 op).getD ""),
              invoked := st.invoked ++ [op] }
        else
          { st with
              step_started := addSet st.step_started (((build_op_map p).2 op).getD "") },
         slots ++ [(op, Slot.launched
           (run_op env o (gather_inputs op p.edges st.op_outputs)).1)]) := heq0
    rw [run_op_exec env o (gather_inputs op p.edges st.op_outputs)
      (hknown _) (hoplog _)] at heq1
    have heq : level_prepare env p (st, slots) op =
        ({ st with
             step_started := addSet st.step_started (((build_op_map p).2 op).getD ""),
             invoked := st.invoked ++ [op] },
         slots ++ [(op, Slot.launched (env.exec_op o.operator_key
           (merged_inputs o (gather_inputs op p.edges st.op_outputs))))]) := heq1
    obtain ⟨m, hm⟩ := (hexec s hs o ho
      (merged_inputs o (gather_inputs op p.edges st.op_outputs))).1
      (by rw [hoid]; exact hX)
    refine ⟨_, _, heq, rfl, ?_, ?_, ?_, ?_, ?_, ?_⟩
    · intro u
      constructor
      · exact fun h => Or.inl h
      · rintro (h | ⟨hr, hne, rfl⟩)
        · exact h
        · exact absurd hX hne
    · intro u
      constructor
      · intro h
        rcases List.mem_append.mp h with h | h
        · exact Or.inl h
        · exact Or.inr ⟨fun hcon => hcon.2 hX, List.mem_singleton.mp h⟩
      · rintro (h | ⟨_, rfl⟩)
        · exact List.mem_append_left _ h
        · exact List.mem_append_right _ (List.mem_singleton.mpr rfl)
    · intro k
      constructor
      · exact fun h => Or.inl h
      · rintro (h | ⟨⟨_, hne⟩, _⟩)
        · exact h
        · exact absurd hX hne
    · intro hcon
      exact absurd hX hcon.2
    · intro _
      exact ⟨m, by rw [hm]⟩
    · intro hcon
      exact absurd (Or.inl hX) hcon
  · by_cases hR : Reaches p.edges X op
    · have hex : ∃ u, edgeStep p.edges u op ∧ (u = X ∨ Reaches p.edges X u) := by
        cases hR with
        | single h1 => exact ⟨X, h1, Or.inl rfl⟩
        | tail hXu huop => exact ⟨_, huop, Or.inr hXu⟩
      obtain ⟨u, hstep, hbu⟩ := hex
      have hufail : u ∈ st.failed_ops := hf2 u (hpredP u hstep) hbu
      have hc1 : (get_upstream_ops op p.edges).any (fun u => u ∈ st.failed_ops) = true :=
        List.any_eq_true.mpr ⟨u, (get_upstream_mem op p.edges u).mpr hstep,
          decide_eq_true hufail⟩
      refine ⟨_, _, level_prepare_case_a env p st slots op hc1, rfl, ?_, ?_, ?_,
        fun _ => rfl, ?_, ?_⟩
      · intro v
        constructor
        · intro h
          rcases (addSet_mem _ _ _).mp h with h | h
          · exact Or.inl h
          · exact Or.inr ⟨hR, hX, h⟩
        · rintro (h | ⟨_, _, rfl⟩)
          · exact (addSet_mem _ _ _).mpr (Or.inl h)
          · exact (addSet_mem _ _ _).mpr (Or.inr rfl)
      · intro v
        constructor
        · exact fun h => Or.inl h
        · rintro (h | ⟨hcon, rfl⟩)
          · exact h
          · exact absurd ⟨hR, hX⟩ hcon
      · intro k
        constructor
        · intro h
          rcases (addSet_mem _ _ _).mp h with h | h
          · exact Or.inl h
          · exact Or.inr ⟨⟨hR, hX⟩, h⟩
        · rintro (h | ⟨_, rfl⟩)
          · exact (addSet_mem _ _ _).mpr (Or.inl h)
          · exact (addSet_mem _ _ _).mpr (Or.inr rfl)
      · intro h
        exact absurd h hX
      · intro hcon
        exact absurd (Or.inr hR) hcon
    · have hc1 : (get_upstream_ops op p.edges).any (fun u => u ∈ st.failed_ops) = false := by
        cases hany : (get_upstream_ops op p.edges).any (fun u => u ∈ st.failed_ops) with
        | false => rfl
        | true =>
          exfalso
          obtain ⟨u, hu, hdec⟩ := List.any_eq_true.mp hany
          have humem : u ∈ st.failed_ops := of_decide_eq_true hdec
          have hstep : edgeStep p.edges u op := (get_upstream_mem op p.edges u).mp hu
          rcases hf1 u humem with rfl | hru
          · exact hR (Relation.TransGen.single hstep)
          · exact hR (Relation.TransGen.tail hru hstep)
      obtain ⟨s, hs, o, ho, hoid⟩ := (mem_allOpIds p op).mp hop
      have hl := op_lookup p hn s hs o ho
      have hor2 : ((build_op_map p).1 op).getD defaultOpRef = o := by
        rw [← hoid, hl.1]
        rfl
      have hc2 : ¬ (((build_op_map p).2 op).getD "" ∉ st.step_started ∧
          env.step_completed_log (((build_op_map p).2 op).getD "") = true) := by
        intro hcon
        rw [hlogF] at hcon
        exact Bool.noConfusion hcon.2
      have heq0 := level_prepare_case_d env p st slots op hc1 hc2 hnc
      rw [hor2] at heq0
      have heq1 : level_prepare env p (st, slots) op =
          (if (run_op env o (gather_inputs op p.edges st.op_outputs)).2 = true then
            { st with
                step_started := addSet st.step_started (((build_op_map p).2 op).getD ""),
                invoked := st.invoked ++ [op] }
          else
            { st with
                step_started := addSet st.step_started (((build_op_map p).2 op).getD "") },
           slots ++ [(op, Slot.launched
             (run_op env o (gather_inputs op p.edges st.op_outputs)).1)]) := heq0
      rw [run_op_exec env o (gather_inputs op p.edges st.op_outputs)
        (hknown _) (hoplog _)] at heq1
      have heq : level_prepare env p (st, slots) op =
          ({ st with
               step_started := addSet st.step_started (((build_op_map p).2 op).getD ""),
               invoked := st.invoked ++ [op] },
           slots ++ [(op, Slot.launched (env.exec_op o.operator_key
             (merged_inputs o (gather_inputs op p.edges st.op_outputs))))]) := heq1
      obtain ⟨out, hout⟩ := (hexec s hs o ho
        (merged_inputs o (gather_inputs op p.edges st.op_outputs))).2
        (by rw [hoid]; exact hX)
      refine ⟨_, _, heq, rfl, ?_, ?_, ?_, ?_, ?_, ?_⟩
      · intro u
        constructor
        · exact fun h => Or.inl h
        · rintro (h | ⟨hr, _, rfl⟩)
          · exact h
          · exact absurd hr hR
      · intro u
        constructor
        · intro h
          rcases List.mem_append.mp h with h | h
          · exact Or.inl h
          · exact Or.inr ⟨fun hcon => hR hcon.1, List.mem_singleton.mp h⟩
        · rintro (h | ⟨_, rfl⟩)
          · exact List.mem_append_left _ h
          · exact List.mem_append_right _ (List.mem_singleton.mpr rfl)
      · intro k
        constructor
        · exact fun h => Or.inl h
        · rintro (h | ⟨⟨hr, _⟩, _⟩)
          · exact h
          · exact absurd hr hR
      · intro hcon
        exact absurd hcon.1 hR
      · intro hXX
        exact absurd hXX hX
      · intro _
        exact ⟨out, by rw [hout]⟩

theorem c2_prepare_fold {α : Type} (env : EngineEnv α) (p : Pipeline α) (X : String)
    (hn : (allOpIds p).Nodup) (hacyc : AcyclicRank p)
    (hlogF : ∀ k, env.step_completed_log k = false)
    (hoplog : ∀ k, env.op_completed_log k = false)
    (hknown : ∀ k, env.known_key k = true)
    (hexec : ∀ s ∈ p.steps, ∀ r ∈ s.operators, ∀ d,
      (r.id = X → ∃ m, env.exec_op r.operator_key d = Except.error m) ∧
      (r.id ≠ X → ∃ out, env.exec_op r.operator_key d = Except.ok out))
    (P : List String) :
    ∀ (ops : List String) (st : EngineState α) (slots : List (String × Slot α)),
      (∀ x ∈ ops, x ∈ allOpIds p) →
      (∀ x ∈ ops, ∀ u, edgeStep p.edges u x → u ∈ P) →
      (∀ x ∈ ops, ((build_op_map p).2 x).getD "" ∉ st.step_completed) →
      (∀ u ∈ st.failed_ops, u = X ∨ Reaches p.edges X u) →
      (∀ u ∈ P, (u = X ∨ Reaches p.edges X u) → u ∈ st.failed_ops) →
      ∃ st2 sl2, ops.foldl (level_prepare env p) (st, slots) = (st2, slots ++ sl2) ∧
        st2.step_completed = st.step_completed ∧
        (∀ u, u ∈ st2.failed_ops ↔
          (u ∈ st.failed_ops ∨ (u ∈ ops ∧ Reaches p.edges X u ∧ u ≠ X))) ∧
        (∀ u, u ∈ st2.invoked ↔
          (u ∈ st.invoked ∨ (u ∈ ops ∧ ¬ (Reaches p.edges X u ∧ u ≠ X)))) ∧
        (∀ k, k ∈ st2.step_failed ↔
          (k ∈ st.step_failed ∨ ∃ x ∈ ops, (Reaches p.edges X x ∧ x ≠ X) ∧
            k = ((build_op_map p).2 x).getD "")) ∧
        (∀ sl ∈ sl2, sl.1 ∈ ops ∧
          ((Reaches p.edges X sl.1 ∧ sl.1 ≠ X) → sl.2 = Slot.skipped) ∧
          (sl.1 = X → ∃ m, sl.2 = Slot.launched (Except.error m)) ∧
          (¬ (sl.1 = X ∨ Reaches p.edges X sl.1) →
            ∃ out, sl.2 = Slot.launched (Except.ok out))) ∧
        (∀ x ∈ ops, ∃ sl ∈ sl2, sl.1 = x) := by
  intro ops
  induction ops with
  | nil =>
    intro st slots _ _ _ hf1 _
    refine ⟨st, [], by rw [List.foldl_nil, List.append_nil], rfl, ?_, ?_, ?_, ?_, ?_⟩
    · intro u
      constructor
      · exact Or.inl
      · rintro (h | ⟨hmem, _⟩)
        · exact h
        · exact absurd hmem (List.not_mem_nil u)
    · intro u
      constructor
      · exact Or.inl
      · rintro (h | ⟨hmem, _⟩)
        · exact h
        · exact absurd hmem (List.not_mem_nil u)
    · intro k
      constructor
      · exact Or.inl
      · rintro (h | ⟨x, hx, _⟩)
        · exact h
        · exact absurd hx (List.not_mem_nil x)
    · intro sl hsl
      exact absurd hsl (List.not_mem_nil sl)
    · intro x hx
      exact absurd hx (List.not_mem_nil x)
  | cons op rest ih =>
    intro st slots hsub hpreds hncs hf1 hf2
    obtain ⟨st1, sl, heq1, hcomp1, hfio1, hinv1, hsf1, hskip1, herr1, hok1⟩ :=
      c2_prepare_step env p X hn hacyc hlogF hoplog hknown hexec P st slots op
        (hsub op (List.mem_cons_self _ _)) (hpreds op (List.mem_cons_self _ _))
        hf1 hf2 (hncs op (List.mem_cons_self _ _))
    rw [List.foldl_cons, heq1]
    obtain ⟨st2, sl2, heq2, hcomp2, hfio2, hinv2, hsf2, hspec2, hall2⟩ :=
      ih st1 (slots ++ [(op, sl)])
        (fun x hx => hsub x (List.mem_cons_of_mem _ hx))
        (fun x hx => hpreds x (List.mem_cons_of_mem _ hx))
        (fun x hx => by
          rw [hcomp1]
          exact hncs x (List.mem_cons_of_mem _ hx))
        (fun u hu => by
          rcases (hfio1 u).mp hu with h | ⟨hr, _, hueq⟩
          · exact hf1 u h
          · exact Or.inr (hueq.symm ▸ hr))
        (fun u hu hb => (hfio1 u).mpr (Or.inl (hf2 u hu hb)))
    refine ⟨st2, (op, sl) :: sl2, ?_, by rw [hcomp2, hcomp1], ?_, ?_, ?_, ?_, ?_⟩
    · rw [heq2, List.append_assoc]
      rfl
    · intro u
      rw [hfio2 u, hfio1 u]
      constructor
      · rintro ((h | ⟨hr, hne, rfl⟩) | ⟨hmem, hr, hne⟩)
        · exact Or.inl h
        · exact Or.inr ⟨List.mem_cons_self _ _, hr, hne⟩
        · exact Or.inr ⟨List.mem_cons_of_mem _ hmem, hr, hne⟩
      · rintro (h | ⟨hmem, hr, hne⟩)
        · exact Or.inl (Or.inl h)
        · rcases List.mem_cons.mp hmem with rfl | hmem
          · exact Or.inl (Or.inr ⟨hr, hne, rfl⟩)
          · exact Or.inr ⟨hmem, hr, hne⟩
    · intro u
      rw [hinv2 u, hinv1 u]
      constructor
      · rintro ((h | ⟨hcon, rfl⟩) | ⟨hmem, hcon⟩)
        · exact Or.inl h
        · exact Or.inr ⟨List.mem_cons_self _ _, hcon⟩
        · exact Or.inr ⟨List.mem_cons_of_mem _ hmem, hcon⟩
      · rintro (h | ⟨hmem, hcon⟩)
        · exact Or.inl (Or.inl h)
        · rcases List.mem_cons.mp hmem with rfl | hmem
          · exact Or.inl (Or.inr ⟨hcon, rfl⟩)
          · exact Or.inr ⟨hmem, hcon⟩
    · intro k
      rw [hsf2 k, hsf1 k]
      constructor
      · rintro ((h | ⟨hb, rfl⟩) | ⟨x, hx, hb, hk⟩)
        · exact Or.inl h
        · exact Or.inr ⟨op, List.mem_cons_self _ _, hb, rfl⟩
        · exact Or.inr ⟨x, List.mem_cons_of_mem _ hx, hb, hk⟩
      · rintro (h | ⟨x, hx, hb, hk⟩)
        · exact Or.inl (Or.inl h)
        · rcases List.mem_cons.mp hx with rfl | hx
          · exact Or.inl (Or.inr ⟨hb, hk⟩)
          · exact Or.inr ⟨x, hx, hb, hk⟩
    · intro sl3 hsl3
      rcases List.mem_cons.mp hsl3 with rfl | hsl3
      · exact ⟨List.mem_cons_self _ _, hskip1, herr1, hok1⟩
      · obtain ⟨h1, h2, h3, h4⟩ := hspec2 sl3 hsl3
        exact ⟨List.mem_cons_of_mem _ h1, h2, h3, h4⟩
    · intro x hx
      rcases List.mem_cons.mp hx with rfl | hx
      · exact ⟨(x, sl), List.mem_cons_self _ _, rfl⟩
      · obtain ⟨sl3, hsl3, he⟩ := hall2 x hx
        exact ⟨sl3, List.mem_cons_of_mem _ hsl3, he⟩

theorem c2_run_level {α : Type} (env : EngineEnv α) (p : Pipeline α) (X : String)
    (hn : (allOpIds p).Nodup) (hacyc : AcyclicRank p)
    (hlogF : ∀ k, env.step_completed_log k = false)
    (hoplog : ∀ k, env.op_completed_log k = false)
    (hknown : ∀ k, env.known_key k = true)
    (hexec : ∀ s ∈ p.steps, ∀ r ∈ s.operators, ∀ d,
      (r.id = X → ∃ m, env.exec_op r.operator_key d = Except.error m) ∧
      (r.id ≠ X → ∃ out, env.exec_op r.operator_key d = Except.ok out))
    (P : List String) (lv : List String) (st : EngineState α)
    (hlvsub : ∀ x ∈ lv, x ∈ allOpIds p)
    (hpredlv : ∀ x ∈ lv, ∀ u, edgeStep p.edges u x → u ∈ P)
    (hnc : ∀ x ∈ lv, ((build_op_map p).2 x).getD "" ∉ st.step_completed)
    (i1 : ∀ u, u ∈ st.failed_ops ↔ (u ∈ P ∧ (u = X ∨ Reaches p.edges X u)))
    (i2 : ∀ u, u ∈ st.invoked ↔ (u ∈ P ∧ ¬ Reaches p.edges X u))
    (i3 : ∀ k ∈ st.step_completed, ∃ lo : OpRef α,
      ((stepMap p k).getD defaultStep).operators.getLast? = some lo ∧ lo.id ∈ P) :
    (∀ u, u ∈ (run_level env p st lv).failed_ops ↔
      ((u ∈ P ∨ u ∈ lv) ∧ (u = X ∨ Reaches p.edges X u))) ∧
    (∀ u, u ∈ (run_level env p st lv).invoked ↔
      ((u ∈ P ∨ u ∈ lv) ∧ ¬ Reaches p.edges X u)) ∧
    (∀ k, k ∈ (run_level env p st lv).step_failed ↔
      (k ∈ st.step_failed ∨ ∃ x ∈ lv, (x = X ∨ Reaches p.edges X x) ∧
        k = ((build_op_map p).2 x).getD "")) ∧
    (∀ k ∈ (run_level env p st lv).step_completed, ∃ lo : OpRef α,
      ((stepMap p k).getD defaultStep).operators.getLast? = some lo ∧
        (lo.id ∈ P ∨ lo.id ∈ lv)) := by
  have hf1 : ∀ u ∈ st.failed_ops, u = X ∨ Reaches p.edges X u :=
    fun u hu => ((i1 u).mp hu).2
  have hf2 : ∀ u ∈ P, (u = X ∨ Reaches p.edges X u) → u ∈ st.failed_ops :=
    fun u hu hb => (i1 u).mpr ⟨hu, hb⟩
  obtain ⟨st2, sl2, heq, hcomp, hfio, hinv, hsf, hspec, hall⟩ :=
    c2_prepare_fold env p X hn hacyc hlogF hoplog hknown hexec P lv st []
      hlvsub hpredlv hnc hf1 hf2
  have hrl : run_level env p st lv = level_collect p st2 sl2 := by
    show level_collect p (lv.foldl (level_prepare env p) (st, [])).1
      (lv.foldl (level_prepare env p) (st, [])).2 = level_collect p st2 sl2
    rw [heq]
    show level_collect p st2 ([] ++ sl2) = level_collect p st2 sl2
    rw [List.nil_append]
  rw [hrl]
  refine ⟨?_, ?_, ?_, ?_⟩
  · intro u
    rw [collect_failed_mem p sl2 st2 u, hfio u]
    constructor
    · rintro ((h | ⟨hmem, hr, hne⟩) | ⟨sl, hsl, h1, m, h2⟩)
      · exact ⟨Or.inl ((i1 u).mp h).1, ((i1 u).mp h).2⟩
      · exact ⟨Or.inr hmem, Or.inr hr⟩
      · obtain ⟨hslin, hskip, herr, hok⟩ := hspec sl hsl
        by_cases hXeq : sl.1 = X
        · exact ⟨Or.inr (h1 ▸ hslin), Or.inl (h1 ▸ hXeq)⟩
        · by_cases hRr : Reaches p.edges X sl.1
          · have hsk := hskip ⟨hRr, hXeq⟩
            rw [hsk] at h2
            exact Slot.noConfusion h2
          · obtain ⟨out, hout⟩ := hok (fun hcon => hcon.elim hXeq hRr)
            rw [hout] at h2
            exact Except.noConfusion (Slot.launched.inj h2)
    · rintro ⟨hmem | hmem, hb⟩
      · exact Or.inl (Or.inl ((i1 u).mpr ⟨hmem, hb⟩))
      · rcases hb with rfl | hr
        · obtain ⟨sl, hsl, hX1⟩ := hall u hmem
          obtain ⟨hslin, hskip, herr, hok⟩ := hspec sl hsl
          obtain ⟨m, hm⟩ := herr hX1
          exact Or.inr ⟨sl, hsl, hX1, m, hm⟩
        · by_cases hXeq : u = X
          · obtain ⟨sl, hsl, hX1⟩ := hall u hmem
            obtain ⟨hslin, hskip, herr, hok⟩ := hspec sl hsl
            obtain ⟨m, hm⟩ := herr (by rw [hX1]; exact hXeq)
            exact Or.inr ⟨sl, hsl, hX1, m, hm⟩
          · exact Or.inl (Or.inr ⟨hmem, hr, hXeq⟩)
  · intro u
    rw [collect_invoked_eq p sl2 st2, hinv u]
    constructor
    · rintro (h | ⟨hmem, hcon⟩)
      · exact ⟨Or.inl ((i2 u).mp h).1, ((i2 u).mp h).2⟩
      · exact ⟨Or.inr hmem, fun hr => hcon ⟨hr,
          fun hXeq => acyclic_no_self_reach p hacyc X (hXeq ▸ hr)⟩⟩
    · rintro ⟨hmem | hmem, hnr⟩
      · exact Or.inl ((i2 u).mpr ⟨hmem, hnr⟩)
      · exact Or.inr ⟨hmem, fun hcon => hnr hcon.1⟩
  · intro k
    rw [collect_step_failed_mem p sl2 st2 k, hsf k]
    constructor
    · rintro ((h | ⟨x, hx, hb, hk⟩) | ⟨sl, hsl, ⟨m, hm⟩, hk⟩)
      · exact Or.inl h
      · exact Or.inr ⟨x, hx, Or.inr hb.1, hk⟩
      · obtain ⟨hslin, hskip, herr, hok⟩ := hspec sl hsl
        by_cases hXeq : sl.1 = X
        · exact Or.inr ⟨sl.1, hslin, Or.inl hXeq, hk⟩
        · by_cases hRr : Reaches p.edges X sl.1
          · rw [hskip ⟨hRr, hXeq⟩] at hm
            exact Slot.noConfusion hm
          · obtain ⟨out, hout⟩ := hok (fun hcon => hcon.elim hXeq hRr)
            rw [hout] at hm
            exact Except.noConfusion (Slot.launched.inj hm)
    · rintro (h | ⟨x, hx, hb, hk⟩)
      · exact Or.inl (Or.inl h)
      · rcases hb with rfl | hr
        · obtain ⟨sl, hsl, hX1⟩ := hall x hx
          obtain ⟨hslin, hskip, herr, hok⟩ := hspec sl hsl
          obtain ⟨m, hm⟩ := herr hX1
          exact Or.inr ⟨sl, hsl, ⟨m, hm⟩, by rw [hk, hX1]⟩
        · by_cases hXeq : x = X
          · obtain ⟨sl, hsl, hX1⟩ := hall x hx
            obtain ⟨hslin, hskip, herr, hok⟩ := hspec sl hsl
            obtain ⟨m, hm⟩ := herr (by rw [hX1]; exact hXeq)
            exact Or.inr ⟨sl, hsl, ⟨m, hm⟩, by rw [hk, hX1]⟩
          · exact Or.inl (Or.inr ⟨x, hx, ⟨hr, hXeq⟩, hk⟩)
  · intro k hk
    rcases collect_completed_mem p sl2 st2 k hk with h | ⟨sl, hsl, h1, h2⟩
    · rw [hcomp] at h
      obtain ⟨lo, ha, hb⟩ := i3 k h
      exact ⟨lo, ha, Or.inl hb⟩
    · obtain ⟨lo, hlo, hloid⟩ := Option.map_eq_some'.mp h2
      exact ⟨lo, hlo, Or.inr (by rw [hloid]; exact (hspec sl hsl).1)⟩

theorem c2_levels_fold {α : Type} (env : EngineEnv α) (p : Pipeline α) (X : String)
    (hn : (allOpIds p).Nodup) (hk : (p.steps.map (fun s => s.key)).Nodup)
    (hacyc : AcyclicRank p)
    (hlogF : ∀ k, env.step_completed_log k = false)
    (hoplog : ∀ k, env.op_completed_log k = false)
    (hknown : ∀ k, env.known_key k = true)
    (hexec : ∀ s ∈ p.steps, ∀ r ∈ s.operators, ∀ d,
      (r.id = X → ∃ m, env.exec_op r.operator_key d = Except.error m) ∧
      (r.id ≠ X → ∃ out, env.exec_op r.operator_key d = Except.ok out))
    (lvs : List (List String))
    (hsub : ∀ x ∈ lvs.flatten, x ∈ allOpIds p)
    (hpredk : ∀ j v, v ∈ lvs.getD j [] → ∀ u, edgeStep p.edges u v →
      ∃ i < j, u ∈ lvs.getD i [])
    (hlast : ∀ s ∈ p.steps, ∀ lo : OpRef α, s.operators.getLast? = some lo →
      ∀ o ∈ s.operators, ∀ j1 j2 : Nat, j1 < lvs.length → j2 < lvs.length →
        o.id ∈ lvs.getD j1 [] → lo.id ∈ lvs.getD j2 [] → j1 ≤ j2) :
    ∀ (todo done : List (List String)) (st : EngineState α),
      lvs = done ++ todo →
      (∀ u, u ∈ st.failed_ops ↔
        (u ∈ done.flatten ∧ (u = X ∨ Reaches p.edges X u))) →
      (∀ u, u ∈ st.invoked ↔ (u ∈ done.flatten ∧ ¬ Reaches p.edges X u)) →
      (∀ k, k ∈ st.step_failed ↔ ∃ x ∈ done.flatten,
        (x = X ∨ Reaches p.edges X x) ∧ k = ((build_op_map p).2 x).getD "") →
      (∀ k ∈ st.step_completed, ∃ lo : OpRef α,
        ((stepMap p k).getD defaultStep).operators.getLast? = some lo ∧
          lo.id ∈ done.flatten) →
      (∀ u, u ∈ (todo.foldl (run_level env p) st).failed_ops ↔
        (u ∈ lvs.flatten ∧ (u = X ∨ Reaches p.edges X u))) ∧
      (∀ u, u ∈ (todo.foldl (run_level env p) st).invoked ↔
        (u ∈ lvs.flatten ∧ ¬ Reaches p.edges X u)) ∧
      (∀ k, k ∈ (todo.foldl (run_level env p) st).step_failed ↔
        ∃ x ∈ lvs.flatten, (x = X ∨ Reaches p.edges X x) ∧
          k = ((build_op_map p).2 x).getD "") := by
  intro todo
  induction todo with
  | nil =>
    intro done st hsplit i1 i2 i4 i3
    rw [List.foldl_nil, hsplit, List.append_nil]
    exact ⟨i1, i2, i4⟩
  | cons lv rest ih =>
    intro done st hsplit i1 i2 i4 i3
    rw [List.foldl_cons]
    have hlvget : (done ++ lv :: rest).getD done.length [] = lv :=
      getD_append_cons done lv rest
    have hlvsub : ∀ x ∈ lv, x ∈ allOpIds p := by
      intro x hx
      apply hsub
      rw [hsplit]
      exact List.mem_flatten.mpr
        ⟨lv, List.mem_append_right _ (List.mem_cons_self _ _), hx⟩
    have hpredlv : ∀ x ∈ lv, ∀ u, edgeStep p.edges u x → u ∈ done.flatten := by
      intro x hx u hstep
      have hxg : x ∈ lvs.getD done.length [] := by
        rw [hsplit, hlvget]
        exact hx
      obtain ⟨i, hi, hu⟩ := hpredk done.length x hxg u hstep
      refine getD_mem_flatten done i u ?_
      have h2 : lvs.getD i [] = done.getD i [] := by
        rw [hsplit]
        exact getD_append_left_lt done (lv :: rest) i hi
      rw [← h2]
      exact hu
    have hnc : ∀ x ∈ lv, ((build_op_map p).2 x).getD "" ∉ st.step_completed := by
      intro x hx hkin
      obtain ⟨lo, hlolast, hloin⟩ := i3 _ hkin
      obtain ⟨s, hs, o, ho, hoid⟩ := (mem_allOpIds p x).mp (hlvsub x hx)
      have hbm : (build_op_map p).2 x = some s.key := by
        have h2 := (op_lookup p hn s hs o ho).2
        rw [hoid] at h2
        exact h2
      have hkey : ((build_op_map p).2 x).getD "" = s.key := by rw [hbm]; rfl
      have hsm : stepMap p s.key = some s := stepMap_lookup p hk s hs
      have hlolast2 : s.operators.getLast? = some lo := by
        rw [hkey, hsm] at hlolast
        exact hlolast
      obtain ⟨i, hi, hu⟩ := flatten_mem_getD_lt done lo.id hloin
      have hgi : lo.id ∈ lvs.getD i [] := by
        rw [hsplit, getD_append_left_lt done (lv :: rest) i hi]
        exact hu
      have hgx : o.id ∈ lvs.getD done.length [] := by
        rw [hsplit, hlvget, hoid]
        exact hx
      have hb1 : done.length < lvs.length := by
        rw [hsplit, List.length_append, List.length_cons]
        omega
      have hb2 : i < lvs.length := by
        rw [hsplit, List.length_append]
        omega
      have hle := hlast s hs lo hlolast2 o ho done.length i hb1 hb2 hgx hgi
      omega
    obtain ⟨j1, j2, j4, j3⟩ := c2_run_level env p X hn hacyc hlogF hoplog hknown hexec
      done.flatten lv st hlvsub hpredlv hnc i1 i2 i3
    have hfl : ∀ u : String, u ∈ (done ++ [lv]).flatten ↔
        (u ∈ done.flatten ∨ u ∈ lv) := by
      intro u
      rw [List.flatten_append, List.mem_append]
      constructor
      · rintro (h | h)
        · exact Or.inl h
        · rw [List.flatten_cons, List.flatten_nil, List.append_nil] at h
          exact Or.inr h
      · rintro (h | h)
        · exact Or.inl h
        · refine Or.inr ?_
          rw [List.flatten_cons, List.flatten_nil, List.append_nil]
          exact h
    exact ih (done ++ [lv]) (run_level env p st lv)
      (by rw [hsplit, List.append_assoc]; rfl)
      (fun u => by rw [hfl u]; exact j1 u)
      (fun u => by rw [hfl u]; exact j2 u)
      (fun k => by
        rw [j4 k, i4 k]
        constructor
        · rintro (⟨x, hx, hb, hk⟩ | ⟨x, hx, hb, hk⟩)
          · exact ⟨x, (hfl x).mpr (Or.inl hx), hb, hk⟩
          · exact ⟨x, (hfl x).mpr (Or.inr hx), hb, hk⟩
        · rintro ⟨x, hx, hb, hk⟩
          rcases (hfl x).mp hx with h | h
          · exact Or.inl ⟨x, h, hb, hk⟩
          · exact Or.inr ⟨x, h, hb, hk⟩)
      (fun k hkk => by
        obtain ⟨lo, ha, hb⟩ := j3 k hkk
        exact ⟨lo, ha, (hfl lo.id).mpr hb⟩)

/-- C2 (amended): when the operator registered for X always raises and every
other operator always succeeds, with no prior log entries, and additionally
every Step lists last an operator whose level is no earlier than all its
other members (so a step cannot be marked completed while a member is still
pending), then the failed set is exactly X together with the operators
reachable from X along non-sentinel edges, the invoked set is exactly the
operators not reachable from X, and the steps marked failed are exactly the
enclosing steps of those failed operators: every upstream-failure skip marks
its enclosing step failed, and no other step is ever marked failed. -/
theorem c2_failure_propagation {α : Type} (env : EngineEnv α) (p : Pipeline α)
    (ii : Dict α) (X : String)
    (hn : (allOpIds p).Nodup) (hk : (p.steps.map (fun s => s.key)).Nodup)
    (hv : EdgesValid p) (hacyc : AcyclicRank p)
    (hlogF : ∀ k, env.step_completed_log k = false)
    (hoplog : ∀ k, env.op_completed_log k = false)
    (hknown : ∀ k, env.known_key k = true)
    (hexec : ∀ s ∈ p.steps, ∀ r ∈ s.operators, ∀ d,
      (r.id = X → ∃ m, env.exec_op r.operator_key d = Except.error m) ∧
      (r.id ≠ X → ∃ out, env.exec_op r.operator_key d = Except.ok out))
    (lvs : List (List String)) (hlv : topological_levels p = .ok lvs)
    (hlast : ∀ s ∈ p.steps, ∀ lo : OpRef α, s.operators.getLast? = some lo →
      ∀ o ∈ s.operators, ∀ j1 j2 : Nat, j1 < lvs.length → j2 < lvs.length →
        o.id ∈ lvs.getD j1 [] → lo.id ∈ lvs.getD j2 [] → j1 ≤ j2)
    (st : EngineState α) (h : run_state env p ii = .ok st) :
    (∀ op, op ∈ st.failed_ops ↔
      (op ∈ allOpIds p ∧ (op = X ∨ Reaches p.edges X op))) ∧
    (∀ op, op ∈ st.invoked ↔ (op ∈ allOpIds p ∧ ¬ Reaches p.edges X op)) ∧
    (∀ k, k ∈ st.step_failed ↔ ∃ op ∈ allOpIds p,
      (op = X ∨ Reaches p.edges X op) ∧ k = ((build_op_map p).2 op).getD "") := by
  rw [run_state, hlv, except_bind_ok] at h
  obtain rfl := Except.ok.inj h
  have hkl := topological_levels_ok_inv p lvs hlv
  obtain ⟨lvs2, hok2, hnd2, hsub2, _, hpredk⟩ := kahnLevels_spec p hv
  rw [hkl] at hok2
  obtain rfl := Except.ok.inj hok2
  have hsum : ((lvs.map (fun lv => lv.length)).sum) = (allOpIds p).length := by
    rw [topological_levels, hkl, except_bind_ok] at hlv
    by_cases hc : (lvs.map (fun lv => lv.length)).sum ≠ (allOpIds p).length
    · rw [if_pos hc] at hlv
      exact absurd hlv (by simp)
    · exact not_not.mp hc
  have hflen : lvs.flatten.length = (allOpIds p).length := by
    rw [List.length_flatten]
    exact hsum
  have hperm : lvs.flatten.Perm (allOpIds p) :=
    (hnd2.subperm (fun a ha => hsub2 a ha)).perm_of_length_le (le_of_eq hflen.symm)
  have hmemiff : ∀ x : String, x ∈ lvs.flatten ↔ x ∈ allOpIds p :=
    fun x => hperm.mem_iff
  obtain ⟨c1, c2, c3⟩ := c2_levels_fold env p X hn hk hacyc hlogF hoplog hknown hexec
    lvs hsub2 hpredk hlast lvs [] (initial_state ii) rfl
    (fun u => by
      constructor
      · intro hcon
        exact absurd hcon (List.not_mem_nil u)
      · rintro ⟨hcon, _⟩
        exact absurd hcon (List.not_mem_nil u))
    (fun u => by
      constructor
      · intro hcon
        exact absurd hcon (List.not_mem_nil u)
      · rintro ⟨hcon, _⟩
        exact absurd hcon (List.not_mem_nil u))
    (fun k => by
      constructor
      · intro hcon
        exact absurd hcon (List.not_mem_nil k)
      · rintro ⟨x, hx, _⟩
        exact absurd hx (List.not_mem_nil x))
    (fun k hkk => absurd hkk (List.not_mem_nil k))
  refine ⟨?_, ?_, ?_⟩
  · intro op
    rw [c1 op, hmemiff op]
  · intro op
    rw [c2 op, hmemiff op]
  · intro k
    rw [c3 k]
    constructor
    · rintro ⟨x, hx, hb, hk2⟩
      exact ⟨x, (hmemiff x).mp hx, hb, hk2⟩
    · rintro ⟨x, hx, hb, hk2⟩
      exact ⟨x, (hmemiff x).mpr hx, hb, hk2⟩

/-- C2 counterexample: in cexStepLast, step s2 lists A before B while B feeds
A, so B completes s2 one level before A runs.  F fails, A is not reachable
from F, yet A is silently dropped: never invoked, never failed — against the
claim that operators not reachable from the failing operator still execute
normally. -/
theorem c2_counterexample :
    "A" ∈ allOpIds cexStepLast ∧
    ¬ Reaches cexStepLast.edges "F" "A" ∧
    failedOf (run_state cexEnv cexStepLast Dict.empty) = ["F"] ∧
    invokedOf (run_state cexEnv cexStepLast Dict.empty) = ["F", "B"] ∧
    "A" ∉ invokedOf (run_state cexEnv cexStepLast Dict.empty) ∧
    "A" ∉ failedOf (run_state cexEnv cexStepLast Dict.empty) := by
  refine ⟨by decide, ?_, rfl, rfl, ?_, ?_⟩
  · apply no_edge_no_reach
    rintro v ⟨e, he, h1, h2, h3⟩
    have he2 : e = ({ id := "e1", source_op := "B", source_port := "x", target_op := "A", target_port := "x" } : Edge) := List.mem_singleton.mp he
    rw [he2] at h1
    exact absurd h1 (by decide)
  · rw [show invokedOf (run_state cexEnv cexStepLast Dict.empty) = ["F", "B"] from rfl]
    decide
  · rw [show failedOf (run_state cexEnv cexStepLast Dict.empty) = ["F"] from rfl]
    decide

/-- Witness for c2_failure_propagation on witPipelineC2 (A feeds B, C is
independent, kA raises): the independent C is invoked, B — reachable from
the failing A — lands in the failed set, and B's enclosing step sB is marked
failed by that skip. -/
theorem c2_failure_propagation_witness :
    ("C" ∈ invokedOf (run_state witEnvC2 witPipelineC2 Dict.empty) ↔
      ("C" ∈ allOpIds witPipelineC2 ∧ ¬ Reaches witPipelineC2.edges "A" "C")) ∧
    ("B" ∈ failedOf (run_state witEnvC2 witPipelineC2 Dict.empty) ↔
      ("B" ∈ allOpIds witPipelineC2 ∧
        ("B" = "A" ∨ Reaches witPipelineC2.edges "A" "B"))) ∧
    ("sB" ∈ stepFailedOf (run_state witEnvC2 witPipelineC2 Dict.empty) ↔
      ∃ op ∈ allOpIds witPipelineC2,
        (op = "A" ∨ Reaches witPipelineC2.edges "A" op) ∧
        "sB" = ((build_op_map witPipelineC2).2 op).getD "") := by
  cases hr : run_state witEnvC2 witPipelineC2 Dict.empty with
  | error msg =>
    have hok : (run_state witEnvC2 witPipelineC2 Dict.empty).toBool = true := rfl
    rw [hr] at hok
    exact Bool.noConfusion hok
  | ok st =>
    obtain ⟨hfail, hinv, hsf⟩ := c2_failure_propagation witEnvC2 witPipelineC2
      Dict.empty "A" (by decide) (by decide) (by unfold EdgesValid; decide)
      ⟨fun n => if n = "B" then 1 else 0, by decide⟩
      (fun _ => rfl) (fun _ => rfl) (fun _ => rfl)
      (by
        intro s hs r hr2 d
        simp only [witPipelineC2, List.mem_cons, List.not_mem_nil, or_false] at hs
        rcases hs with rfl | rfl | rfl
        · have hr3 : r = ({ id := "A", operator_key := "kA", config_overrides := Dict.empty } : OpRef Nat) := List.mem_singleton.mp hr2
          subst hr3
          exact ⟨fun _ => ⟨"boom", rfl⟩, fun hne => absurd rfl hne⟩
        · have hr3 : r = ({ id := "B", operator_key := "kB", config_overrides := Dict.empty } : OpRef Nat) := List.mem_singleton.mp hr2
          subst hr3
          exact ⟨fun hcon => absurd hcon (by decide), fun _ => ⟨Dict.empty, rfl⟩⟩
        · have hr3 : r = ({ id := "C", operator_key := "kC", config_overrides := Dict.empty } : OpRef Nat) := List.mem_singleton.mp hr2
          subst hr3
          exact ⟨fun hcon => absurd hcon (by decide), fun _ => ⟨Dict.empty, rfl⟩⟩)
      [["A", "C"], ["B"]] rfl
      (by
        intro s hs lo hlo o ho j1 j2 hj1 hj2 hmem1 hmem2
        by_cases hled : j1 ≤ j2
        · exact hled
        · exfalso
          have hj1e : j1 = 1 := by
            simp only [List.length_cons, List.length_nil] at hj1
            omega
          have hj2e : j2 = 0 := by omega
          subst hj1e
          subst hj2e
          simp only [witPipelineC2, List.mem_cons, List.not_mem_nil, or_false] at hs
          rcases hs with rfl | rfl | rfl
          · have ho2 : o = ({ id := "A", operator_key := "kA", config_overrides := Dict.empty } : OpRef Nat) := List.mem_singleton.mp ho
            rw [ho2] at hmem1
            exact absurd hmem1 (by decide)
          · have hlo2 : lo = ({ id := "B", operator_key := "kB", config_overrides := Dict.empty } : OpRef Nat) := by
              rw [show ([({ id := "B", operator_key := "kB", config_overrides := Dict.empty } : OpRef Nat)]).getLast? = some ({ id := "B", operator_key := "kB", config_overrides := Dict.empty } : OpRef Nat) from rfl] at hlo
              exact (Option.some.inj hlo).symm
            rw [hlo2] at hmem2
            exact absurd hmem2 (by decide)
          · have ho2 : o = ({ id := "C", operator_key := "kC", config_overrides := Dict.empty } : OpRef Nat) := List.mem_singleton.mp ho
            rw [ho2] at hmem1
            exact absurd hmem1 (by decide))
      st hr
    exact ⟨hinv "C", hfail "B", hsf "sB"⟩

end Deli
